import Mathlib

/-!
# Block acceptance and transaction commitment (lib/chain/chain_accept.go)

A shallow embedding of `ProcessBlockTransactions`, `AcceptBlock`, `commitTxs` and
`CheckTransactions`, followed by theorems about them.

Conventions of the embedding:

* A 32-byte digest is the natural number it encodes; a script is a list of bytes.
* Go maps are total functions into `Option`; a pointer to a `BlockTreeNode` is the
  position of the node in the list of allocated nodes.
* `uint64` and `uint32` arithmetic is arithmetic on `Nat` reduced modulo `2^64`, `2^32`.
* The collaborators that are not part of the file (ledger lookup and commit, block
  store, script verifier, subsidy table, trusted-transaction oracle, chain switch)
  are parameters, collected in `Env`, or fields of the chain state.
* The buffered channel `done` is a FIFO buffer plus the results of the goroutines
  that were started and whose token has not been received yet; the order in which
  those goroutines deliver is chosen by a scheduler `sched`, an arbitrary function
  of the number of receives made so far. A receive takes the head of the buffer and,
  when the buffer is empty, the token of the goroutine the scheduler picks; the tokens
  the main thread sends itself go to the buffer. The sequences of received tokens
  are those of the Go program. The test `len(done) != 0` counts the tokens in the
  buffer and the goroutines not yet received from, and a send by the main thread
  needs room for all of them.
* Errors are values of `CommitError`, one constructor per message of the source.
* A run either returns, panics, or blocks for ever (`Res`). The panics of the source are
  kept: the explicit ones, an index lookup in an empty `TxIn`, a nil `BlockTreeNode`
  pointer, and the slice `bl.Raw[:80]` of `AcceptBlock` on a block with fewer than 80
  bytes of raw data.
-/

namespace Gocoin

/-! ## Data model -/

/-- Result of running a Go function: it returns, it panics, or the calling thread
blocks forever on a channel operation. -/
inductive Res (α : Type) where
  | ok : α → Res α
  | panic : String → Res α
  | hang : Res α

/-- Reduction to `uint64`. -/
def u64 (n : Nat) : Nat := n % 2 ^ 64

/-- Reduction to `uint32`. -/
def u32 (n : Nat) : Nat := n % 2 ^ 32

/-- Reference to a transaction output, `btc.TxPrevOut`. -/
structure TxPrevOut where
  Hash : Nat
  Vout : Nat
deriving DecidableEq, Repr

/-- Transaction output record, `btc.TxOut`. -/
structure TxOut where
  Value : Nat
  Pk_script : List Nat
  BlockHeight : Nat
deriving DecidableEq, Repr

/-- Transaction input, `btc.TxIn`. -/
structure TxIn where
  Input : TxPrevOut
  ScriptSig : List Nat
deriving DecidableEq, Repr

/-- Transaction, `btc.Tx`: its hash, inputs and outputs. -/
structure Tx where
  Hash : Nat
  TxIn : List TxIn
  TxOut : List TxOut
deriving DecidableEq, Repr

/-- Block, `btc.Block`. `ParentHash` and `BlockTime` stand for the results of the
methods of the same name, which read them from the header bytes `Raw`. `Raw` lists the
bytes of the slice up to its capacity, so that the slice expression `Raw[:80]` is in
bounds exactly when the list holds at least 80 bytes. -/
structure Block where
  Hash : Nat
  ParentHash : Nat
  BlockTime : Nat
  Raw : List Nat
  TxCount : Nat
  Txs : List Tx
  Trusted : Bool
  LastKnownHeight : Nat
deriving DecidableEq, Repr

/-- Go map from output references to output records. -/
abbrev TxMap := TxPrevOut → Option TxOut

/-- Insertion into a `TxMap`, `m[k] = v`. -/
def TxMap.set (m : TxMap) (k : TxPrevOut) (v : TxOut) : TxMap :=
  fun x => if x = k then some v else m x

/-- Deletion from a `TxMap`, `delete(m, k)`. -/
def TxMap.del (m : TxMap) (k : TxPrevOut) : TxMap :=
  fun x => if x = k then none else m x

/-- The empty map, `make(map[btc.TxPrevOut]*btc.TxOut)`. -/
def TxMap.empty : TxMap := fun _ => none

/-- Ledger delta, `BlockChanges`. -/
structure BlockChanges where
  Height : Nat
  LastKnownHeight : Nat
  AddedTxs : TxMap
  DeledTxs : TxMap

/-- Node of the block tree, `BlockTreeNode`; `Parent` and `Childs` hold pointers. -/
structure BlockTreeNode where
  BlockHash : Nat
  Height : Nat
  Parent : Option Nat
  Childs : List Nat
  TxCount : Nat
  BlockHeader : List Nat
deriving DecidableEq, Repr

/-- Invocation of a collaborator that lives outside the file. -/
inductive Call where
  | BlockAdd (height : Nat) (bl : Block)
  | CommitBlockTxs (changes : BlockChanges) (tag : Nat)
  | Sync
  | MoveToBlock (cur : Nat)

/-- Chain state, `Chain`. `nodes` is the heap of allocated tree nodes, `Unspent` is the
content of the unspent ledger as seen by its lookup, `calls` is the history of the
invocations of the block store, of the ledger commit and of the chain switch. -/
structure Chain where
  nodes : List BlockTreeNode
  BlockIndex : Nat → Option Nat
  BlockTreeEnd : Nat
  Unspent : TxPrevOut → Option TxOut
  DoNotSync : Bool
  calls : List Call

/-- The parameters of the code: configuration and external collaborators. -/
structure Env where
  UseThreads : Nat
  BIP16SwitchTime : Nat
  GetBlockReward : Nat → Nat
  BIdx : Nat → Nat
  TrustedTxChecker : Option (Nat → Bool)
  VerifyTxScript : List Nat → List Nat → Nat → Tx → Bool → Bool
  /-- Whether `tx.CheckTransaction()` returns a nil error. -/
  CheckTransaction : Tx → Bool
  IsFinal : Tx → Nat → Nat → Bool
  CommitBlockTxs : (TxPrevOut → Option TxOut) → BlockChanges → Nat → (TxPrevOut → Option TxOut)
  MoveToBlock : Chain → Nat → Chain

/-- Errors returned by `commitTxs`, one constructor per `errors.New` of the source. -/
inductive CommitError where
  | doubleSpend
  | unknownInput (hash : Nat)
  | voutTooBig
  | voutAlreadySpent
  | verifyScriptsFailed
  | coinbaseLength (len : Nat)
  | moreSpent (txoutsum txinsum hash : Nat)
  | outGtIn (sumblockout sumblockin : Nat)
deriving DecidableEq, Repr

/-! ## The channel `done` -/

/-- Buffered channel of booleans together with the goroutines that will send to it. -/
structure Chan where
  cap : Nat
  buf : List Bool
  running : List Bool
  recvd : Nat
deriving DecidableEq, Repr

/-- The channel `make(chan bool, cap)`. -/
def Chan.make (cap : Nat) : Chan := { cap := cap, buf := [], running := [], recvd := 0 }

/-- Number of tokens that are in the channel or on their way to it. -/
def Chan.len (c : Chan) : Nat := c.buf.length + c.running.length

/-- A send by the main thread, `done <- v`; `none` when the buffer has no room, in which
case the main thread, the only receiver, blocks forever. -/
def Chan.send (c : Chan) (v : Bool) : Option Chan :=
  if c.len < c.cap then some { c with buf := c.buf ++ [v] } else none

/-- Start of a goroutine that will send `v`. -/
def Chan.go (c : Chan) (v : Bool) : Chan := { c with running := c.running ++ [v] }

/-- A receive by the main thread, `<-done`: the head of the buffer if there is one,
otherwise the token of the goroutine the scheduler lets finish first; `none` when
nothing can ever arrive. -/
def Chan.recv (sched : Nat → Nat) (c : Chan) : Option (Bool × Chan) :=
  match c.buf with
  | b :: rest => some (b, { c with buf := rest, recvd := c.recvd + 1 })
  | [] =>
    match c.running with
    | [] => none
    | r :: rs =>
      let k := sched c.recvd % (r :: rs).length
      some ((r :: rs).getD k r, { c with running := (r :: rs).eraseIdx k, recvd := c.recvd + 1 })

/-- The loop `for j:=0; j<n; j++ { done <- true }`. -/
def Chan.prime : Nat → Chan → Option Chan
  | 0, c => some c
  | n + 1, c =>
    match c.send true with
    | none => none
    | some c1 => Chan.prime n c1

/-- The loop `for j:=1; j<UseThreads; j++ { if !(<-done) { ok = false } }`, given the
number of its iterations. -/
def Chan.drain (sched : Nat → Nat) : Nat → Bool → Chan → Option (Bool × Chan)
  | 0, ok, c => some (ok, c)
  | n + 1, ok, c =>
    match c.recv sched with
    | none => none
    | some (tok, c1) => Chan.drain sched n (ok && tok) c1

/-! ## commitTxs -/

/-- The per-block output table `blUnsp`. -/
abbrev BlUnsp := Nat → Option (List (Option TxOut))

/-- Lookup of a ledger record, `ch.PickUnspent(inp)`. -/
def Chain.PickUnspent (ch : Chain) (inp : TxPrevOut) : Option TxOut := ch.Unspent inp

/-- Effect of `bl.Txs[i].TxOut[j].BlockHeight = changes.Height` on one transaction. -/
def stampTx (height : Nat) (tx : Tx) : Tx :=
  { tx with TxOut := tx.TxOut.map fun o => { o with BlockHeight := height } }

/-- The block after the first loop of `commitTxs`. -/
def stampBlock (bl : Block) (height : Nat) : Block :=
  { bl with Txs := bl.Txs.map (stampTx height) }

/-- The table built by the first loop of `commitTxs`: a later transaction with the
same hash replaces the entry of an earlier one. -/
def mkBlUnsp : List Tx → BlUnsp → BlUnsp
  | [], m => m
  | tx :: rest, m => mkBlUnsp rest fun h => if h = tx.Hash then some (tx.TxOut.map some) else m h

/-- Lines 134-156: the output an input refers to, from the ledger or else from the
per-block table, whose slot is then set to nil. -/
def resolve (ch : Chain) (blUnsp : BlUnsp) (inp : TxPrevOut) : Except CommitError (TxOut × BlUnsp) :=
  match ch.PickUnspent inp with
  | some tout => .ok (tout, blUnsp)
  | none =>
    match blUnsp inp.Hash with
    | none => .error (.unknownInput inp.Hash)
    | some t =>
      if u32 t.length ≤ inp.Vout then .error .voutTooBig
      else
        match t.getD inp.Vout none with
        | none => .error .voutAlreadySpent
        | some tout =>
          .ok (tout, fun h => if h = inp.Hash then some (t.set inp.Vout none) else blUnsp h)

/-- Variables of the input loop of one transaction. -/
structure InSt where
  e : Option CommitError
  scripts_ok : Bool
  done : Chan
  blUnsp : BlUnsp
  DeledTxs : TxMap
  txinsum : Nat

/-- Lines 127-175: the loop over the inputs of transaction `tx`, from input number `j` on. -/
def inputLoop (env : Env) (ch : Chain) (sched : Nat → Nat) (bl : Block) (tx : Tx)
    (tx_trusted : Bool) : Nat → List TxIn → InSt → Res InSt
  | _, [], s => .ok s
  | j, txin :: rest, s =>
    if (s.DeledTxs txin.Input).isSome then
      .ok { s with e := some .doubleSpend }
    else
      match resolve ch s.blUnsp txin.Input with
      | .error err => .ok { s with e := some err }
      | .ok (tout, blUnsp1) =>
        match s.done.recv sched with
        | none => .hang
        | some (tok, d1) =>
          if tok = false then
            .ok { s with blUnsp := blUnsp1, done := d1, scripts_ok := false }
          else
            let sent : Option Chan :=
              if tx_trusted then d1.send true
              else some (d1.go (env.VerifyTxScript txin.ScriptSig tout.Pk_script j tx
                (decide (env.BIP16SwitchTime ≤ bl.BlockTime))))
            match sent with
            | none => .hang
            | some d2 =>
              inputLoop env ch sched bl tx tx_trusted (j + 1) rest
                { s with blUnsp := blUnsp1, done := d2,
                         txinsum := u64 (s.txinsum + tout.Value),
                         DeledTxs := s.DeledTxs.set txin.Input tout }

/-- Variables of the output loop of one transaction. -/
structure OutSt where
  txoutsum : Nat
  AddedTxs : TxMap
  DeledTxs : TxMap

/-- Lines 202-213: the loop over the outputs of the transaction with hash `hash`. -/
def outputLoop (hash : Nat) : Nat → List TxOut → OutSt → OutSt
  | _, [], s => s
  | j, o :: rest, s =>
    let txa : TxPrevOut := { Hash := hash, Vout := u32 j }
    outputLoop hash (j + 1) rest
      (if (s.DeledTxs txa).isSome then
        { s with txoutsum := u64 (s.txoutsum + o.Value), DeledTxs := s.DeledTxs.del txa }
      else
        { s with txoutsum := u64 (s.txoutsum + o.Value), AddedTxs := s.AddedTxs.set txa o })

/-- Variables of `commitTxs` that live across the loop over the transactions. -/
structure CommitSt where
  changes : BlockChanges
  blUnsp : BlUnsp
  done : Chan
  sumblockin : Nat
  sumblockout : Nat

/-- Lines 115-192 for a transaction other than the first: trusted status, priming of
the channel, input loop, draining, assertion. -/
def checkInputs (env : Env) (ch : Chain) (sched : Nat → Nat) (bl : Block) (tx : Tx)
    (s : CommitSt) : Res InSt :=
  let tx_trusted : Bool :=
    bl.Trusted || (match env.TrustedTxChecker with
      | none => false
      | some f => f tx.Hash)
  match Chan.prime env.UseThreads s.done with
  | none => .hang
  | some d0 =>
    match inputLoop env ch sched bl tx tx_trusted 0 tx.TxIn
        { e := none, scripts_ok := true, done := d0, blUnsp := s.blUnsp,
          DeledTxs := s.changes.DeledTxs, txinsum := 0 } with
    | .panic msg => .panic msg
    | .hang => .hang
    | .ok s1 =>
      match (if s1.scripts_ok then s1.done.recv sched else some (false, s1.done)) with
      | none => .hang
      | some (ok1, d1) =>
        match Chan.drain sched (env.UseThreads - 1) ok1 d1 with
        | none => .hang
        | some (ok2, d2) =>
          if d2.len ≠ 0 then .panic "ASSERT: The channel should be empty gere"
          else .ok { s1 with scripts_ok := ok2, done := d2 }

/-- Lines 200-222: the part of the loop body that follows the input checks. -/
def finishTx (i : Nat) (tx : Tx) (s : CommitSt) (e : Option CommitError) (txinsum : Nat)
    (blUnsp : BlUnsp) (done : Chan) (deled : TxMap) :
    Sum (BlockChanges × Option CommitError) CommitSt :=
  let o := outputLoop tx.Hash 0 tx.TxOut
    { txoutsum := 0, AddedTxs := s.changes.AddedTxs, DeledTxs := deled }
  let changes1 : BlockChanges :=
    { s.changes with AddedTxs := o.AddedTxs, DeledTxs := o.DeledTxs }
  match e with
  | some err => .inl (changes1, some err)
  | none =>
    if 0 < i ∧ txinsum < o.txoutsum then
      .inl (changes1, some (.moreSpent o.txoutsum txinsum tx.Hash))
    else
      .inr { changes := changes1, blUnsp := blUnsp, done := done,
             sumblockin := u64 (s.sumblockin + txinsum),
             sumblockout := u64 (s.sumblockout + o.txoutsum) }

/-- Lines 112-222: the body of the loop over the transactions, for transaction `tx` at
position `i`; the left summand is a return of `commitTxs`. -/
def processTx (env : Env) (ch : Chain) (sched : Nat → Nat) (bl : Block) (i : Nat) (tx : Tx)
    (s : CommitSt) : Res (Sum (BlockChanges × Option CommitError) CommitSt) :=
  if 0 < i then
    match checkInputs env ch sched bl tx s with
    | .panic msg => .panic msg
    | .hang => .hang
    | .ok s1 =>
      if s1.scripts_ok = false then
        .ok (.inl ({ s.changes with DeledTxs := s1.DeledTxs }, some .verifyScriptsFailed))
      else
        .ok (finishTx i tx s s1.e s1.txinsum s1.blUnsp s1.done s1.DeledTxs)
  else
    match tx.TxIn with
    | [] => .panic "index out of range"
    | txin :: _ =>
      if txin.ScriptSig.length < 2 ∨ 100 < txin.ScriptSig.length then
        .ok (.inl (s.changes, some (.coinbaseLength txin.ScriptSig.length)))
      else
        .ok (finishTx i tx s none 0 s.blUnsp s.done s.changes.DeledTxs)

/-- Lines 111-229: the loop over the transactions from position `i` on, and the final
comparison of the block totals. -/
def txLoop (env : Env) (ch : Chain) (sched : Nat → Nat) (bl : Block) :
    Nat → List Tx → CommitSt → Res (BlockChanges × Option CommitError)
  | _, [], s =>
    if s.sumblockin < s.sumblockout then
      .ok (s.changes, some (.outGtIn s.sumblockout s.sumblockin))
    else .ok (s.changes, none)
  | i, tx :: rest, s =>
    match processTx env ch sched bl i tx s with
    | .panic msg => .panic msg
    | .hang => .hang
    | .ok (.inl r) => .ok r
    | .ok (.inr s1) => txLoop env ch sched bl (i + 1) rest s1

/-- State of `commitTxs` on entry to the loop over the transactions. -/
def initSt (env : Env) (bl : Block) (changes : BlockChanges) : CommitSt :=
  { changes := changes,
    blUnsp := mkBlUnsp (stampBlock bl changes.Height).Txs fun _ => none,
    done := Chan.make env.UseThreads,
    sumblockin := u64 (env.GetBlockReward changes.Height),
    sumblockout := 0 }

/-- The method `commitTxs`: the delta as it stands when the function returns, and the
returned error. -/
def commitTxs (env : Env) (ch : Chain) (sched : Nat → Nat) (bl : Block)
    (changes : BlockChanges) : Res (BlockChanges × Option CommitError) :=
  txLoop env ch sched (stampBlock bl changes.Height) 0 (stampBlock bl changes.Height).Txs
    (initSt env bl changes)

/-- The method `ProcessBlockTransactions`. -/
def ProcessBlockTransactions (env : Env) (ch : Chain) (sched : Nat → Nat) (bl : Block)
    (height : Nat) : Res (BlockChanges × Option CommitError) :=
  commitTxs env ch sched bl
    { Height := height, LastKnownHeight := 0, DeledTxs := TxMap.empty, AddedTxs := TxMap.empty }

/-! ## AcceptBlock -/

/-- Modelled from the spec: the method `addChild` of `BlockTreeNode`, which is not part of
the file; it registers the node `c` as a child of the node. -/
def BlockTreeNode.addChild (n : BlockTreeNode) (c : Nat) : BlockTreeNode :=
  { n with Childs := n.Childs ++ [c] }

/-- Modelled from the spec: the method `delChild` of `BlockTreeNode`, which is not part of
the file; it removes the node `c` from the children of the node. -/
def BlockTreeNode.delChild (n : BlockTreeNode) (c : Nat) : BlockTreeNode :=
  { n with Childs := n.Childs.erase c }

/-- Update of the node a pointer refers to. -/
def updNode (nodes : List BlockTreeNode) (p : Nat) (f : BlockTreeNode → BlockTreeNode) :
    List BlockTreeNode :=
  match nodes.get? p with
  | none => nodes
  | some n => nodes.set p (f n)

/-- The method `AcceptBlock`: the chain state and the block as they stand when the
function returns, and the returned error. -/
def AcceptBlock (env : Env) (sched : Nat → Nat) (ch : Chain) (bl : Block) :
    Res (Chain × Block × Option CommitError) :=
  match ch.BlockIndex (env.BIdx bl.ParentHash) with
  | none => .panic "This should not happen"
  | some prevblk =>
    match ch.nodes.get? prevblk with
    | none => .panic "invalid memory address or nil pointer dereference"
    | some pnode =>
      -- create new BlockTreeNode; the slice `bl.Raw[:80]` is out of bounds on a shorter `Raw`
      if bl.Raw.length < 80 then .panic "slice bounds out of range" else
      let cur : Nat := ch.nodes.length
      let curNode : BlockTreeNode :=
        { BlockHash := bl.Hash, Parent := some prevblk, Height := u32 (pnode.Height + 1),
          TxCount := u32 bl.TxCount, BlockHeader := bl.Raw.take 80, Childs := [] }
      -- Add this block to the block index
      let nodes1 := updNode (ch.nodes ++ [curNode]) prevblk fun n => n.addChild cur
      let index1 : Nat → Option Nat :=
        fun k => if k = env.BIdx bl.Hash then some cur else ch.BlockIndex k
      if ch.BlockTreeEnd = prevblk then
        match ProcessBlockTransactions env ch sched bl curNode.Height with
        | .panic msg => .panic msg
        | .hang => .hang
        | .ok (_, some e) =>
          .ok ({ ch with
                  nodes := updNode nodes1 prevblk fun n => n.delChild cur,
                  BlockIndex := fun k => if k = env.BIdx bl.Hash then none else index1 k },
               stampBlock bl curNode.Height, some e)
        | .ok (changes, none) =>
          let bl1 : Block := { stampBlock bl curNode.Height with Trusted := true }
          let changes1 : BlockChanges := { changes with LastKnownHeight := bl.LastKnownHeight }
          .ok ({ ch with
                  nodes := nodes1,
                  BlockIndex := index1,
                  Unspent := env.CommitBlockTxs ch.Unspent changes1 bl.Hash,
                  calls := ch.calls ++ [Call.BlockAdd curNode.Height bl1,
                    Call.CommitBlockTxs changes1 bl.Hash] ++
                    (if ch.DoNotSync then [] else [Call.Sync]),
                  BlockTreeEnd := cur },
               bl1, none)
      else
        match nodes1.get? ch.BlockTreeEnd with
        | none => .panic "invalid memory address or nil pointer dereference"
        | some tip =>
          let ch1 : Chain :=
            { ch with nodes := nodes1, BlockIndex := index1,
                      calls := ch.calls ++ [Call.BlockAdd curNode.Height bl] }
          if tip.Height < curNode.Height then
            .ok (env.MoveToBlock { ch1 with calls := ch1.calls ++ [Call.MoveToBlock cur] } cur,
                 bl, none)
          else .ok (ch1, bl, none)

/-! ## CheckTransactions -/

/-- Lines 240-252: the loop over the transactions; each one starts a goroutine and then
receives one token. -/
def checkLoop (env : Env) (sched : Nat → Nat) (height btime : Nat) :
    List Tx → Bool → Chan → Option (Bool × Chan)
  | [], ok, c => some (ok, c)
  | tx :: rest, ok, c =>
    match (c.go (if env.CheckTransaction tx = false then false
                 else env.IsFinal tx height btime)).recv sched with
    | none => none
    | some (tok, c1) => checkLoop env sched height btime rest (ok && tok) c1

/-- The function `CheckTransactions`. -/
def CheckTransactions (env : Env) (sched : Nat → Nat) (txs : List Tx) (height btime : Nat) :
    Res Bool :=
  match Chan.prime env.UseThreads (Chan.make env.UseThreads) with
  | none => .hang
  | some c0 =>
    match checkLoop env sched height btime txs true c0 with
    | none => .hang
    | some (ok1, c1) =>
      match Chan.drain sched (env.UseThreads - 1) ok1 c1 with
      | none => .hang
      | some (ok2, _) => .ok ok2

/-! ## Notions used in the statements -/

/-- Every token in the channel or on its way to it is `true`. -/
def Chan.allTrue (c : Chan) : Prop := ∀ b, b ∈ c.buf ++ c.running → b = true

/-- Content of the slot of the per-block table a reference points to, if any. -/
def slot (m : BlUnsp) (r : TxPrevOut) : Option TxOut :=
  match m r.Hash with
  | none => none
  | some t => t.getD r.Vout none

/-- The output a reference denotes for the block `bl`: the record of the ledger if it has
one, otherwise the output of the transaction of the block that has this hash. -/
def lookupOut (ch : Chain) (bl : Block) (r : TxPrevOut) : Option TxOut :=
  match ch.PickUnspent r with
  | some t => some t
  | none => slot (mkBlUnsp bl.Txs fun _ => none) r

/-- The returned error of a run, if the run returns. -/
def Res.error {α β : Type} : Res (α × Option β) → Option (Option β)
  | .ok (_, e) => some e
  | _ => none

/-- State of the input loop after input `txin`, resolved to `tout`, was submitted. -/
def InSt.submitted (s : InSt) (txin : TxIn) (tout : TxOut) (m1 : BlUnsp) (d2 : Chan) : InSt :=
  { s with blUnsp := m1, done := d2, txinsum := u64 (s.txinsum + tout.Value),
           DeledTxs := s.DeledTxs.set txin.Input tout }

/-- The token the main thread or the goroutine of an input puts into the channel. -/
def submit (env : Env) (bl : Block) (tx : Tx) (tx_trusted : Bool) (j : Nat) (txin : TxIn)
    (tout : TxOut) (d1 : Chan) : Option Chan :=
  if tx_trusted then d1.send true
  else some (d1.go (env.VerifyTxScript txin.ScriptSig tout.Pk_script j tx
    (decide (env.BIP16SwitchTime ≤ bl.BlockTime))))

/-- The value an input brings in: the value of the output its reference denotes. -/
def inValue (ch : Chain) (bl : Block) (txin : TxIn) : Nat :=
  match lookupOut ch bl txin.Input with
  | some t => t.Value
  | none => 0

/-- No reference that the ledger lacks is both recorded as spent and still available in
the per-block table. -/
def spentSlotsEmpty (ch : Chain) (deled : TxMap) (m : BlUnsp) : Prop :=
  ∀ r, ch.PickUnspent r = none → deled r ≠ none → slot m r = none

/-- State in which the input loop of a transaction starts, the channel being `d0`. -/
def InSt.start (s : CommitSt) (d0 : Chan) : InSt :=
  { e := none, scripts_ok := true, done := d0, blUnsp := s.blUnsp,
    DeledTxs := s.changes.DeledTxs, txinsum := 0 }

/-- One iteration of the output loop, for output `o` at position `j`. -/
def outStep (hash : Nat) (j : Nat) (o : TxOut) (s : OutSt) : OutSt :=
  if (s.DeledTxs { Hash := hash, Vout := u32 j }).isSome then
    { s with txoutsum := u64 (s.txoutsum + o.Value),
             DeledTxs := s.DeledTxs.del { Hash := hash, Vout := u32 j } }
  else
    { s with txoutsum := u64 (s.txoutsum + o.Value),
             AddedTxs := s.AddedTxs.set { Hash := hash, Vout := u32 j } o }

/-- The variable `tx_trusted` of `commitTxs` for transaction `tx` of block `bl`. -/
def txTrusted (env : Env) (bl : Block) (tx : Tx) : Bool :=
  bl.Trusted || (match env.TrustedTxChecker with
    | none => false
    | some f => f tx.Hash)

/-- The output loop of transaction `tx`, run after the input checks left `deled`. -/
def outputsOf (tx : Tx) (s : CommitSt) (deled : TxMap) : OutSt :=
  outputLoop tx.Hash 0 tx.TxOut { txoutsum := 0, AddedTxs := s.changes.AddedTxs, DeledTxs := deled }

instance (c : Chan) : Decidable c.allTrue := by
  unfold Chan.allTrue; infer_instance

/-- State of `commitTxs` after the loop over the transactions went through `txs`, the
first of which has position `i`, if the loop did not return on any of them. -/
def runTxs (env : Env) (ch : Chain) (sched : Nat → Nat) (bl : Block) :
    Nat → List Tx → CommitSt → Option CommitSt
  | _, [], s => some s
  | i, tx :: rest, s =>
    match processTx env ch sched bl i tx s with
    | .ok (.inr s1) => runTxs env ch sched bl (i + 1) rest s1
    | _ => none

/-- The delta `ProcessBlockTransactions` starts from. -/
def freshChanges (height : Nat) : BlockChanges :=
  { Height := height, LastKnownHeight := 0, DeledTxs := TxMap.empty, AddedTxs := TxMap.empty }

/-- No input of transaction `t2` refers to an output of transaction `t1`. -/
def spendsNoOutputOf (t1 t2 : Tx) : Prop :=
  ∀ v, v < t1.TxOut.length → ∀ txin ∈ t2.TxIn, txin.Input ≠ ⟨t1.Hash, u32 v⟩

/-- Every pointer in a child list refers to an allocated node. -/
def Chain.childsAllocated (ch : Chain) : Prop :=
  ∀ p n, ch.nodes.get? p = some n → ∀ q ∈ n.Childs, q < ch.nodes.length

/-! ## Concrete inputs -/

/-- A configuration: two workers, subsidy 50, a verifier that accepts the scripts that
are not empty, no oracle. -/
def exEnv : Env :=
  { UseThreads := 2, BIP16SwitchTime := 1333238400, GetBlockReward := fun _ => 50,
    BIdx := fun h => h, TrustedTxChecker := none,
    VerifyTxScript := fun sig _ _ _ _ => decide (sig ≠ []),
    CheckTransaction := fun tx => decide (tx.TxIn ≠ []), IsFinal := fun _ _ _ => true,
    CommitBlockTxs := fun u c _ => fun r =>
      match c.DeledTxs r with
      | some _ => none
      | none =>
        match c.AddedTxs r with
        | some o => some o
        | none => u r,
    MoveToBlock := fun c p => { c with BlockTreeEnd := p } }

/-- A chain made of a genesis node, whose ledger holds one output worth 100. -/
def exChain : Chain :=
  { nodes := [{ BlockHash := 0, Height := 0, Parent := none, Childs := [], TxCount := 1,
                BlockHeader := [] }],
    BlockIndex := fun k => if k = 0 then some 0 else none,
    BlockTreeEnd := 0,
    Unspent := fun r => if r = ⟨100, 0⟩ then some ⟨100, [118], 0⟩ else none,
    DoNotSync := false,
    calls := [] }

/-- A coinbase transaction that pays out `v`, with a script of two bytes. -/
def exCoinbase (v : Nat) : Tx :=
  { Hash := 1, TxIn := [⟨⟨0, 4294967295⟩, [3, 1]⟩], TxOut := [⟨v, [], 0⟩] }

/-- Raw data of the example blocks: a header of 80 bytes. -/
def exHeader : List Nat := List.replicate 80 0

/-- A block on top of the genesis block with the given transactions. -/
def exBlock (txs : List Tx) : Block :=
  { Hash := 9, ParentHash := 0, BlockTime := 1400000000, Raw := exHeader, TxCount := txs.length,
    Txs := txs, Trusted := false, LastKnownHeight := 0 }

/-- A transaction that spends the output of the ledger into one output of 100. -/
def exSpend : Tx :=
  { Hash := 2, TxIn := [⟨⟨100, 0⟩, [71]⟩], TxOut := [⟨100, [7], 0⟩] }

/-- The scheduler that always lets the oldest goroutine finish first. -/
def exSched : Nat → Nat := fun _ => 0

/-- A transaction that spends the output of the ledger a second time. -/
def exSpendAgain : Tx :=
  { Hash := 3, TxIn := [⟨⟨100, 0⟩, [72]⟩], TxOut := [⟨100, [8], 0⟩] }

/-- A transaction that spends the output of the ledger, worth 100, into two outputs the
values of which add up to `2^64 + 100`. -/
def exOverflow : Tx :=
  { Hash := 4, TxIn := [⟨⟨100, 0⟩, [74]⟩],
    TxOut := [⟨18446744073709551615, [10], 0⟩, ⟨101, [11], 0⟩] }

/-- A coinbase transaction that pays out 50, with a script of `len` bytes. -/
def exCoinbaseLen (len : Nat) : Tx :=
  { Hash := 1, TxIn := [⟨⟨0, 4294967295⟩, List.replicate len 0⟩], TxOut := [⟨50, [], 0⟩] }

/-- A transaction that spends the output of `exSpend`, a transaction of the same block. -/
def exChild : Tx :=
  { Hash := 5, TxIn := [⟨⟨2, 0⟩, [75]⟩], TxOut := [⟨100, [12], 0⟩] }

/-- A transaction without inputs, which `exEnv.CheckTransaction` rejects. -/
def exBad : Tx := { Hash := 6, TxIn := [], TxOut := [] }

/-- A transaction that spends the output of the ledger, worth 100, into outputs of 60
and 50. -/
def exSplit : Tx :=
  { Hash := 7, TxIn := [⟨⟨100, 0⟩, [76]⟩], TxOut := [⟨60, [13], 0⟩, ⟨50, [14], 0⟩] }

/-- A chain whose tip is the genesis node and whose index already holds, under the key
of hash 9, a child of the genesis node. -/
def exChainDup : Chain :=
  { nodes := [{ BlockHash := 0, Height := 0, Parent := none, Childs := [1], TxCount := 1,
                BlockHeader := [] },
              { BlockHash := 9, Height := 1, Parent := some 0, Childs := [], TxCount := 1,
                BlockHeader := [] }],
    BlockIndex := fun k => if k = 0 then some 0 else if k = 9 then some 1 else none,
    BlockTreeEnd := 0,
    Unspent := fun r => if r = ⟨100, 0⟩ then some ⟨100, [118], 0⟩ else none,
    DoNotSync := false,
    calls := [] }

/-- The node `AcceptBlock` creates for a block `bl` that holds at least 80 bytes of raw
data (on a shorter one `AcceptBlock` panics before it creates the node), the parent being
the node `pnode` at pointer `prevblk`. -/
def newNode (bl : Block) (prevblk : Nat) (pnode : BlockTreeNode) : BlockTreeNode :=
  { BlockHash := bl.Hash, Parent := some prevblk, Height := u32 (pnode.Height + 1), TxCount := u32 bl.TxCount, BlockHeader := bl.Raw.take 80, Childs := [] }

/-- The heap after the structural insert of `AcceptBlock`: the new node is allocated and
registered as a child of its parent. -/
def insertedNodes (ch : Chain) (bl : Block) (prevblk : Nat) (pnode : BlockTreeNode) :
    List BlockTreeNode :=
  updNode (ch.nodes ++ [newNode bl prevblk pnode]) prevblk fun n => n.addChild ch.nodes.length

/-- The index after the structural insert of `AcceptBlock`. -/
def insertedIndex (env : Env) (ch : Chain) (bl : Block) : Nat → Option Nat :=
  fun k => if k = env.BIdx bl.Hash then some ch.nodes.length else ch.BlockIndex k

/-- A chain made of the genesis node, a node of hash 7 on top of it and a node of hash 8
on top of that one; the tip is the node of hash 7. -/
def exChainSide : Chain :=
  { nodes := [{ BlockHash := 0, Height := 0, Parent := none, Childs := [1], TxCount := 1, BlockHeader := [] },
              { BlockHash := 7, Height := 1, Parent := some 0, Childs := [2], TxCount := 1, BlockHeader := [] },
              { BlockHash := 8, Height := 2, Parent := some 1, Childs := [], TxCount := 1, BlockHeader := [] }],
    BlockIndex := fun k => if k = 0 then some 0 else if k = 7 then some 1 else if k = 8 then some 2 else none,
    BlockTreeEnd := 1,
    Unspent := fun r => if r = ⟨100, 0⟩ then some ⟨100, [118], 0⟩ else none,
    DoNotSync := false,
    calls := [] }

/-- A block of hash 9 on top of the block of hash `parent`. -/
def exBlockOn (parent : Nat) (txs : List Tx) : Block :=
  { Hash := 9, ParentHash := parent, BlockTime := 1400000000, Raw := exHeader, TxCount := txs.length, Txs := txs, Trusted := false, LastKnownHeight := 5 }

/-- A block of hash 9 on top of the block of hash `parent` whose raw data stops one byte
short of the 80 bytes of a header. -/
def exShort (parent : Nat) (txs : List Tx) : Block :=
  { Hash := 9, ParentHash := parent, BlockTime := 1400000000, Raw := List.replicate 79 0, TxCount := txs.length, Txs := txs, Trusted := false, LastKnownHeight := 0 }

/-- Number of tokens sent to the channel so far, by the main thread or by goroutines:
those received plus those still in the channel or on their way to it. -/
def Chan.sent (c : Chan) : Nat := c.recvd + c.len

/-- A transaction that spends a reference that neither the ledger nor the block knows. -/
def exUnknown : Tx :=
  { Hash := 10, TxIn := [⟨⟨77, 0⟩, [77]⟩], TxOut := [⟨1, [15], 0⟩] }

/-- A transaction that spends output number 5 of `exSpend`, which has one output. -/
def exTooBig : Tx :=
  { Hash := 11, TxIn := [⟨⟨2, 5⟩, [78]⟩], TxOut := [⟨1, [16], 0⟩] }

/-- A transaction that spends the output of the ledger with an empty script, which the
verifier of `exEnv` rejects. -/
def exNoSig : Tx :=
  { Hash := 12, TxIn := [⟨⟨100, 0⟩, []⟩], TxOut := [⟨100, [17], 0⟩] }

/-- A transaction that spends the output of `exSpend`; it is meant to stand before
`exSpend` in a block. -/
def exEarly : Tx :=
  { Hash := 8, TxIn := [⟨⟨2, 0⟩, [79]⟩], TxOut := [⟨100, [18], 0⟩] }

/-- A transaction that spends its own output. -/
def exSelf : Tx :=
  { Hash := 13, TxIn := [⟨⟨13, 0⟩, [80]⟩], TxOut := [⟨100, [19], 0⟩] }

/-- A block marked trusted, on top of the genesis block. -/
def exTrustedBlock (txs : List Tx) : Block :=
  { Hash := 9, ParentHash := 0, BlockTime := 1400000000, Raw := exHeader, TxCount := txs.length, Txs := txs, Trusted := true, LastKnownHeight := 0 }

/-- The block-tree invariant: every node stored in `BlockIndex` is allocated and is the
node stored under the key of its own hash, and if it has a parent, the parent is
allocated and stored in `BlockIndex` under the key of its hash, the height of the node is
the height of the parent plus one (in `uint32` arithmetic), and the node is listed among
the children of the parent. -/
def treeInv (env : Env) (ch : Chain) : Prop :=
  ∀ k p, ch.BlockIndex k = some p →
    ∃ n, ch.nodes.get? p = some n ∧ ch.BlockIndex (env.BIdx n.BlockHash) = some p ∧
      ∀ q, n.Parent = some q →
        ∃ pn, ch.nodes.get? q = some pn ∧ ch.BlockIndex (env.BIdx pn.BlockHash) = some q ∧
          n.Height = u32 (pn.Height + 1) ∧ p ∈ pn.Childs

/-- A block with the hash of the node of hash 7 of `exChainSide`, on top of the genesis
block. -/
def exBlockDup : Block :=
  { Hash := 7, ParentHash := 0, BlockTime := 1400000000, Raw := exHeader, TxCount := 1, Txs := [exCoinbase 50], Trusted := false, LastKnownHeight := 0 }

/-- Value of the record a map holds for a reference, zero when it holds none. -/
def TxMap.value (m : TxMap) (r : TxPrevOut) : Nat :=
  match m r with
  | some o => o.Value
  | none => 0

/-- Sum of the values of the records a map holds for the references of a finite set. -/
def TxMap.total (m : TxMap) (U : Finset TxPrevOut) : Nat := U.sum m.value

/-- The references a block can touch: those of its inputs and those to its outputs. -/
def blockRefs (bl : Block) : Finset TxPrevOut :=
  (bl.Txs.flatMap fun t =>
    t.TxIn.map (fun txin => txin.Input) ++
      (List.range t.TxOut.length).map fun j => ⟨t.Hash, u32 j⟩).toFinset

/-- The configuration `exEnv` with a worker budget of zero. -/
def exEnvNoWorkers : Env := { exEnv with UseThreads := 0 }

/-- The configuration `exEnv` with a trusted-transaction oracle that answers true on the
hash of `exNoSig`. -/
def exEnvOracle : Env :=
  { exEnv with TrustedTxChecker := some fun h => decide (h = 12) }

/-! # Theorems -/

/-! ## The channel: conservation of tokens -/

theorem mem_getD_or_mem_eraseIdx {α : Type} (l : List α) (k : Nat) (d x : α) (hx : x ∈ l) :
    x = l.getD k d ∨ x ∈ l.eraseIdx k := by
  induction l generalizing k with
  | nil => simp at hx
  | cons a t ih =>
    cases k with
    | zero =>
      rcases List.mem_cons.1 hx with h | h
      · left; simp [h]
      · right; simpa using h
    | succ k =>
      rcases List.mem_cons.1 hx with h | h
      · right; simp [h]
      · rcases ih k h with h1 | h1
        · left; simpa using h1
        · right; simp [h1]

theorem Chan.recv_len {sched : Nat → Nat} {c c1 : Chan} {tok : Bool}
    (h : c.recv sched = some (tok, c1)) : c1.len + 1 = c.len ∧ c1.cap = c.cap := by
  unfold Chan.recv at h
  split at h
  · next b rest hb =>
    simp only [Option.some.injEq, Prod.mk.injEq] at h
    obtain ⟨_, rfl⟩ := h
    simp [Chan.len, hb]; omega
  · next hb =>
    split at h
    · simp at h
    · next r rs hr =>
      simp only [Option.some.injEq, Prod.mk.injEq] at h
      obtain ⟨_, rfl⟩ := h
      have hk : sched c.recvd % (r :: rs).length < (r :: rs).length := Nat.mod_lt _ (by simp)
      simp only [Chan.len, hb, hr, List.length_eraseIdx, hk, if_true]
      simp

theorem Chan.recv_isSome (sched : Nat → Nat) (c : Chan) (h : 0 < c.len) :
    ∃ tok c1, c.recv sched = some (tok, c1) := by
  unfold Chan.recv
  split
  · exact ⟨_, _, rfl⟩
  · next hb =>
    split
    · next hr => simp [Chan.len, hb, hr] at h
    · exact ⟨_, _, rfl⟩

theorem Chan.allTrue_of_recv {sched : Nat → Nat} {c c1 : Chan}
    (h : c.recv sched = some (true, c1)) (h1 : c1.allTrue) : c.allTrue := by
  unfold Chan.recv at h
  split at h
  · next b rest hb =>
    simp only [Option.some.injEq, Prod.mk.injEq] at h
    obtain ⟨rfl, rfl⟩ := h
    intro x hx
    rw [hb] at hx
    simp only [List.cons_append, List.mem_cons] at hx
    rcases hx with hx | hx
    · exact hx
    · exact h1 x (by simpa using hx)
  · next hb =>
    split at h
    · simp at h
    · next r rs hr =>
      simp only [Option.some.injEq, Prod.mk.injEq] at h
      obtain ⟨ht, rfl⟩ := h
      intro x hx
      rw [hb, hr] at hx
      simp only [List.nil_append] at hx
      rcases mem_getD_or_mem_eraseIdx (r :: rs) (sched c.recvd % (r :: rs).length) r x hx with hx | hx
      · rw [hx]; exact ht
      · exact h1 x (by simp [hb]; simpa using hx)

theorem Chan.allTrue_go {c : Chan} {v : Bool} (h : (c.go v).allTrue) : v = true ∧ c.allTrue := by
  constructor
  · exact h v (by simp [Chan.go])
  · intro x hx
    apply h x
    simp only [Chan.go, List.mem_append] at hx ⊢
    rcases hx with hx | hx
    · exact Or.inl hx
    · exact Or.inr (Or.inl hx)

theorem Chan.allTrue_send {c c1 : Chan} {v : Bool} (hs : c.send v = some c1) (h : c1.allTrue) :
    c.allTrue := by
  unfold Chan.send at hs
  split at hs
  · simp only [Option.some.injEq] at hs
    subst hs
    intro x hx
    apply h x
    simp only [List.mem_append] at hx ⊢
    rcases hx with hx | hx
    · exact Or.inl (Or.inl hx)
    · exact Or.inr hx
  · simp at hs

theorem Chan.allTrue_of_len {c : Chan} (h : c.len = 0) : c.allTrue := by
  intro x hx
  have h1 : c.buf = [] := List.length_eq_zero.1 (by unfold Chan.len at h; omega)
  have h2 : c.running = [] := List.length_eq_zero.1 (by unfold Chan.len at h; omega)
  simp [h1, h2] at hx

theorem Chan.send_len {c c1 : Chan} {v : Bool} (hs : c.send v = some c1) :
    c1.len = c.len + 1 ∧ c1.cap = c.cap := by
  unfold Chan.send at hs
  split at hs
  · simp only [Option.some.injEq] at hs
    subst hs
    simp [Chan.len]; omega
  · simp at hs

theorem Chan.send_isSome (c : Chan) (v : Bool) (h : c.len < c.cap) : ∃ c1, c.send v = some c1 := by
  unfold Chan.send
  simp [h]

theorem Chan.go_len (c : Chan) (v : Bool) : (c.go v).len = c.len + 1 ∧ (c.go v).cap = c.cap := by
  simp [Chan.go, Chan.len]; omega

theorem Chan.prime_spec (n : Nat) (c : Chan) (h : c.len + n ≤ c.cap) :
    ∃ c1, Chan.prime n c = some c1 ∧ c1.len = c.len + n ∧ c1.cap = c.cap := by
  induction n generalizing c with
  | zero => exact ⟨c, rfl, rfl, rfl⟩
  | succ n ih =>
    obtain ⟨c1, hc1⟩ := Chan.send_isSome c true (by omega)
    obtain ⟨hl, hcap⟩ := Chan.send_len hc1
    obtain ⟨c2, h2, h3, h4⟩ := ih c1 (by omega)
    refine ⟨c2, ?_, by omega, by omega⟩
    simp [Chan.prime, hc1, h2]

theorem Chan.allTrue_of_prime {n : Nat} {c c1 : Chan} (h : Chan.prime n c = some c1)
    (h1 : c1.allTrue) : c.allTrue := by
  induction n generalizing c with
  | zero => simp [Chan.prime] at h; subst h; exact h1
  | succ n ih =>
    simp only [Chan.prime] at h
    split at h
    · simp at h
    · next c2 hc2 => exact Chan.allTrue_send hc2 (ih h)

theorem Chan.drain_spec (sched : Nat → Nat) (n : Nat) (ok : Bool) (c : Chan) (h : n ≤ c.len) :
    ∃ ok1 c1, Chan.drain sched n ok c = some (ok1, c1) ∧ c1.len + n = c.len ∧ c1.cap = c.cap := by
  induction n generalizing ok c with
  | zero => exact ⟨ok, c, rfl, rfl, rfl⟩
  | succ n ih =>
    obtain ⟨tok, c1, hr⟩ := Chan.recv_isSome sched c (by omega)
    obtain ⟨hl, hcap⟩ := Chan.recv_len hr
    obtain ⟨ok2, c2, h2, h3, h4⟩ := ih (ok && tok) c1 (by omega)
    refine ⟨ok2, c2, ?_, by omega, by omega⟩
    simp [Chan.drain, hr, h2]

theorem Chan.drain_true {sched : Nat → Nat} {n : Nat} {ok : Bool} {c c1 : Chan}
    (h : Chan.drain sched n ok c = some (true, c1)) (h1 : c1.allTrue) : ok = true ∧ c.allTrue := by
  induction n generalizing ok c with
  | zero =>
    simp only [Chan.drain, Option.some.injEq, Prod.mk.injEq] at h
    obtain ⟨rfl, rfl⟩ := h
    exact ⟨rfl, h1⟩
  | succ n ih =>
    simp only [Chan.drain] at h
    split at h
    · simp at h
    · next tok c2 hr =>
      obtain ⟨h2, h3⟩ := ih h
      simp only [Bool.and_eq_true] at h2
      obtain ⟨rfl, rfl⟩ := h2
      exact ⟨rfl, Chan.allTrue_of_recv hr h3⟩

/-! ## Resolution of an input -/

theorem slot_upd (m : BlUnsp) (t : List (Option TxOut)) (inp : TxPrevOut) (hm : m inp.Hash = some t)
    (r : TxPrevOut) :
    slot (fun h => if h = inp.Hash then some (t.set inp.Vout none) else m h) r
      = if r = inp then none else slot m r := by
  unfold slot
  by_cases hh : r.Hash = inp.Hash
  · simp only [hh, if_true, hm]
    by_cases hv : r.Vout = inp.Vout
    · have : r = inp := by
        cases r; cases inp; simp_all
      simp only [this, if_true]
      simp only [List.getD_eq_getElem?_getD, List.getElem?_set, if_true]
      split <;> rfl
    · have : r ≠ inp := fun h => hv (by rw [h])
      simp only [this, if_false]
      simp [List.getD_eq_getElem?_getD, List.getElem?_set, Ne.symm hv]
  · have : r ≠ inp := fun h => hh (by rw [h])
    simp [hh, this]

/-- What a successful resolution returns: the record of the ledger, leaving the table
alone, or else the content of the slot, which is then emptied. -/
theorem resolve_ok {ch : Chain} {m m1 : BlUnsp} {inp : TxPrevOut} {tout : TxOut}
    (h : resolve ch m inp = .ok (tout, m1)) :
    (ch.PickUnspent inp = some tout ∧ m1 = m) ∨
    (ch.PickUnspent inp = none ∧ slot m inp = some tout ∧
      ∀ r, slot m1 r = if r = inp then none else slot m r) := by
  unfold resolve at h
  split at h
  · next t ht =>
    simp only [Except.ok.injEq, Prod.mk.injEq] at h
    obtain ⟨rfl, rfl⟩ := h
    exact Or.inl ⟨ht, rfl⟩
  · next hp =>
    split at h
    · simp at h
    · next t ht =>
      split at h
      · simp at h
      · split at h
        · simp at h
        · next o ho =>
          simp only [Except.ok.injEq, Prod.mk.injEq] at h
          obtain ⟨rfl, rfl⟩ := h
          refine Or.inr ⟨hp, ?_, slot_upd m t inp ht⟩
          simp only [slot, ht]
          exact ho

theorem resolve_slot_mono {ch : Chain} {m m1 : BlUnsp} {inp : TxPrevOut} {tout : TxOut}
    (h : resolve ch m inp = .ok (tout, m1)) (r : TxPrevOut) (o : TxOut)
    (h1 : slot m1 r = some o) : slot m r = some o := by
  rcases resolve_ok h with ⟨_, rfl⟩ | ⟨_, _, h3⟩
  · exact h1
  · rw [h3] at h1
    split at h1
    · simp at h1
    · exact h1

/-! ## The input loop, case by case -/

/-- Induction over the runs of the input loop: a property of (first input number, inputs,
start state, end state) that holds for the empty loop and for the three ways of leaving
the loop early, and that is carried over one submitted input, holds for every run. -/
theorem inputLoop_cases (env : Env) (ch : Chain) (sched : Nat → Nat) (bl : Block) (tx : Tx)
    (tr : Bool) (P : Nat → List TxIn → InSt → InSt → Prop)
    (hnil : ∀ j s, P j [] s s)
    (hdbl : ∀ j txin rest s, (s.DeledTxs txin.Input).isSome = true →
      P j (txin :: rest) s { s with e := some .doubleSpend })
    (herr : ∀ j txin rest s err, (s.DeledTxs txin.Input).isSome = false →
      resolve ch s.blUnsp txin.Input = .error err →
      P j (txin :: rest) s { s with e := some err })
    (htok : ∀ j txin rest s tout m1 d1, (s.DeledTxs txin.Input).isSome = false →
      resolve ch s.blUnsp txin.Input = .ok (tout, m1) →
      s.done.recv sched = some (false, d1) →
      P j (txin :: rest) s { s with blUnsp := m1, done := d1, scripts_ok := false })
    (hstep : ∀ j txin rest s tout m1 d1 d2 s1, (s.DeledTxs txin.Input).isSome = false →
      resolve ch s.blUnsp txin.Input = .ok (tout, m1) →
      s.done.recv sched = some (true, d1) →
      submit env bl tx tr j txin tout d1 = some d2 →
      inputLoop env ch sched bl tx tr (j + 1) rest (s.submitted txin tout m1 d2) = .ok s1 →
      P (j + 1) rest (s.submitted txin tout m1 d2) s1 →
      P j (txin :: rest) s s1)
    (j : Nat) (ins : List TxIn) (s s1 : InSt)
    (h : inputLoop env ch sched bl tx tr j ins s = .ok s1) : P j ins s s1 := by
  induction ins generalizing j s with
  | nil =>
    simp only [inputLoop, Res.ok.injEq] at h
    subst h
    exact hnil j s
  | cons txin rest ih =>
    simp only [inputLoop] at h
    split at h
    · next hd =>
      simp only [Res.ok.injEq] at h
      subst h
      exact hdbl j txin rest s hd
    · next hd =>
      have hd1 : (s.DeledTxs txin.Input).isSome = false := by simpa using hd
      split at h
      · next err he =>
        simp only [Res.ok.injEq] at h
        subst h
        exact herr j txin rest s err hd1 he
      · next tout m1 hr =>
        split at h
        · simp at h
        · next tok d1 hrecv =>
          split at h
          · next htk =>
            simp only [Res.ok.injEq] at h
            subst h; subst htk
            exact htok j txin rest s tout m1 d1 hd1 hr hrecv
          · next htk =>
            have htk1 : tok = true := by simpa using htk
            subst htk1
            split at h
            · simp at h
            · next d2 hs =>
              exact hstep j txin rest s tout m1 d1 d2 s1 hd1 hr hrecv hs h (ih (j + 1) _ h)

theorem u64_add_u64 (a b : Nat) : u64 (u64 a + b) = u64 (a + b) := by
  unfold u64; omega

theorem u64_le (a : Nat) : u64 a ≤ a := Nat.mod_le _ _

theorem u64_of_lt {a : Nat} (h : a < 2 ^ 64) : u64 a = a := Nat.mod_eq_of_lt h

theorem TxMap.set_ne_none (m : TxMap) (k : TxPrevOut) (v : TxOut) (r : TxPrevOut) :
    m.set k v r ≠ none ↔ r = k ∨ m r ≠ none := by
  unfold TxMap.set
  by_cases h : r = k <;> simp [h]

/-- In every run of the input loop the slots of the table are only emptied, the records
of spent outputs are only added, and only for inputs of the loop. -/
theorem inputLoop_mono (env : Env) (ch : Chain) (sched : Nat → Nat) (bl : Block) (tx : Tx)
    (tr : Bool) (j : Nat) (ins : List TxIn) (s s1 : InSt)
    (h : inputLoop env ch sched bl tx tr j ins s = .ok s1) :
    (∀ r o, slot s1.blUnsp r = some o → slot s.blUnsp r = some o) ∧
    (∀ r x, s.DeledTxs r = some x → s1.DeledTxs r = some x) ∧
    (∀ r, s1.DeledTxs r ≠ none → s.DeledTxs r ≠ none ∨ ∃ txin ∈ ins, txin.Input = r) ∧
    (spentSlotsEmpty ch s.DeledTxs s.blUnsp → spentSlotsEmpty ch s1.DeledTxs s1.blUnsp) := by
  refine inputLoop_cases env ch sched bl tx tr
    (fun _ ins s s1 =>
      (∀ r o, slot s1.blUnsp r = some o → slot s.blUnsp r = some o) ∧
      (∀ r x, s.DeledTxs r = some x → s1.DeledTxs r = some x) ∧
      (∀ r, s1.DeledTxs r ≠ none → s.DeledTxs r ≠ none ∨ ∃ txin ∈ ins, txin.Input = r) ∧
      (spentSlotsEmpty ch s.DeledTxs s.blUnsp → spentSlotsEmpty ch s1.DeledTxs s1.blUnsp))
    ?_ ?_ ?_ ?_ ?_ j ins s s1 h
  · intro j s
    exact ⟨fun _ _ h => h, fun _ _ h => h, fun _ h => Or.inl h, fun h => h⟩
  · intro j txin rest s _
    exact ⟨fun _ _ h => h, fun _ _ h => h, fun _ h => Or.inl h, fun h => h⟩
  · intro j txin rest s err _ _
    exact ⟨fun _ _ h => h, fun _ _ h => h, fun _ h => Or.inl h, fun h => h⟩
  · intro j txin rest s tout m1 d1 _ hr _
    refine ⟨fun r o h => resolve_slot_mono hr r o h, fun _ _ h => h, fun _ h => Or.inl h, ?_⟩
    intro hk r hp hd
    have h0 := hk r hp hd
    cases hs : slot m1 r with
    | none => rfl
    | some o => rw [resolve_slot_mono hr r o hs] at h0; simp at h0
  · intro j txin rest s tout m1 d1 d2 s1 hd hr _ _ _ ih
    obtain ⟨ih1, ih2, ih3, ih4⟩ := ih
    have hnone : s.DeledTxs txin.Input = none := by
      cases hx : s.DeledTxs txin.Input with
      | none => rfl
      | some x => simp [hx] at hd
    refine ⟨?_, ?_, ?_, ?_⟩
    · intro r o h1
      exact resolve_slot_mono hr r o (ih1 r o h1)
    · intro r x h1
      apply ih2
      have hne : r ≠ txin.Input := by
        intro hh; rw [hh, hnone] at h1; simp at h1
      simp [InSt.submitted, TxMap.set, hne, h1]
    · intro r h1
      rcases ih3 r h1 with h2 | ⟨t, ht, hti⟩
      · rcases (TxMap.set_ne_none _ _ _ _).1 h2 with h3 | h3
        · exact Or.inr ⟨txin, List.mem_cons_self _ _, h3.symm⟩
        · exact Or.inl h3
      · exact Or.inr ⟨t, List.mem_cons_of_mem _ ht, hti⟩
    · intro hk
      apply ih4
      intro r hp hd1
      rcases (TxMap.set_ne_none _ _ _ _).1 hd1 with h3 | h3
      · subst h3
        rcases resolve_ok hr with ⟨hp1, _⟩ | ⟨_, _, hs⟩
        · rw [hp] at hp1; simp at hp1
        · show slot m1 txin.Input = none
          rw [hs]; simp
      · have h0 := hk r hp h3
        show slot m1 r = none
        cases hs : slot m1 r with
        | none => rfl
        | some o => rw [resolve_slot_mono hr r o hs] at h0; simp at h0

/-- A run of the input loop that ends without an error and with `scripts_ok` set went
through all the inputs: none of them was recorded as spent before, each one that the
ledger lacks had its slot in the table, each one is recorded as spent afterwards, and
no two of them carry the same reference. -/
theorem inputLoop_success_refs (env : Env) (ch : Chain) (sched : Nat → Nat) (bl : Block)
    (tx : Tx) (tr : Bool) (j : Nat) (ins : List TxIn) (s s1 : InSt)
    (h : inputLoop env ch sched bl tx tr j ins s = .ok s1)
    (he : s1.e = none) (hok : s1.scripts_ok = true) :
    (∀ txin ∈ ins, s.DeledTxs txin.Input = none ∧
      (ch.PickUnspent txin.Input = none → slot s.blUnsp txin.Input ≠ none) ∧
      s1.DeledTxs txin.Input ≠ none) ∧
    (ins.map fun t => t.Input).Nodup := by
  refine inputLoop_cases env ch sched bl tx tr
    (fun _ ins s s1 => s1.e = none → s1.scripts_ok = true →
      (∀ txin ∈ ins, s.DeledTxs txin.Input = none ∧
        (ch.PickUnspent txin.Input = none → slot s.blUnsp txin.Input ≠ none) ∧
        s1.DeledTxs txin.Input ≠ none) ∧
      (ins.map fun t => t.Input).Nodup)
    ?_ ?_ ?_ ?_ ?_ j ins s s1 h he hok
  · intro j s _ _
    simp
  · intro j txin rest s _ he
    simp at he
  · intro j txin rest s err _ _ he
    simp at he
  · intro j txin rest s tout m1 d1 _ _ _ _ hok
    simp at hok
  · intro j txin rest s tout m1 d1 d2 s1 hd hr _ _ hrun ih he hok
    obtain ⟨ih1, ih2⟩ := ih he hok
    obtain ⟨_, hm2, _, _⟩ := inputLoop_mono env ch sched bl tx tr _ _ _ _ hrun
    have hnone : s.DeledTxs txin.Input = none := by
      cases hx : s.DeledTxs txin.Input with
      | none => rfl
      | some x => simp [hx] at hd
    have hrest : ∀ t ∈ rest, t.Input ≠ txin.Input := by
      intro t ht hh
      have := (ih1 t ht).1
      simp [InSt.submitted, TxMap.set, hh] at this
    constructor
    · intro t ht
      rcases List.mem_cons.1 ht with rfl | ht
      · refine ⟨hnone, ?_, ?_⟩
        · intro hp
          rcases resolve_ok hr with ⟨hp1, _⟩ | ⟨_, hs, _⟩
          · rw [hp] at hp1; simp at hp1
          · rw [hs]; simp
        · have : (s.submitted t tout m1 d2).DeledTxs t.Input = some tout := by
            simp [InSt.submitted, TxMap.set]
          rw [hm2 _ _ this]; simp
      · obtain ⟨h1, h2, h3⟩ := ih1 t ht
        refine ⟨?_, ?_, h3⟩
        · simpa [InSt.submitted, TxMap.set, hrest t ht] using h1
        · intro hp
          have := h2 hp
          cases hs : slot m1 t.Input with
          | none => exact absurd hs this
          | some o => rw [resolve_slot_mono hr _ o hs]; simp
    · simp only [List.map_cons, List.nodup_cons]
      refine ⟨?_, ih2⟩
      intro hmem
      obtain ⟨t, ht, hti⟩ := List.mem_map.1 hmem
      exact hrest t ht hti

/-- A run of the input loop that ends without an error and with `scripts_ok` set, and
after which every token still in flight is `true`, started with every token true,
resolved every input to the output its reference denotes, had the verifier accept each
of them unless the transaction is trusted, and summed their values modulo `2^64`. -/
theorem inputLoop_success (env : Env) (ch : Chain) (sched : Nat → Nat) (bl : Block)
    (tx : Tx) (tr : Bool) (j : Nat) (ins : List TxIn) (s s1 : InSt)
    (h : inputLoop env ch sched bl tx tr j ins s = .ok s1)
    (he : s1.e = none) (hok : s1.scripts_ok = true)
    (hsub : ∀ r o, slot s.blUnsp r = some o → slot (mkBlUnsp bl.Txs fun _ => none) r = some o)
    (hsum : s.txinsum < 2 ^ 64) :
    s.scripts_ok = true ∧
    s1.txinsum = u64 (s.txinsum + (ins.map (inValue ch bl)).sum) ∧
    (s1.done.allTrue → s.done.allTrue ∧
      ∀ k txin, ins.get? k = some txin → ∃ tout, lookupOut ch bl txin.Input = some tout ∧
        (tr = false → env.VerifyTxScript txin.ScriptSig tout.Pk_script (j + k) tx
          (decide (env.BIP16SwitchTime ≤ bl.BlockTime)) = true)) := by
  refine inputLoop_cases env ch sched bl tx tr
    (fun j ins s s1 => s1.e = none → s1.scripts_ok = true →
      (∀ r o, slot s.blUnsp r = some o → slot (mkBlUnsp bl.Txs fun _ => none) r = some o) →
      s.txinsum < 2 ^ 64 →
      s.scripts_ok = true ∧
      s1.txinsum = u64 (s.txinsum + (ins.map (inValue ch bl)).sum) ∧
      (s1.done.allTrue → s.done.allTrue ∧
        ∀ k txin, ins.get? k = some txin → ∃ tout, lookupOut ch bl txin.Input = some tout ∧
          (tr = false → env.VerifyTxScript txin.ScriptSig tout.Pk_script (j + k) tx
            (decide (env.BIP16SwitchTime ≤ bl.BlockTime)) = true)))
    ?_ ?_ ?_ ?_ ?_ j ins s s1 h he hok hsub hsum
  · intro j s _ hok _ hsum
    refine ⟨hok, ?_, fun h => ⟨h, ?_⟩⟩
    · simp only [List.map_nil, List.sum_nil, Nat.add_zero]
      exact (u64_of_lt hsum).symm
    · intro k txin hk; simp at hk
  · intro j txin rest s _ he
    simp at he
  · intro j txin rest s err _ _ he
    simp at he
  · intro j txin rest s tout m1 d1 _ _ _ _ hok
    simp at hok
  · intro j txin rest s tout m1 d1 d2 s1 _ hr hrecv hsubm _ ih he hok hsub _
    have hlk : lookupOut ch bl txin.Input = some tout := by
      unfold lookupOut
      rcases resolve_ok hr with ⟨hp1, _⟩ | ⟨hp, hs, _⟩
      · rw [hp1]
      · rw [hp]; exact hsub _ _ hs
    obtain ⟨ih1, ih2, ih3⟩ := ih he hok (fun r o h1 => hsub r o (resolve_slot_mono hr r o h1))
      (Nat.mod_lt _ (by norm_num))
    refine ⟨ih1, ?_, ?_⟩
    · rw [ih2]
      simp only [InSt.submitted, List.map_cons, List.sum_cons, inValue, hlk]
      rw [u64_add_u64]; congr 1; omega
    · intro hall
      obtain ⟨h1, h2⟩ := ih3 hall
      have hd2 : d2.allTrue := h1
      unfold submit at hsubm
      have hv : d1.allTrue ∧ (tr = false → env.VerifyTxScript txin.ScriptSig tout.Pk_script j tx
          (decide (env.BIP16SwitchTime ≤ bl.BlockTime)) = true) := by
        cases tr with
        | true =>
          simp only [if_true] at hsubm
          exact ⟨Chan.allTrue_send hsubm hd2, fun h => by simp at h⟩
        | false =>
          simp only [Bool.false_eq_true, if_false, Option.some.injEq] at hsubm
          subst hsubm
          obtain ⟨hv, hd1⟩ := Chan.allTrue_go hd2
          exact ⟨hd1, fun _ => hv⟩
      refine ⟨Chan.allTrue_of_recv hrecv hv.1, ?_⟩
      intro k t hk
      cases k with
      | zero =>
        simp only [List.get?_cons_zero, Option.some.injEq] at hk
        subst hk
        exact ⟨tout, hlk, hv.2⟩
      | succ k =>
        simp only [List.get?_cons_succ] at hk
        obtain ⟨o, ho1, ho2⟩ := h2 k t hk
        refine ⟨o, ho1, ?_⟩
        intro htr
        have := ho2 htr
        rwa [show j + 1 + k = j + (k + 1) by omega] at this

/-! ## The input loop returns, and the tokens are conserved -/

/-- With a worker budget of at least one and as many tokens in flight as the budget,
the input loop returns, and as many tokens are in flight afterwards, or one less if the
loop was left on a failed token. -/
theorem inputLoop_returns (env : Env) (ch : Chain) (sched : Nat → Nat) (bl : Block) (tx : Tx)
    (tr : Bool) (j : Nat) (ins : List TxIn) (s : InSt)
    (hcap : 1 ≤ s.done.cap) (hlen : s.done.len = s.done.cap) :
    ∃ s1, inputLoop env ch sched bl tx tr j ins s = .ok s1 ∧ s1.done.cap = s.done.cap ∧
      ((s1.scripts_ok = s.scripts_ok ∧ s1.done.len = s.done.cap) ∨
       (s1.scripts_ok = false ∧ s1.done.len + 1 = s.done.cap)) := by
  induction ins generalizing j s with
  | nil => exact ⟨s, rfl, rfl, Or.inl ⟨rfl, hlen⟩⟩
  | cons txin rest ih =>
    simp only [inputLoop]
    split
    · exact ⟨_, rfl, rfl, Or.inl ⟨rfl, hlen⟩⟩
    · split
      · exact ⟨_, rfl, rfl, Or.inl ⟨rfl, hlen⟩⟩
      · next tout m1 hr =>
        obtain ⟨tok, d1, hrecv⟩ := Chan.recv_isSome sched s.done (by omega)
        obtain ⟨hl1, hc1⟩ := Chan.recv_len hrecv
        rw [hrecv]
        simp only
        split
        · exact ⟨_, rfl, hc1, Or.inr ⟨rfl, by simpa [hlen] using hl1⟩⟩
        · have hsub : ∃ d2, (if tr = true then d1.send true
              else some (d1.go (env.VerifyTxScript txin.ScriptSig tout.Pk_script j tx
                (decide (env.BIP16SwitchTime ≤ bl.BlockTime))))) = some d2 ∧
              d2.len = s.done.cap ∧ d2.cap = s.done.cap := by
            cases tr with
            | true =>
              obtain ⟨d2, hd2⟩ := Chan.send_isSome d1 true (by omega)
              obtain ⟨h1, h2⟩ := Chan.send_len hd2
              exact ⟨d2, by simpa using hd2, by omega, by omega⟩
            | false =>
              obtain ⟨h1, h2⟩ := Chan.go_len d1 (env.VerifyTxScript txin.ScriptSig tout.Pk_script j tx
                (decide (env.BIP16SwitchTime ≤ bl.BlockTime)))
              exact ⟨d1.go (env.VerifyTxScript txin.ScriptSig tout.Pk_script j tx
                (decide (env.BIP16SwitchTime ≤ bl.BlockTime))), by simp, by omega, by omega⟩
          obtain ⟨d2, hd2, hl2, hc2⟩ := hsub
          rw [hd2]
          simp only
          obtain ⟨s1, h1, h2, h3⟩ := ih (j + 1)
            { s with blUnsp := m1, done := d2, txinsum := u64 (s.txinsum + tout.Value),
                     DeledTxs := s.DeledTxs.set txin.Input tout }
            (by simpa [hc2] using hcap) (by simp [hl2, hc2])
          refine ⟨s1, h1, by simpa [hc2] using h2, ?_⟩
          simpa [hc2] using h3

/-- The parts of a run of the input checks of a transaction: priming, input loop, drain. -/
theorem checkInputs_run {env : Env} {ch : Chain} {sched : Nat → Nat} {bl : Block} {tx : Tx}
    {s : CommitSt} {s1 : InSt} (h : checkInputs env ch sched bl tx s = .ok s1) :
    ∃ d0 sA ok1 d1,
      Chan.prime env.UseThreads s.done = some d0 ∧
      inputLoop env ch sched bl tx
        (bl.Trusted || (match env.TrustedTxChecker with
          | none => false
          | some f => f tx.Hash)) 0 tx.TxIn (InSt.start s d0) = .ok sA ∧
      (if sA.scripts_ok then sA.done.recv sched else some (false, sA.done)) = some (ok1, d1) ∧
      Chan.drain sched (env.UseThreads - 1) ok1 d1 = some (s1.scripts_ok, s1.done) ∧
      s1.done.len = 0 ∧ s1.e = sA.e ∧ s1.blUnsp = sA.blUnsp ∧ s1.DeledTxs = sA.DeledTxs ∧
      s1.txinsum = sA.txinsum := by
  unfold checkInputs at h
  simp only at h
  split at h
  · simp at h
  · next d0 hd0 =>
    split at h
    · simp at h
    · simp at h
    · next sA hA =>
      split at h
      · simp at h
      · next ok1 d1 h1 =>
        split at h
        · simp at h
        · next ok2 d2 h2 =>
          split at h
          · simp at h
          · next hlen =>
            simp only [Res.ok.injEq] at h
            subst h
            refine ⟨d0, sA, ok1, d1, hd0, hA, h1, h2, ?_, rfl, rfl, rfl, rfl⟩
            simpa using hlen

/-- With a worker budget of at least one and an empty channel, the input checks of a
transaction return and leave the channel empty: the assertion does not fire. -/
theorem checkInputs_returns (env : Env) (ch : Chain) (sched : Nat → Nat) (bl : Block) (tx : Tx)
    (s : CommitSt) (hW : 1 ≤ env.UseThreads) (hcap : s.done.cap = env.UseThreads)
    (hlen : s.done.len = 0) :
    ∃ s1, checkInputs env ch sched bl tx s = .ok s1 ∧ s1.done.cap = env.UseThreads ∧
      s1.done.len = 0 := by
  obtain ⟨d0, hd0, hl0, hc0⟩ := Chan.prime_spec env.UseThreads s.done (by omega)
  obtain ⟨sA, hA, hcA, hlA⟩ := inputLoop_returns env ch sched bl tx
    (bl.Trusted || (match env.TrustedTxChecker with
      | none => false
      | some f => f tx.Hash)) 0 tx.TxIn (InSt.start s d0)
    (by simp only [InSt.start]; omega) (by simp only [InSt.start]; omega)
  simp only [InSt.start] at hcA hlA
  have h1 : ∃ ok1 d1, (if sA.scripts_ok then sA.done.recv sched else some (false, sA.done))
      = some (ok1, d1) ∧ d1.len + 1 = env.UseThreads ∧ d1.cap = env.UseThreads := by
    rcases hlA with ⟨h2, h3⟩ | ⟨h2, h3⟩
    · obtain ⟨tok, d1, hr⟩ := Chan.recv_isSome sched sA.done (by omega)
      obtain ⟨h4, h5⟩ := Chan.recv_len hr
      exact ⟨tok, d1, by simp [h2, hr], by omega, by omega⟩
    · exact ⟨false, sA.done, by simp [h2], by omega, by omega⟩
  obtain ⟨ok1, d1, h1, hl1, hc1⟩ := h1
  obtain ⟨ok2, d2, h2, hl2, hc2⟩ := Chan.drain_spec sched (env.UseThreads - 1) ok1 d1 (by omega)
  have hz : d2.len = 0 := by omega
  refine ⟨{ sA with scripts_ok := ok2, done := d2 }, ?_, by simp; omega, by simpa using hz⟩
  unfold checkInputs
  simp only [hd0]
  simp only [InSt.start] at hA
  rw [hA]
  simp only [h1, h2, hz]
  simp

/-- A run of the input checks that ends with `scripts_ok` set: the input loop ended with
`scripts_ok` set and every token that was then in flight was `true`. -/
theorem checkInputs_ok {env : Env} {ch : Chain} {sched : Nat → Nat} {bl : Block} {tx : Tx}
    {s : CommitSt} {s1 : InSt} (h : checkInputs env ch sched bl tx s = .ok s1)
    (hok : s1.scripts_ok = true) :
    ∃ d0 sA,
      Chan.prime env.UseThreads s.done = some d0 ∧
      inputLoop env ch sched bl tx
        (bl.Trusted || (match env.TrustedTxChecker with
          | none => false
          | some f => f tx.Hash)) 0 tx.TxIn (InSt.start s d0) = .ok sA ∧
      sA.scripts_ok = true ∧ sA.done.allTrue ∧
      s1.done.len = 0 ∧ s1.e = sA.e ∧ s1.blUnsp = sA.blUnsp ∧ s1.DeledTxs = sA.DeledTxs ∧
      s1.txinsum = sA.txinsum := by
  obtain ⟨d0, sA, ok1, d1, h1, h2, h3, h4, h5, h6⟩ := checkInputs_run h
  rw [hok] at h4
  obtain ⟨h7, h8⟩ := Chan.drain_true h4 (Chan.allTrue_of_len h5)
  subst h7
  have h9 : sA.scripts_ok = true := by
    cases hs : sA.scripts_ok with
    | true => rfl
    | false => simp [hs] at h3
  refine ⟨d0, sA, h1, h2, h9, ?_, h5, h6⟩
  simp only [h9, if_true] at h3
  exact Chan.allTrue_of_recv h3 h8

/-! ## The output loop -/

theorem outputLoop_cons (hash j : Nat) (o : TxOut) (rest : List TxOut) (s : OutSt) :
    outputLoop hash j (o :: rest) s = outputLoop hash (j + 1) rest (outStep hash j o s) := rfl

theorem outStep_facts (hash j : Nat) (o : TxOut) (s : OutSt) :
    (outStep hash j o s).txoutsum = u64 (s.txoutsum + o.Value) ∧
    (∀ r x, (outStep hash j o s).DeledTxs r = some x → s.DeledTxs r = some x) ∧
    (∀ r, r ≠ ⟨hash, u32 j⟩ → (outStep hash j o s).DeledTxs r = s.DeledTxs r) ∧
    (∀ r, s.AddedTxs r ≠ none → (outStep hash j o s).AddedTxs r ≠ none) ∧
    (∀ r, r ≠ ⟨hash, u32 j⟩ → (outStep hash j o s).AddedTxs r = s.AddedTxs r) ∧
    (outStep hash j o s).DeledTxs ⟨hash, u32 j⟩ = none ∧
    ((outStep hash j o s).AddedTxs ⟨hash, u32 j⟩ = some o ∨ s.DeledTxs ⟨hash, u32 j⟩ ≠ none) := by
  unfold outStep
  split
  · next hd =>
    refine ⟨rfl, ?_, ?_, fun _ h => h, fun _ _ => rfl, ?_, ?_⟩
    · intro r x h
      simp only [TxMap.del] at h
      split at h
      · simp at h
      · exact h
    · intro r hr
      simp [TxMap.del, hr]
    · simp [TxMap.del]
    · right
      intro hn; rw [hn] at hd; simp at hd
  · next hd =>
    have hnone : s.DeledTxs ⟨hash, u32 j⟩ = none := by
      cases hx : s.DeledTxs ⟨hash, u32 j⟩ with
      | none => rfl
      | some x => simp [hx] at hd
    refine ⟨rfl, fun _ _ h => h, fun _ _ => rfl, ?_, ?_, hnone, ?_⟩
    · intro r h
      exact (TxMap.set_ne_none _ _ _ _).2 (Or.inr h)
    · intro r hr
      simp [TxMap.set, hr]
    · left
      simp [TxMap.set]

/-- The output total is the sum of the output values modulo `2^64`. -/
theorem outputLoop_sum (hash j : Nat) (outs : List TxOut) (s : OutSt) (hs : s.txoutsum < 2 ^ 64) :
    (outputLoop hash j outs s).txoutsum = u64 (s.txoutsum + (outs.map fun o => o.Value).sum) := by
  induction outs generalizing j s with
  | nil => simpa [outputLoop] using (u64_of_lt hs).symm
  | cons o rest ih =>
    rw [outputLoop_cons, ih (j + 1) _ (by
      rw [(outStep_facts hash j o s).1]; exact Nat.mod_lt _ (by norm_num))]
    rw [(outStep_facts hash j o s).1, u64_add_u64]
    simp only [List.map_cons, List.sum_cons]
    congr 1; omega

/-- The output loop only removes records of spent outputs and only adds records of
created outputs, and touches only references to the transaction at hand. -/
theorem outputLoop_mono (hash j : Nat) (outs : List TxOut) (s : OutSt) :
    (∀ r x, (outputLoop hash j outs s).DeledTxs r = some x → s.DeledTxs r = some x) ∧
    (∀ r, r.Hash ≠ hash → (outputLoop hash j outs s).DeledTxs r = s.DeledTxs r) ∧
    (∀ r, s.AddedTxs r ≠ none → (outputLoop hash j outs s).AddedTxs r ≠ none) ∧
    (∀ r, r.Hash ≠ hash → (outputLoop hash j outs s).AddedTxs r = s.AddedTxs r) ∧
    (∀ r, (outputLoop hash j outs s).AddedTxs r ≠ none → s.AddedTxs r ≠ none ∨
      ∃ v, v < outs.length ∧ r = ⟨hash, u32 (j + v)⟩) := by
  induction outs generalizing j s with
  | nil =>
    exact ⟨fun _ _ h => h, fun _ _ => rfl, fun _ h => h, fun _ _ => rfl, fun _ h => Or.inl h⟩
  | cons o rest ih =>
    rw [outputLoop_cons]
    obtain ⟨_, f2, f3, f4, f5, _, _⟩ := outStep_facts hash j o s
    obtain ⟨i1, i2, i3, i4, i5⟩ := ih (j + 1) (outStep hash j o s)
    have hne : ∀ r : TxPrevOut, r.Hash ≠ hash → r ≠ ⟨hash, u32 j⟩ := by
      intro r hr hh; apply hr; rw [hh]
    refine ⟨fun r x h => f2 r x (i1 r x h), ?_, fun r h => i3 r (f4 r h), ?_, ?_⟩
    · intro r hr
      rw [i2 r hr, f3 r (hne r hr)]
    · intro r hr
      rw [i4 r hr, f5 r (hne r hr)]
    · intro r h
      rcases i5 r h with h1 | ⟨v, hv, hr⟩
      · by_cases hh : r = ⟨hash, u32 j⟩
        · exact Or.inr ⟨0, by simp, by simpa using hh⟩
        · rw [f5 r hh] at h1
          exact Or.inl h1
      · refine Or.inr ⟨v + 1, by simpa using hv, ?_⟩
        rw [hr, show j + 1 + v = j + (v + 1) by omega]

/-- The output loop keeps the two maps of the delta disjoint. -/
theorem outputLoop_disjoint (hash j : Nat) (outs : List TxOut) (s : OutSt)
    (h : ∀ r, s.AddedTxs r ≠ none → s.DeledTxs r = none) :
    ∀ r, (outputLoop hash j outs s).AddedTxs r ≠ none →
      (outputLoop hash j outs s).DeledTxs r = none := by
  induction outs generalizing j s with
  | nil => simpa [outputLoop] using h
  | cons o rest ih =>
    rw [outputLoop_cons]
    obtain ⟨_, f2, f3, _, f5, f6, _⟩ := outStep_facts hash j o s
    apply ih
    intro r hr
    by_cases hh : r = ⟨hash, u32 j⟩
    · rw [hh]; exact f6
    · rw [f3 r hh]
      rw [f5 r hh] at hr
      exact h r hr

/-- Every output of the transaction is recorded as created by the output loop, unless
its reference was recorded as spent when the loop started. -/
theorem outputLoop_added (hash j : Nat) (outs : List TxOut) (s : OutSt) (v : Nat)
    (hv : v < outs.length) :
    (outputLoop hash j outs s).AddedTxs ⟨hash, u32 (j + v)⟩ ≠ none ∨
      s.DeledTxs ⟨hash, u32 (j + v)⟩ ≠ none := by
  induction outs generalizing j s v with
  | nil => simp at hv
  | cons o rest ih =>
    rw [outputLoop_cons]
    obtain ⟨_, f2, _, _, _, _, f7⟩ := outStep_facts hash j o s
    cases v with
    | zero =>
      rcases f7 with h | h
      · left
        apply (outputLoop_mono hash (j + 1) rest _).2.2.1
        simp only [Nat.add_zero]
        rw [h]; simp
      · right; simpa using h
    | succ v =>
      rcases ih (j + 1) (outStep hash j o s) v (by simpa using hv) with h | h
      · left
        rwa [show j + 1 + v = j + (v + 1) by omega] at h
      · right
        rw [show j + 1 + v = j + (v + 1) by omega] at h
        cases hx : (outStep hash j o s).DeledTxs ⟨hash, u32 (j + (v + 1))⟩ with
        | none => exact absurd hx h
        | some x => rw [f2 _ x hx]; simp

/-! ## One transaction, and the loop over the transactions -/

theorem finishTx_next {i : Nat} {tx : Tx} {s s1 : CommitSt} {e : Option CommitError}
    {txinsum : Nat} {blUnsp : BlUnsp} {done : Chan} {deled : TxMap}
    (h : finishTx i tx s e txinsum blUnsp done deled = .inr s1) :
    e = none ∧ (0 < i → (outputLoop tx.Hash 0 tx.TxOut
        { txoutsum := 0, AddedTxs := s.changes.AddedTxs, DeledTxs := deled }).txoutsum ≤ txinsum) ∧
    s1 = { changes := { s.changes with
             AddedTxs := (outputLoop tx.Hash 0 tx.TxOut
               { txoutsum := 0, AddedTxs := s.changes.AddedTxs, DeledTxs := deled }).AddedTxs,
             DeledTxs := (outputLoop tx.Hash 0 tx.TxOut
               { txoutsum := 0, AddedTxs := s.changes.AddedTxs, DeledTxs := deled }).DeledTxs },
           blUnsp := blUnsp, done := done,
           sumblockin := u64 (s.sumblockin + txinsum),
           sumblockout := u64 (s.sumblockout + (outputLoop tx.Hash 0 tx.TxOut
             { txoutsum := 0, AddedTxs := s.changes.AddedTxs, DeledTxs := deled }).txoutsum) } := by
  unfold finishTx at h
  simp only at h
  split at h
  · simp at h
  · split at h
    · simp at h
    · next hc =>
      simp only [Sum.inr.injEq] at h
      refine ⟨rfl, ?_, h.symm⟩
      intro hi
      by_contra hlt
      exact hc ⟨hi, by omega⟩

/-- A transaction after which the loop goes on: it is the first one, with a script of
2 to 100 bytes in its first input, or its input checks ended without an error and with
`scripts_ok` set; then the output loop ran, and the outputs do not exceed the inputs. -/
theorem processTx_next {env : Env} {ch : Chain} {sched : Nat → Nat} {bl : Block} {i : Nat}
    {tx : Tx} {s s1 : CommitSt} (h : processTx env ch sched bl i tx s = .ok (.inr s1)) :
    ∃ (deled : TxMap) (txinsum : Nat),
      s1.changes = { s.changes with
        AddedTxs := (outputLoop tx.Hash 0 tx.TxOut
          { txoutsum := 0, AddedTxs := s.changes.AddedTxs, DeledTxs := deled }).AddedTxs,
        DeledTxs := (outputLoop tx.Hash 0 tx.TxOut
          { txoutsum := 0, AddedTxs := s.changes.AddedTxs, DeledTxs := deled }).DeledTxs } ∧
      s1.sumblockin = u64 (s.sumblockin + txinsum) ∧
      s1.sumblockout = u64 (s.sumblockout + (outputLoop tx.Hash 0 tx.TxOut
        { txoutsum := 0, AddedTxs := s.changes.AddedTxs, DeledTxs := deled }).txoutsum) ∧
      ((i = 0 ∧ deled = s.changes.DeledTxs ∧ txinsum = 0 ∧ s1.blUnsp = s.blUnsp ∧
          s1.done = s.done ∧
          ∃ txin rest, tx.TxIn = txin :: rest ∧ 2 ≤ txin.ScriptSig.length ∧
            txin.ScriptSig.length ≤ 100) ∨
       (0 < i ∧ ∃ sI, checkInputs env ch sched bl tx s = .ok sI ∧ sI.scripts_ok = true ∧
          sI.e = none ∧ sI.DeledTxs = deled ∧ sI.txinsum = txinsum ∧
          (outputLoop tx.Hash 0 tx.TxOut
            { txoutsum := 0, AddedTxs := s.changes.AddedTxs, DeledTxs := deled }).txoutsum
            ≤ txinsum ∧
          s1.blUnsp = sI.blUnsp ∧ s1.done = sI.done)) := by
  unfold processTx at h
  split at h
  · next hi =>
    split at h
    · simp at h
    · simp at h
    · next sI hI =>
      split at h
      · simp at h
      · next hok =>
        have hok1 : sI.scripts_ok = true := by simpa using hok
        simp only [Res.ok.injEq] at h
        obtain ⟨h1, h2, h3⟩ := finishTx_next h
        refine ⟨sI.DeledTxs, sI.txinsum, by rw [h3], by rw [h3], by rw [h3], Or.inr ⟨hi, sI, hI,
          hok1, h1, rfl, rfl, h2 hi, by rw [h3], by rw [h3]⟩⟩
  · next hi =>
    have hi0 : i = 0 := by omega
    split at h
    · simp at h
    · next txin rest htx =>
      split at h
      · simp at h
      · next hlen =>
        simp only [Res.ok.injEq] at h
        obtain ⟨_, _, h3⟩ := finishTx_next h
        refine ⟨s.changes.DeledTxs, 0, by rw [h3], by rw [h3], by rw [h3], Or.inl ⟨hi0, rfl, rfl,
          by rw [h3], by rw [h3], txin, rest, htx, by omega, by omega⟩⟩

/-- With a worker budget of at least one and an empty channel, the body of the loop over
the transactions neither blocks nor panics, provided the first transaction has an input;
if the loop goes on, the channel is empty again. -/
theorem processTx_returns (env : Env) (ch : Chain) (sched : Nat → Nat) (bl : Block) (i : Nat)
    (tx : Tx) (s : CommitSt) (hW : 1 ≤ env.UseThreads) (hcap : s.done.cap = env.UseThreads)
    (hlen : s.done.len = 0) (hcb : i = 0 → tx.TxIn ≠ []) :
    ∃ r, processTx env ch sched bl i tx s = .ok r ∧
      ∀ s1, r = .inr s1 → s1.done.cap = env.UseThreads ∧ s1.done.len = 0 := by
  by_cases hi : 0 < i
  · obtain ⟨sI, h1, h2, h3⟩ := checkInputs_returns env ch sched bl tx s hW hcap hlen
    by_cases hok : sI.scripts_ok = false
    · refine ⟨.inl ({ s.changes with DeledTxs := sI.DeledTxs }, some .verifyScriptsFailed),
        by simp only [processTx, hi, if_true, h1, hok], ?_⟩
      intro s1 hs1; simp at hs1
    · refine ⟨finishTx i tx s sI.e sI.txinsum sI.blUnsp sI.done sI.DeledTxs,
        by simp only [processTx, hi, if_true, h1, hok]; rfl, ?_⟩
      intro s1 hs1
      obtain ⟨_, _, h4⟩ := finishTx_next hs1
      rw [h4]; exact ⟨h2, h3⟩
  · have hi0 : i = 0 := by omega
    cases htx : tx.TxIn with
    | nil => exact absurd htx (hcb hi0)
    | cons txin rest =>
      by_cases hl : txin.ScriptSig.length < 2 ∨ 100 < txin.ScriptSig.length
      · refine ⟨.inl (s.changes, some (.coinbaseLength txin.ScriptSig.length)),
          by simp only [processTx, hi, if_false, htx, hl, if_true], ?_⟩
        intro s1 hs1; simp at hs1
      · refine ⟨finishTx i tx s none 0 s.blUnsp s.done s.changes.DeledTxs,
          by simp only [processTx, hi, if_false, htx, hl], ?_⟩
        intro s1 hs1
        obtain ⟨_, _, h4⟩ := finishTx_next hs1
        rw [h4]; exact ⟨hcap, hlen⟩

/-- With a worker budget of at least one and an empty channel, the loop over the
transactions returns, provided the first transaction has an input. -/
theorem txLoop_returns (env : Env) (ch : Chain) (sched : Nat → Nat) (bl : Block) (i : Nat)
    (txs : List Tx) (s : CommitSt) (hW : 1 ≤ env.UseThreads)
    (hcap : s.done.cap = env.UseThreads) (hlen : s.done.len = 0)
    (hcb : i = 0 → ∀ tx, txs.head? = some tx → tx.TxIn ≠ []) :
    ∃ r, txLoop env ch sched bl i txs s = .ok r := by
  induction txs generalizing i s with
  | nil =>
    simp only [txLoop]
    split
    · exact ⟨_, rfl⟩
    · exact ⟨_, rfl⟩
  | cons tx rest ih =>
    obtain ⟨r, hr, hnext⟩ := processTx_returns env ch sched bl i tx s hW hcap hlen
      (fun hi => hcb hi tx rfl)
    simp only [txLoop, hr]
    cases r with
    | inl r => exact ⟨r, rfl⟩
    | inr s1 =>
      obtain ⟨h1, h2⟩ := hnext s1 rfl
      exact ih (i + 1) s1 h1 h2 (fun h => by omega)

/-- With a worker budget of at least one, `commitTxs` returns on every block whose first
transaction has an input: it neither blocks on the channel nor panics. -/
theorem commitTxs_returns (env : Env) (ch : Chain) (sched : Nat → Nat) (bl : Block)
    (changes : BlockChanges) (hW : 1 ≤ env.UseThreads)
    (hcb : ∀ tx, bl.Txs.head? = some tx → tx.TxIn ≠ []) :
    ∃ r, commitTxs env ch sched bl changes = .ok r := by
  unfold commitTxs
  apply txLoop_returns env ch sched _ 0 _ _ hW
  · simp [initSt, Chan.make]
  · simp [initSt, Chan.make, Chan.len]
  · intro _ tx htx
    simp only [stampBlock] at htx
    cases hb : bl.Txs with
    | nil => simp [hb] at htx
    | cons t rest =>
      simp only [hb, List.map_cons, List.head?_cons, Option.some.injEq] at htx
      subst htx
      simpa [stampTx] using hcb t (by simp [hb])

/-- Every return from inside the loop over the transactions carries an error. -/
theorem finishTx_ret {i : Nat} {tx : Tx} {s : CommitSt} {e : Option CommitError}
    {txinsum : Nat} {blUnsp : BlUnsp} {done : Chan} {deled : TxMap} {c : BlockChanges}
    {e1 : Option CommitError}
    (h : finishTx i tx s e txinsum blUnsp done deled = .inl (c, e1)) : e1 ≠ none := by
  unfold finishTx at h
  simp only at h
  split at h
  · simp only [Sum.inl.injEq, Prod.mk.injEq] at h
    rw [← h.2]; simp
  · split at h
    · simp only [Sum.inl.injEq, Prod.mk.injEq] at h
      rw [← h.2]; simp
    · simp at h

theorem processTx_ret {env : Env} {ch : Chain} {sched : Nat → Nat} {bl : Block} {i : Nat}
    {tx : Tx} {s : CommitSt} {c : BlockChanges} {e : Option CommitError}
    (h : processTx env ch sched bl i tx s = .ok (.inl (c, e))) : e ≠ none := by
  unfold processTx at h
  split at h
  · split at h
    · simp at h
    · simp at h
    · split at h
      · simp only [Res.ok.injEq, Sum.inl.injEq, Prod.mk.injEq] at h
        rw [← h.2]; simp
      · simp only [Res.ok.injEq] at h
        exact finishTx_ret h
  · split at h
    · simp at h
    · split at h
      · simp only [Res.ok.injEq, Sum.inl.injEq, Prod.mk.injEq] at h
        rw [← h.2]; simp
      · simp only [Res.ok.injEq] at h
        exact finishTx_ret h

/-- A transaction other than the first after which the loop goes on: its input loop went
through all the inputs without an error, every token was `true`, and the state the loop
goes on with is the one the input loop and the output loop left. -/
theorem processTx_inputs {env : Env} {ch : Chain} {sched : Nat → Nat} {bl : Block} {i : Nat}
    {tx : Tx} {s s1 : CommitSt} (h : processTx env ch sched bl i tx s = .ok (.inr s1))
    (hi : 0 < i) :
    ∃ d0 sA, Chan.prime env.UseThreads s.done = some d0 ∧
      inputLoop env ch sched bl tx (txTrusted env bl tx) 0 tx.TxIn (InSt.start s d0) = .ok sA ∧
      sA.e = none ∧ sA.scripts_ok = true ∧ sA.done.allTrue ∧
      s1.blUnsp = sA.blUnsp ∧
      s1.changes.AddedTxs = (outputsOf tx s sA.DeledTxs).AddedTxs ∧
      s1.changes.DeledTxs = (outputsOf tx s sA.DeledTxs).DeledTxs ∧
      (outputsOf tx s sA.DeledTxs).txoutsum ≤ sA.txinsum := by
  obtain ⟨deled, txinsum, h1, _, _, h4⟩ := processTx_next h
  rcases h4 with ⟨h0, _⟩ | ⟨_, sI, hI, hok, he, hd, hs, hle, hb, _⟩
  · omega
  · obtain ⟨d0, sA, g1, g2, g3, g4, _, g6, g7, g8, g9⟩ := checkInputs_ok hI hok
    refine ⟨d0, sA, g1, g2, by rw [← g6]; exact he, g3, g4, by rw [hb, g7], ?_, ?_, ?_⟩
    · rw [h1, ← g8, hd]; rfl
    · rw [h1, ← g8, hd]; rfl
    · rw [← g8, hd, ← g9, hs]; exact hle

/-- The first transaction, when the loop goes on after it: the table and the records of
spent outputs it leaves are those the output loop left, run on an untouched state. -/
theorem processTx_first {env : Env} {ch : Chain} {sched : Nat → Nat} {bl : Block}
    {tx : Tx} {s s1 : CommitSt} (h : processTx env ch sched bl 0 tx s = .ok (.inr s1)) :
    s1.blUnsp = s.blUnsp ∧
    s1.changes.AddedTxs = (outputsOf tx s s.changes.DeledTxs).AddedTxs ∧
    s1.changes.DeledTxs = (outputsOf tx s s.changes.DeledTxs).DeledTxs := by
  obtain ⟨deled, txinsum, h1, _, _, h4⟩ := processTx_next h
  rcases h4 with ⟨_, hd, _, hb, _⟩ | ⟨h0, _⟩
  · refine ⟨hb, ?_, ?_⟩
    · rw [h1, hd]; rfl
    · rw [h1, hd]; rfl
  · omega

/-- The slots of the table are only emptied by the body of the loop. -/
theorem processTx_slot_mono {env : Env} {ch : Chain} {sched : Nat → Nat} {bl : Block} {i : Nat}
    {tx : Tx} {s s1 : CommitSt} (h : processTx env ch sched bl i tx s = .ok (.inr s1))
    (r : TxPrevOut) (o : TxOut) (h1 : slot s1.blUnsp r = some o) : slot s.blUnsp r = some o := by
  by_cases hi : 0 < i
  · obtain ⟨d0, sA, _, g2, _, _, _, g6, _⟩ := processTx_inputs h hi
    rw [g6] at h1
    exact (inputLoop_mono env ch sched bl tx _ 0 tx.TxIn _ sA g2).1 r o h1
  · have hi0 : i = 0 := by omega
    subst hi0
    rw [(processTx_first h).1] at h1
    exact h1

/-- If the loop over the transactions returns a nil error, the verifier accepted every
input of every transaction that is neither the first nor trusted, on the locking script
of the output its reference denotes. -/
theorem txLoop_verified (env : Env) (ch : Chain) (sched : Nat → Nat) (bl : Block) (i : Nat)
    (txs : List Tx) (s : CommitSt) (c : BlockChanges)
    (h : txLoop env ch sched bl i txs s = .ok (c, none))
    (hsub : ∀ r o, slot s.blUnsp r = some o → slot (mkBlUnsp bl.Txs fun _ => none) r = some o)
    (k : Nat) (tx : Tx) (hk : txs.get? k = some tx) (hik : 0 < i + k)
    (j : Nat) (txin : TxIn) (hj : tx.TxIn.get? j = some txin) :
    ∃ tout, lookupOut ch bl txin.Input = some tout ∧
      (txTrusted env bl tx = false → env.VerifyTxScript txin.ScriptSig tout.Pk_script j tx
        (decide (env.BIP16SwitchTime ≤ bl.BlockTime)) = true) := by
  induction txs generalizing i s k with
  | nil => simp at hk
  | cons t rest ih =>
    simp only [txLoop] at h
    split at h
    · simp at h
    · simp at h
    · next r hp =>
      simp only [Res.ok.injEq] at h
      subst h
      exact absurd rfl (processTx_ret hp)
    · next s1 hp =>
      cases k with
      | zero =>
        simp only [List.get?_cons_zero, Option.some.injEq] at hk
        subst hk
        obtain ⟨d0, sA, _, g2, g3, g4, g5, _⟩ := processTx_inputs hp (by omega)
        obtain ⟨_, _, g8⟩ := inputLoop_success env ch sched bl t _ 0 t.TxIn _ sA g2 g3 g4
          (by simpa [InSt.start] using hsub) (by simp [InSt.start])
        obtain ⟨_, g9⟩ := g8 g5
        simpa using g9 j txin hj
      | succ k =>
        simp only [List.get?_cons_succ] at hk
        exact ih (i + 1) s1 h (fun r o h1 => hsub r o (processTx_slot_mono hp r o h1)) k hk
          (by omega)

theorem Res.error_eq_some {α β : Type} {r : Res (α × Option β)} {e : Option β}
    (h : r.error = some e) : ∃ c, r = .ok (c, e) := by
  cases r with
  | ok p =>
    obtain ⟨c, e1⟩ := p
    simp only [Res.error, Option.some.injEq] at h
    subst h
    exact ⟨c, rfl⟩
  | panic m => simp [Res.error] at h
  | hang => simp [Res.error] at h

theorem stampBlock_trusted (bl : Block) (height : Nat) :
    (stampBlock bl height).Trusted = bl.Trusted ∧
    (stampBlock bl height).BlockTime = bl.BlockTime := ⟨rfl, rfl⟩

theorem initSt_sub (env : Env) (bl : Block) (changes : BlockChanges) (r : TxPrevOut) (o : TxOut)
    (h : slot (initSt env bl changes).blUnsp r = some o) :
    slot (mkBlUnsp (stampBlock bl changes.Height).Txs fun _ => none) r = some o := h

/-! ## Script verification (C1) -/

/-- C1: for a block that is not marked trusted, with the trusted-transaction oracle
absent or answering false on the transactions of the block, and a worker budget of at
least one, `commitTxs` returns (when the first transaction has an input), and if the
error it returns is nil then the script verifier returned true on every input `j` of
every transaction `i > 0`, called with the unlocking script of the input, the locking
script of the output the input resolves to, `j`, the transaction and the flag
`BlockTime >= BIP16SwitchTime`. So a single input on which the verifier returns false
makes `commitTxs` return a non-nil error. -/
theorem commitTxs_nil_implies_scripts_verified (env : Env) (ch : Chain) (sched : Nat → Nat)
    (bl : Block) (changes : BlockChanges) (hW : 1 ≤ env.UseThreads)
    (hT : bl.Trusted = false)
    (hO : ∀ f, env.TrustedTxChecker = some f → ∀ tx ∈ bl.Txs, f tx.Hash = false) :
    ((∀ tx, bl.Txs.head? = some tx → tx.TxIn ≠ []) →
      ∃ c e, commitTxs env ch sched bl changes = .ok (c, e)) ∧
    ∀ c, commitTxs env ch sched bl changes = .ok (c, none) →
      ∀ i tx, 0 < i → (stampBlock bl changes.Height).Txs.get? i = some tx →
        ∀ j txin, tx.TxIn.get? j = some txin →
          ∃ tout, lookupOut ch (stampBlock bl changes.Height) txin.Input = some tout ∧
            env.VerifyTxScript txin.ScriptSig tout.Pk_script j tx
              (decide (env.BIP16SwitchTime ≤ bl.BlockTime)) = true := by
  constructor
  · intro hcb
    obtain ⟨⟨c, e⟩, hr⟩ := commitTxs_returns env ch sched bl changes hW hcb
    exact ⟨c, e, hr⟩
  · intro c hc i tx hi htx j txin hj
    obtain ⟨tout, h1, h2⟩ := txLoop_verified env ch sched (stampBlock bl changes.Height) 0 _ _ c
      hc (initSt_sub env bl changes) i tx htx (by omega) j txin hj
    refine ⟨tout, h1, ?_⟩
    apply h2
    have hmem : tx ∈ (stampBlock bl changes.Height).Txs := List.get?_mem htx
    simp only [stampBlock, List.mem_map] at hmem
    obtain ⟨t, ht, hte⟩ := hmem
    unfold txTrusted
    rw [(stampBlock_trusted bl changes.Height).1, hT]
    cases hf : env.TrustedTxChecker with
    | none => rfl
    | some f =>
      have := hO f hf t ht
      simp only [Bool.false_or]
      rw [← hte]
      simpa [stampTx] using this

/-- C1 at a concrete block: two workers, no oracle, a block whose second transaction
spends the output of the ledger with a script the verifier accepts. The run returns a
nil error and the verifier accepted the input. -/
theorem commitTxs_nil_implies_scripts_verified_witness :
    (1 ≤ exEnv.UseThreads ∧ (exBlock [exCoinbase 50, exSpend]).Trusted = false ∧
      (commitTxs exEnv exChain exSched (exBlock [exCoinbase 50, exSpend])
        { Height := 1, LastKnownHeight := 0, AddedTxs := TxMap.empty,
          DeledTxs := TxMap.empty }).error = some none) ∧
    (((∀ tx, (exBlock [exCoinbase 50, exSpend]).Txs.head? = some tx → tx.TxIn ≠ []) →
      ∃ c e, commitTxs exEnv exChain exSched (exBlock [exCoinbase 50, exSpend])
        { Height := 1, LastKnownHeight := 0, AddedTxs := TxMap.empty,
          DeledTxs := TxMap.empty } = .ok (c, e)) ∧
    ∀ c, commitTxs exEnv exChain exSched (exBlock [exCoinbase 50, exSpend])
        { Height := 1, LastKnownHeight := 0, AddedTxs := TxMap.empty,
          DeledTxs := TxMap.empty } = .ok (c, none) →
      ∀ i tx, 0 < i → (stampBlock (exBlock [exCoinbase 50, exSpend]) 1).Txs.get? i = some tx →
        ∀ j txin, tx.TxIn.get? j = some txin →
          ∃ tout, lookupOut exChain (stampBlock (exBlock [exCoinbase 50, exSpend]) 1)
              txin.Input = some tout ∧
            exEnv.VerifyTxScript txin.ScriptSig tout.Pk_script j tx
              (decide (exEnv.BIP16SwitchTime ≤ (exBlock [exCoinbase 50, exSpend]).BlockTime))
              = true) :=
  ⟨⟨by decide, rfl, by decide⟩,
   commitTxs_nil_implies_scripts_verified exEnv exChain exSched
     (exBlock [exCoinbase 50, exSpend])
     { Height := 1, LastKnownHeight := 0, AddedTxs := TxMap.empty, DeledTxs := TxMap.empty }
     (by decide) rfl (fun f hf => by simp [exEnv] at hf)⟩

/-! ## Records of spent outputs across the transactions -/

/-- A record of a spent output survives the body of the loop for a transaction whose hash
is not the hash of the reference. -/
theorem processTx_deled_kept {env : Env} {ch : Chain} {sched : Nat → Nat} {bl : Block}
    {i : Nat} {tx : Tx} {s s1 : CommitSt}
    (h : processTx env ch sched bl i tx s = .ok (.inr s1)) (r : TxPrevOut)
    (hr : s.changes.DeledTxs r ≠ none) (hh : tx.Hash ≠ r.Hash) :
    s1.changes.DeledTxs r ≠ none := by
  by_cases hi : 0 < i
  · obtain ⟨d0, sA, _, g2, _, _, _, _, _, g8, _⟩ := processTx_inputs h hi
    rw [g8]
    unfold outputsOf
    rw [(outputLoop_mono tx.Hash 0 tx.TxOut _).2.1 r (Ne.symm hh)]
    show sA.DeledTxs r ≠ none
    cases hx : s.changes.DeledTxs r with
    | none => exact absurd hx hr
    | some x =>
      rw [(inputLoop_mono env ch sched bl tx _ 0 tx.TxIn _ sA g2).2.1 r x (by simpa [InSt.start] using hx)]
      simp
  · have hi0 : i = 0 := by omega
    subst hi0
    rw [(processTx_first h).2.2]
    unfold outputsOf
    rw [(outputLoop_mono tx.Hash 0 tx.TxOut _).2.1 r (Ne.symm hh)]
    exact hr

/-- After the body of the loop for a transaction other than the first, every input of it
is recorded as spent, unless the transaction's own hash is the hash of the reference. -/
theorem processTx_inputs_recorded {env : Env} {ch : Chain} {sched : Nat → Nat} {bl : Block}
    {i : Nat} {tx : Tx} {s s1 : CommitSt}
    (h : processTx env ch sched bl i tx s = .ok (.inr s1)) (hi : 0 < i)
    (txin : TxIn) (hin : txin ∈ tx.TxIn) (hh : tx.Hash ≠ txin.Input.Hash) :
    s1.changes.DeledTxs txin.Input ≠ none := by
  obtain ⟨d0, sA, _, g2, g3, g4, _, _, _, g8, _⟩ := processTx_inputs h hi
  rw [g8]
  unfold outputsOf
  rw [(outputLoop_mono tx.Hash 0 tx.TxOut _).2.1 _ (Ne.symm hh)]
  exact ((inputLoop_success_refs env ch sched bl tx _ 0 tx.TxIn _ sA g2 g3 g4).1 txin hin).2.2

/-- If the loop over the transactions returns a nil error, a reference that is recorded
as spent is not the reference of an input of a transaction that the loop processes
before it processes a transaction whose hash is the hash of the reference. -/
theorem txLoop_spent_not_input (env : Env) (ch : Chain) (sched : Nat → Nat) (bl : Block)
    (i : Nat) (txs : List Tx) (s : CommitSt) (c : BlockChanges)
    (h : txLoop env ch sched bl i txs s = .ok (c, none)) (r : TxPrevOut)
    (hr : s.changes.DeledTxs r ≠ none) (k : Nat) (tx : Tx) (hk : txs.get? k = some tx)
    (hik : 0 < i + k) (hmid : ∀ m t, m < k → txs.get? m = some t → t.Hash ≠ r.Hash)
    (txin : TxIn) (hin : txin ∈ tx.TxIn) : txin.Input ≠ r := by
  induction txs generalizing i s k with
  | nil => simp at hk
  | cons t rest ih =>
    simp only [txLoop] at h
    split at h
    · simp at h
    · simp at h
    · next p hp =>
      simp only [Res.ok.injEq] at h
      subst h
      exact absurd rfl (processTx_ret hp)
    · next s1 hp =>
      cases k with
      | zero =>
        simp only [List.get?_cons_zero, Option.some.injEq] at hk
        subst hk
        obtain ⟨d0, sA, _, g2, g3, g4, _⟩ := processTx_inputs hp (by omega)
        have := ((inputLoop_success_refs env ch sched bl t _ 0 t.TxIn _ sA g2 g3 g4).1 txin hin).1
        intro heq
        rw [heq] at this
        exact hr (by simpa [InSt.start] using this)
      | succ k =>
        simp only [List.get?_cons_succ] at hk
        have ht : t.Hash ≠ r.Hash := hmid 0 t (by omega) rfl
        exact ih (i + 1) s1 h (processTx_deled_kept hp r hr ht) k hk (by omega)
          (fun m t1 hm hmt => hmid (m + 1) t1 (by omega) (by simpa using hmt))

/-- If the loop over the transactions returns a nil error, no two inputs of one
transaction other than the first carry the same reference. -/
theorem txLoop_inputs_nodup (env : Env) (ch : Chain) (sched : Nat → Nat) (bl : Block)
    (i : Nat) (txs : List Tx) (s : CommitSt) (c : BlockChanges)
    (h : txLoop env ch sched bl i txs s = .ok (c, none)) (k : Nat) (tx : Tx)
    (hk : txs.get? k = some tx) (hik : 0 < i + k) : (tx.TxIn.map fun t => t.Input).Nodup := by
  induction txs generalizing i s k with
  | nil => simp at hk
  | cons t rest ih =>
    simp only [txLoop] at h
    split at h
    · simp at h
    · simp at h
    · next p hp =>
      simp only [Res.ok.injEq] at h
      subst h
      exact absurd rfl (processTx_ret hp)
    · next s1 hp =>
      cases k with
      | zero =>
        simp only [List.get?_cons_zero, Option.some.injEq] at hk
        subst hk
        obtain ⟨d0, sA, _, g2, g3, g4, _⟩ := processTx_inputs hp (by omega)
        exact (inputLoop_success_refs env ch sched bl t _ 0 t.TxIn _ sA g2 g3 g4).2
      | succ k =>
        simp only [List.get?_cons_succ] at hk
        exact ih (i + 1) s1 h k hk (by omega)

/-- If the loop over the transactions returns a nil error, no input of a transaction
carries the reference of an input of an earlier transaction, unless a transaction from
the earlier one up to the later one, excluded, has the hash of the reference. -/
theorem txLoop_no_double (env : Env) (ch : Chain) (sched : Nat → Nat) (bl : Block)
    (i : Nat) (txs : List Tx) (s : CommitSt) (c : BlockChanges)
    (h : txLoop env ch sched bl i txs s = .ok (c, none)) (k1 k2 : Nat) (tx1 tx2 : Tx)
    (h1 : txs.get? k1 = some tx1) (h2 : txs.get? k2 = some tx2) (hik : 0 < i + k1)
    (hlt : k1 < k2) (a b : TxIn) (ha : a ∈ tx1.TxIn) (hb : b ∈ tx2.TxIn)
    (hab : a.Input = b.Input)
    (hmid : ∀ m t, k1 ≤ m → m < k2 → txs.get? m = some t → t.Hash ≠ a.Input.Hash) : False := by
  induction txs generalizing i s k1 k2 with
  | nil => simp at h1
  | cons t rest ih =>
    simp only [txLoop] at h
    split at h
    · simp at h
    · simp at h
    · next p hp =>
      simp only [Res.ok.injEq] at h
      subst h
      exact absurd rfl (processTx_ret hp)
    · next s1 hp =>
      cases k2 with
      | zero => omega
      | succ k2 =>
        simp only [List.get?_cons_succ] at h2
        cases k1 with
        | zero =>
          simp only [List.get?_cons_zero, Option.some.injEq] at h1
          subst h1
          have ht : t.Hash ≠ a.Input.Hash := hmid 0 t (by omega) (by omega) rfl
          have hrec := processTx_inputs_recorded hp (by omega) a ha ht
          exact txLoop_spent_not_input env ch sched bl (i + 1) rest s1 c h a.Input hrec k2 tx2 h2
            (by omega) (fun m t1 hm hmt => hmid (m + 1) t1 (by omega) (by omega)
              (by simpa using hmt)) b hb hab.symm
        | succ k1 =>
          simp only [List.get?_cons_succ] at h1
          exact ih (i + 1) s1 h k1 k2 h1 h2 (by omega) (by omega)
            (fun m t1 hm1 hm2 hmt => hmid (m + 1) t1 (by omega) (by omega) (by simpa using hmt))

/-! ## The run up to an input -/

theorem runTxs_chan (env : Env) (ch : Chain) (sched : Nat → Nat) (bl : Block) (i : Nat)
    (pre : List Tx) (s s1 : CommitSt) (h : runTxs env ch sched bl i pre s = some s1)
    (hW : 1 ≤ env.UseThreads) (hcap : s.done.cap = env.UseThreads) (hlen : s.done.len = 0) :
    s1.done.cap = env.UseThreads ∧ s1.done.len = 0 := by
  induction pre generalizing i s with
  | nil =>
    simp only [runTxs, Option.some.injEq] at h
    subst h; exact ⟨hcap, hlen⟩
  | cons t rest ih =>
    simp only [runTxs] at h
    split at h
    · next s2 hp =>
      have hcb : i = 0 → t.TxIn ≠ [] := by
        intro hi
        subst hi
        obtain ⟨_, _, _, _, _, h4⟩ := processTx_next hp
        rcases h4 with ⟨_, _, _, _, _, txin, r, htx, _⟩ | ⟨h0, _⟩
        · rw [htx]; simp
        · omega
      obtain ⟨r, hr, hnext⟩ := processTx_returns env ch sched bl i t s hW hcap hlen hcb
      rw [hp] at hr
      simp only [Res.ok.injEq] at hr
      obtain ⟨g1, g2⟩ := hnext s2 hr.symm
      exact ih (i + 1) s2 h g1 g2
    · simp at h

theorem stampBlock_get (bl : Block) (height i : Nat) :
    (stampBlock bl height).Txs.get? i = (bl.Txs.get? i).map (stampTx height) := by
  simp [stampBlock]

/-! ## Double spend within a block (C2) -/

theorem stampTx_values (height : Nat) (tx : Tx) :
    ((stampTx height tx).TxOut.map fun o => o.Value) = tx.TxOut.map fun o => o.Value := by
  simp [stampTx, Function.comp_def]

/-- If the loop over the transactions returns a nil error, every input of a transaction
other than the first resolves, and the outputs of such a transaction, if their values
add up to less than `2^64`, do not exceed the values of the outputs its inputs denote. -/
theorem txLoop_balanced (env : Env) (ch : Chain) (sched : Nat → Nat) (bl : Block) (i : Nat)
    (txs : List Tx) (s : CommitSt) (c : BlockChanges)
    (h : txLoop env ch sched bl i txs s = .ok (c, none))
    (hsub : ∀ r o, slot s.blUnsp r = some o → slot (mkBlUnsp bl.Txs fun _ => none) r = some o)
    (k : Nat) (tx : Tx) (hk : txs.get? k = some tx) (hik : 0 < i + k)
    (hsum : (tx.TxOut.map fun o => o.Value).sum < 2 ^ 64) :
    (tx.TxOut.map fun o => o.Value).sum ≤ (tx.TxIn.map (inValue ch bl)).sum := by
  induction txs generalizing i s k with
  | nil => simp at hk
  | cons t rest ih =>
    simp only [txLoop] at h
    split at h
    · simp at h
    · simp at h
    · next p hp =>
      simp only [Res.ok.injEq] at h
      subst h
      exact absurd rfl (processTx_ret hp)
    · next s1 hp =>
      cases k with
      | zero =>
        simp only [List.get?_cons_zero, Option.some.injEq] at hk
        subst hk
        obtain ⟨d0, sA, _, g2, g3, g4, _, _, _, _, g9⟩ := processTx_inputs hp (by omega)
        obtain ⟨_, g7, _⟩ := inputLoop_success env ch sched bl t _ 0 t.TxIn _ sA g2 g3 g4
          (by simpa [InSt.start] using hsub) (by simp [InSt.start])
        have hout : (outputsOf t s sA.DeledTxs).txoutsum = (t.TxOut.map fun o => o.Value).sum := by
          unfold outputsOf
          rw [outputLoop_sum _ _ _ _ (by norm_num)]
          simp only [Nat.zero_add]
          exact u64_of_lt hsum
        rw [hout, g7] at g9
        simp only [InSt.start, Nat.zero_add] at g9
        exact le_trans g9 (u64_le _)
      | succ k =>
        simp only [List.get?_cons_succ] at hk
        exact ih (i + 1) s1 h (fun r o h1 => hsub r o (processTx_slot_mono hp r o h1)) k hk
          (by omega)

/-- C3, as stated, fails: the second transaction of the block spends an output worth 100
into outputs worth `2^64 - 1` and `101`; the total `txoutsum` wraps around to 100, and
`commitTxs` returns a nil error although the outputs exceed the inputs. -/
theorem commitTxs_outputs_le_inputs_counterexample :
    (commitTxs exEnv exChain exSched (exBlock [exCoinbase 50, exOverflow])
      (freshChanges 1)).error = some none ∧
    ¬ (exOverflow.TxOut.map fun o => o.Value).sum
        ≤ (exOverflow.TxIn.map
            (inValue exChain (stampBlock (exBlock [exCoinbase 50, exOverflow]) 1))).sum := by
  constructor
  · decide
  · decide

/-- C3, amended: if `commitTxs` returns a nil error, then for every transaction other
than the first whose output values add up to less than `2^64`, the exact sum of the
output values is at most the exact sum of the values of the outputs its inputs resolved
to. (When the output values add up to `2^64` or more, `txoutsum` wraps around.) -/
theorem commitTxs_outputs_le_inputs (env : Env) (ch : Chain) (sched : Nat → Nat) (bl : Block)
    (changes c : BlockChanges) (h : commitTxs env ch sched bl changes = .ok (c, none))
    (i : Nat) (tx : Tx) (hi : 0 < i) (htx : bl.Txs.get? i = some tx)
    (hsum : (tx.TxOut.map fun o => o.Value).sum < 2 ^ 64) :
    (tx.TxOut.map fun o => o.Value).sum
      ≤ (tx.TxIn.map (inValue ch (stampBlock bl changes.Height))).sum := by
  have g : (stampBlock bl changes.Height).Txs.get? i = some (stampTx changes.Height tx) := by
    rw [stampBlock_get, htx]; rfl
  have := txLoop_balanced env ch sched _ 0 _ _ c h (initSt_sub env bl changes) i _ g (by omega)
    (by rw [stampTx_values]; exact hsum)
  rw [stampTx_values] at this
  exact this

/-- C3 at a concrete block: the second transaction spends the output of the ledger,
worth 100, into one output of 100, and `commitTxs` returns a nil error. -/
theorem commitTxs_outputs_le_inputs_witness :
    (commitTxs exEnv exChain exSched (exBlock [exCoinbase 50, exSpend])
      (freshChanges 1)).error = some none ∧
    (exSpend.TxOut.map fun o => o.Value).sum < 2 ^ 64 ∧
    (exSpend.TxOut.map fun o => o.Value).sum
      ≤ (exSpend.TxIn.map
          (inValue exChain (stampBlock (exBlock [exCoinbase 50, exSpend]) 1))).sum :=
  ⟨by decide, by decide,
  match Res.error_eq_some (r := commitTxs exEnv exChain exSched
      (exBlock [exCoinbase 50, exSpend]) (freshChanges 1)) (e := none) (by decide) with
  | ⟨c, hc⟩ =>
    commitTxs_outputs_le_inputs exEnv exChain exSched (exBlock [exCoinbase 50, exSpend])
      (freshChanges 1) c hc 1 exSpend (by decide) rfl (by decide)⟩

/-! ## Blocks made of a coinbase transaction (C4, C5) -/

/-- On a block made of one transaction, the first input of which has a script of 2 to 100
bytes, `commitTxs` returns, and the error is nil unless the output values, added up
modulo `2^64`, exceed the subsidy. -/
theorem commitTxs_coinbase_only (env : Env) (ch : Chain) (sched : Nat → Nat) (bl : Block)
    (changes : BlockChanges) (tx : Tx) (txin : TxIn) (ins : List TxIn)
    (hT : bl.Txs = [tx]) (hin : tx.TxIn = txin :: ins)
    (hl1 : 2 ≤ txin.ScriptSig.length) (hl2 : txin.ScriptSig.length ≤ 100) :
    ∃ c, commitTxs env ch sched bl changes = .ok (c,
      if u64 (env.GetBlockReward changes.Height) < u64 (tx.TxOut.map fun o => o.Value).sum then
        some (.outGtIn (u64 (tx.TxOut.map fun o => o.Value).sum)
          (u64 (env.GetBlockReward changes.Height)))
      else none) := by
  have hl : ¬ (txin.ScriptSig.length < 2 ∨ 100 < txin.ScriptSig.length) := by omega
  have hsum := outputLoop_sum tx.Hash 0 (stampTx changes.Height tx).TxOut
    { txoutsum := 0, AddedTxs := changes.AddedTxs, DeledTxs := changes.DeledTxs } (by norm_num)
  simp only [Nat.zero_add, stampTx_values] at hsum
  have h1 : u64 (u64 (env.GetBlockReward changes.Height) + 0)
      = u64 (env.GetBlockReward changes.Height) := by
    rw [u64_add_u64]; rfl
  have h2 : ∀ n, u64 (0 + u64 n) = u64 n := by
    intro n; unfold u64; omega
  simp only [commitTxs, stampBlock, hT, List.map_cons, List.map_nil, txLoop, processTx,
    Nat.lt_irrefl, if_false, stampTx, hin, hl, finishTx, initSt, false_and]
  simp only [stampTx] at hsum
  rw [hsum, h1, h2]
  split
  · exact ⟨_, rfl⟩
  · exact ⟨_, rfl⟩

/-- C4: on a block made of a coinbase transaction only, with one input whose script has
2 to 100 bytes and output values that add up to `T < 2^64`, `commitTxs` at height `H`
returns, and the error is nil if and only if `T ≤ GetBlockReward(H)`; for
`T = GetBlockReward(H) + 1` the error is the error `Out:.. > In:..`. -/
theorem commitTxs_coinbase_reward (env : Env) (ch : Chain) (sched : Nat → Nat) (bl : Block)
    (changes : BlockChanges) (tx : Tx) (txin : TxIn)
    (hT : bl.Txs = [tx]) (hin : tx.TxIn = [txin])
    (hl1 : 2 ≤ txin.ScriptSig.length) (hl2 : txin.ScriptSig.length ≤ 100)
    (hsum : (tx.TxOut.map fun o => o.Value).sum < 2 ^ 64)
    (hrew : env.GetBlockReward changes.Height < 2 ^ 64) :
    ∃ c e, commitTxs env ch sched bl changes = .ok (c, e) ∧
      (e = none ↔ (tx.TxOut.map fun o => o.Value).sum ≤ env.GetBlockReward changes.Height) ∧
      ((tx.TxOut.map fun o => o.Value).sum = env.GetBlockReward changes.Height + 1 →
        e = some (.outGtIn (tx.TxOut.map fun o => o.Value).sum
          (env.GetBlockReward changes.Height))) := by
  obtain ⟨c, hc⟩ := commitTxs_coinbase_only env ch sched bl changes tx txin [] hT hin hl1 hl2
  rw [u64_of_lt hsum, u64_of_lt hrew] at hc
  refine ⟨c, _, hc, ?_, ?_⟩
  · split
    · next hlt => simp; omega
    · next hlt => simp; omega
  · intro heq
    rw [if_pos (by omega)]

/-- C4 at concrete blocks: with a subsidy of 50, a coinbase that pays out 50 is accepted
and a coinbase that pays out 51 is rejected with the error `Out:51 > In:50`. -/
theorem commitTxs_coinbase_reward_witness :
    (∃ c e, commitTxs exEnv exChain exSched (exBlock [exCoinbase 50]) (freshChanges 1)
        = .ok (c, e) ∧
      (e = none ↔ ((exCoinbase 50).TxOut.map fun o => o.Value).sum
        ≤ exEnv.GetBlockReward (freshChanges 1).Height) ∧
      (((exCoinbase 50).TxOut.map fun o => o.Value).sum
          = exEnv.GetBlockReward (freshChanges 1).Height + 1 →
        e = some (.outGtIn ((exCoinbase 50).TxOut.map fun o => o.Value).sum
          (exEnv.GetBlockReward (freshChanges 1).Height)))) ∧
    (commitTxs exEnv exChain exSched (exBlock [exCoinbase 50]) (freshChanges 1)).error
      = some none ∧
    (commitTxs exEnv exChain exSched (exBlock [exCoinbase 51]) (freshChanges 1)).error
      = some (some (.outGtIn 51 50)) :=
  ⟨commitTxs_coinbase_reward exEnv exChain exSched (exBlock [exCoinbase 50]) (freshChanges 1)
     (exCoinbase 50) ⟨⟨0, 4294967295⟩, [3, 1]⟩ rfl rfl (by decide) (by decide) (by decide)
     (by decide),
   by decide, by decide⟩

/-- C5: on a block whose first transaction has at least one input, if the length of the
script of the first input of the first transaction is less than 2 or more than 100,
`commitTxs` returns a non-nil error, the coinbase length error; and on a block made of a
coinbase transaction only whose output values do not exceed the subsidy, `commitTxs`
returns a nil error for every length from 2 to 100, bounds included. -/
theorem commitTxs_coinbase_script_length (env : Env) (ch : Chain) (sched : Nat → Nat)
    (bl : Block) (changes : BlockChanges) (tx : Tx) (rest : List Tx) (txin : TxIn)
    (ins : List TxIn) (hT : bl.Txs = tx :: rest) (hin : tx.TxIn = txin :: ins) :
    ((txin.ScriptSig.length < 2 ∨ 100 < txin.ScriptSig.length) →
      ∃ c, commitTxs env ch sched bl changes
        = .ok (c, some (.coinbaseLength txin.ScriptSig.length))) ∧
    (rest = [] →
      (tx.TxOut.map fun o => o.Value).sum ≤ env.GetBlockReward changes.Height →
      env.GetBlockReward changes.Height < 2 ^ 64 →
      2 ≤ txin.ScriptSig.length → txin.ScriptSig.length ≤ 100 →
      ∃ c, commitTxs env ch sched bl changes = .ok (c, none)) := by
  constructor
  · intro hl
    refine ⟨changes, ?_⟩
    simp only [commitTxs, stampBlock, hT, List.map_cons, txLoop, processTx, Nat.lt_irrefl,
      if_false, stampTx, hin, hl, if_true, initSt]
  · intro hrest hle hrew hl1 hl2
    subst hrest
    obtain ⟨c, hc⟩ := commitTxs_coinbase_only env ch sched bl changes tx txin ins hT hin hl1 hl2
    rw [u64_of_lt hrew, u64_of_lt (lt_of_le_of_lt hle hrew), if_neg (by omega)] at hc
    exact ⟨c, hc⟩

/-- C5 at concrete blocks: a coinbase script of one byte or of 101 bytes is rejected,
scripts of 2 bytes and of 100 bytes are accepted. -/
theorem commitTxs_coinbase_script_length_witness :
    (∃ c, commitTxs exEnv exChain exSched (exBlock [exCoinbaseLen 1]) (freshChanges 1)
      = .ok (c, some (.coinbaseLength 1))) ∧
    (∃ c, commitTxs exEnv exChain exSched (exBlock [exCoinbaseLen 101]) (freshChanges 1)
      = .ok (c, some (.coinbaseLength 101))) ∧
    (∃ c, commitTxs exEnv exChain exSched (exBlock [exCoinbaseLen 2]) (freshChanges 1)
      = .ok (c, none)) ∧
    (∃ c, commitTxs exEnv exChain exSched (exBlock [exCoinbaseLen 100]) (freshChanges 1)
      = .ok (c, none)) :=
  ⟨(commitTxs_coinbase_script_length exEnv exChain exSched (exBlock [exCoinbaseLen 1])
      (freshChanges 1) (exCoinbaseLen 1) [] ⟨⟨0, 4294967295⟩, List.replicate 1 0⟩ [] rfl rfl).1
      (by decide),
   (commitTxs_coinbase_script_length exEnv exChain exSched (exBlock [exCoinbaseLen 101])
      (freshChanges 1) (exCoinbaseLen 101) [] ⟨⟨0, 4294967295⟩, List.replicate 101 0⟩ [] rfl
      rfl).1 (by simp),
   (commitTxs_coinbase_script_length exEnv exChain exSched (exBlock [exCoinbaseLen 2])
      (freshChanges 1) (exCoinbaseLen 2) [] ⟨⟨0, 4294967295⟩, List.replicate 2 0⟩ [] rfl rfl).2
      rfl (by decide) (by decide) (by decide) (by decide),
   (commitTxs_coinbase_script_length exEnv exChain exSched (exBlock [exCoinbaseLen 100])
      (freshChanges 1) (exCoinbaseLen 100) [] ⟨⟨0, 4294967295⟩, List.replicate 100 0⟩ [] rfl
      rfl).2 rfl (by decide) (by decide) (by simp) (by simp)⟩

/-! ## The two maps of the delta (C6, C7) -/

/-- If no transaction spends an output of an earlier transaction of the list, the loop
over the transactions keeps the two maps of the delta disjoint. -/
theorem txLoop_disjoint (env : Env) (ch : Chain) (sched : Nat → Nat) (bl : Block) (i : Nat)
    (txs : List Tx) (s : CommitSt) (c : BlockChanges)
    (h : txLoop env ch sched bl i txs s = .ok (c, none))
    (hinv : ∀ r, s.changes.AddedTxs r ≠ none → s.changes.DeledTxs r = none)
    (hold : ∀ r, s.changes.AddedTxs r ≠ none → ∀ t ∈ txs, ∀ txin ∈ t.TxIn, txin.Input ≠ r)
    (hpw : txs.Pairwise spendsNoOutputOf) :
    ∀ r, c.AddedTxs r ≠ none → c.DeledTxs r = none := by
  induction txs generalizing i s with
  | nil =>
    simp only [txLoop] at h
    split at h
    · simp at h
    · simp only [Res.ok.injEq, Prod.mk.injEq] at h
      rw [← h.1]; exact hinv
  | cons t rest ih =>
    simp only [txLoop] at h
    split at h
    · simp at h
    · simp at h
    · next p hp =>
      simp only [Res.ok.injEq] at h
      subst h
      exact absurd rfl (processTx_ret hp)
    · next s1 hp =>
      obtain ⟨hpw1, hpw2⟩ := List.pairwise_cons.1 hpw
      -- the records of spent outputs after the input checks
      have hD : ∃ D : TxMap, s1.changes.AddedTxs = (outputsOf t s D).AddedTxs ∧
          s1.changes.DeledTxs = (outputsOf t s D).DeledTxs ∧
          ∀ r, s.changes.AddedTxs r ≠ none → D r = none := by
        by_cases hi : 0 < i
        · obtain ⟨d0, sA, _, g2, _, _, _, _, g7, g8, _⟩ := processTx_inputs hp hi
          refine ⟨sA.DeledTxs, g7, g8, ?_⟩
          intro r hr
          by_contra hne
          rcases (inputLoop_mono env ch sched bl t _ 0 t.TxIn _ sA g2).2.2.1 r hne with h1 | h1
          · exact h1 (by simpa [InSt.start] using hinv r hr)
          · obtain ⟨txin, hin, hre⟩ := h1
            exact hold r hr t (List.mem_cons_self _ _) txin hin hre
        · have hi0 : i = 0 := by omega
          subst hi0
          obtain ⟨_, g7, g8⟩ := processTx_first hp
          exact ⟨s.changes.DeledTxs, g7, g8, hinv⟩
      obtain ⟨D, hA, hDl, hDinv⟩ := hD
      apply ih (i + 1) s1 h
      · rw [hA, hDl]
        exact outputLoop_disjoint t.Hash 0 t.TxOut _ hDinv
      · intro r hr t2 ht2 txin hin
        rw [hA] at hr
        rcases (outputLoop_mono t.Hash 0 t.TxOut _).2.2.2.2 r hr with h1 | ⟨v, hv, hre⟩
        · exact hold r h1 t2 (List.mem_cons_of_mem _ ht2) txin hin
        · rw [hre, Nat.zero_add]
          exact hpw1 t2 ht2 v hv txin hin
      · exact hpw2

/-- C6, as stated, fails: the second transaction of the block creates the output (2, 0)
and the third transaction spends it; `ProcessBlockTransactions` returns a nil error and
the reference (2, 0) is a key of both `AddedTxs` and `DeledTxs`. -/
theorem ProcessBlockTransactions_disjoint_counterexample :
    ∃ c, ProcessBlockTransactions exEnv exChain exSched
        (exBlock [exCoinbase 50, exSpend, exChild]) 1 = .ok (c, none) ∧
      c.AddedTxs ⟨2, 0⟩ ≠ none ∧ c.DeledTxs ⟨2, 0⟩ ≠ none :=
  ⟨_, rfl, by decide, by decide⟩

/-- C6, amended: for every ledger state and every block in which no input of a
transaction refers to an output of an earlier transaction of the block, if
`ProcessBlockTransactions` returns a nil error then no output reference is a key of both
`AddedTxs` and `DeledTxs` of the returned delta. -/
theorem ProcessBlockTransactions_disjoint (env : Env) (ch : Chain) (sched : Nat → Nat)
    (bl : Block) (height : Nat) (c : BlockChanges)
    (h : ProcessBlockTransactions env ch sched bl height = .ok (c, none))
    (hno : bl.Txs.Pairwise spendsNoOutputOf) :
    ∀ r, ¬ (c.AddedTxs r ≠ none ∧ c.DeledTxs r ≠ none) := by
  intro r ⟨h1, h2⟩
  apply h2
  refine txLoop_disjoint env ch sched _ 0 _ _ c h ?_ ?_ ?_ r h1
  · intro r hr
    simp [initSt, TxMap.empty] at hr
  · intro r hr
    simp [initSt, TxMap.empty] at hr
  · simp only [stampBlock, List.pairwise_map]
    refine hno.imp ?_
    intro t1 t2 h12 v hv txin hin
    exact h12 v (by simpa [stampTx] using hv) txin hin

/-- C6 at a concrete block, whose second transaction spends the output of the ledger:
the run returns a nil error and no reference is a key of both maps. -/
theorem ProcessBlockTransactions_disjoint_witness :
    (ProcessBlockTransactions exEnv exChain exSched (exBlock [exCoinbase 50, exSpend]) 1).error
      = some none ∧
    ∃ c, ProcessBlockTransactions exEnv exChain exSched (exBlock [exCoinbase 50, exSpend]) 1
        = .ok (c, none) ∧
      ∀ r, ¬ (c.AddedTxs r ≠ none ∧ c.DeledTxs r ≠ none) :=
  ⟨by decide, _, rfl,
    ProcessBlockTransactions_disjoint exEnv exChain exSched (exBlock [exCoinbase 50, exSpend]) 1
      _ rfl (by
        simp only [exBlock, List.pairwise_cons, List.mem_cons, List.mem_singleton,
          List.not_mem_nil, forall_eq_or_imp, forall_eq]
        refine ⟨⟨?_, ?_⟩, ?_, List.Pairwise.nil⟩
        · intro v hv txin hin
          simp only [exSpend, List.mem_singleton] at hin
          subst hin
          simp [exCoinbase]
        · intro t ht; exact absurd ht (by simp)
        · intro t ht; exact absurd ht (by simp))⟩

/-- The state after the body of the loop, for any position: the records of spent outputs
the input checks left are those of the state before plus inputs of the transaction, the
table has only lost slots, and the output loop ran on them. -/
theorem processTx_outputs {env : Env} {ch : Chain} {sched : Nat → Nat} {bl : Block} {i : Nat}
    {tx : Tx} {s s1 : CommitSt} (h : processTx env ch sched bl i tx s = .ok (.inr s1)) :
    ∃ D : TxMap,
      s1.changes.AddedTxs = (outputsOf tx s D).AddedTxs ∧
      s1.changes.DeledTxs = (outputsOf tx s D).DeledTxs ∧
      (∀ r x, s.changes.DeledTxs r = some x → D r = some x) ∧
      (spentSlotsEmpty ch s.changes.DeledTxs s.blUnsp → spentSlotsEmpty ch D s1.blUnsp) := by
  by_cases hi : 0 < i
  · obtain ⟨d0, sA, _, g2, _, _, _, g6, g7, g8, _⟩ := processTx_inputs h hi
    obtain ⟨_, m2, _, m4⟩ := inputLoop_mono env ch sched bl tx _ 0 tx.TxIn _ sA g2
    refine ⟨sA.DeledTxs, g7, g8, ?_, ?_⟩
    · intro r x hx
      exact m2 r x (by simpa [InSt.start] using hx)
    · intro hk
      rw [g6]
      exact m4 (by simpa [InSt.start] using hk)
  · have hi0 : i = 0 := by omega
    subst hi0
    obtain ⟨g6, g7, g8⟩ := processTx_first h
    refine ⟨s.changes.DeledTxs, g7, g8, fun _ _ hx => hx, ?_⟩
    intro hk
    rw [g6]; exact hk

/-- The body of the loop keeps the slot of every spent reference that the ledger lacks
empty. -/
theorem processTx_spentSlotsEmpty {env : Env} {ch : Chain} {sched : Nat → Nat} {bl : Block}
    {i : Nat} {tx : Tx} {s s1 : CommitSt}
    (h : processTx env ch sched bl i tx s = .ok (.inr s1))
    (hk : spentSlotsEmpty ch s.changes.DeledTxs s.blUnsp) :
    spentSlotsEmpty ch s1.changes.DeledTxs s1.blUnsp := by
  obtain ⟨D, _, hD, _, hK⟩ := processTx_outputs h
  intro r hp hr
  apply hK hk r hp
  rw [hD] at hr
  cases hx : (outputsOf tx s D).DeledTxs r with
  | none => exact absurd hx hr
  | some x =>
    have := (outputLoop_mono tx.Hash 0 tx.TxOut
      { txoutsum := 0, AddedTxs := s.changes.AddedTxs, DeledTxs := D }).1 r x hx
    rw [show D r = some x from this]; simp

/-- Records of created outputs are never removed by the loop over the transactions. -/
theorem txLoop_added_mono (env : Env) (ch : Chain) (sched : Nat → Nat) (bl : Block) (i : Nat)
    (txs : List Tx) (s : CommitSt) (c : BlockChanges)
    (h : txLoop env ch sched bl i txs s = .ok (c, none)) (r : TxPrevOut)
    (hr : s.changes.AddedTxs r ≠ none) : c.AddedTxs r ≠ none := by
  induction txs generalizing i s with
  | nil =>
    simp only [txLoop] at h
    split at h
    · simp at h
    · simp only [Res.ok.injEq, Prod.mk.injEq] at h
      rw [← h.1]; exact hr
  | cons t rest ih =>
    simp only [txLoop] at h
    split at h
    · simp at h
    · simp at h
    · next p hp =>
      simp only [Res.ok.injEq] at h
      subst h
      exact absurd rfl (processTx_ret hp)
    · next s1 hp =>
      obtain ⟨D, hA, _⟩ := processTx_outputs hp
      apply ih (i + 1) s1 h
      rw [hA]
      exact (outputLoop_mono t.Hash 0 t.TxOut _).2.2.1 r hr

/-- A record of a spent output is still there when the loop over the transactions
returns a nil error, unless one of the transactions has the hash of the reference. -/
theorem txLoop_deled_kept (env : Env) (ch : Chain) (sched : Nat → Nat) (bl : Block) (i : Nat)
    (txs : List Tx) (s : CommitSt) (c : BlockChanges)
    (h : txLoop env ch sched bl i txs s = .ok (c, none)) (r : TxPrevOut)
    (hr : s.changes.DeledTxs r ≠ none) (hall : ∀ t ∈ txs, t.Hash ≠ r.Hash) :
    c.DeledTxs r ≠ none := by
  induction txs generalizing i s with
  | nil =>
    simp only [txLoop] at h
    split at h
    · simp at h
    · simp only [Res.ok.injEq, Prod.mk.injEq] at h
      rw [← h.1]; exact hr
  | cons t rest ih =>
    simp only [txLoop] at h
    split at h
    · simp at h
    · simp at h
    · next p hp =>
      simp only [Res.ok.injEq] at h
      subst h
      exact absurd rfl (processTx_ret hp)
    · next s1 hp =>
      exact ih (i + 1) s1 h (processTx_deled_kept hp r hr (hall t (List.mem_cons_self _ _)))
        (fun t2 ht2 => hall t2 (List.mem_cons_of_mem _ ht2))

/-- If the loop over the transactions returns a nil error, a reference that the ledger
lacks and whose slot in the table is empty is not the reference of an input of a
transaction other than the first. -/
theorem txLoop_empty_slot_not_input (env : Env) (ch : Chain) (sched : Nat → Nat) (bl : Block)
    (i : Nat) (txs : List Tx) (s : CommitSt) (c : BlockChanges)
    (h : txLoop env ch sched bl i txs s = .ok (c, none)) (r : TxPrevOut)
    (hp : ch.PickUnspent r = none) (hs : slot s.blUnsp r = none)
    (k : Nat) (tx : Tx) (hk : txs.get? k = some tx) (hik : 0 < i + k)
    (txin : TxIn) (hin : txin ∈ tx.TxIn) : txin.Input ≠ r := by
  induction txs generalizing i s k with
  | nil => simp at hk
  | cons t rest ih =>
    simp only [txLoop] at h
    split at h
    · simp at h
    · simp at h
    · next p hpr =>
      simp only [Res.ok.injEq] at h
      subst h
      exact absurd rfl (processTx_ret hpr)
    · next s1 hpr =>
      cases k with
      | zero =>
        simp only [List.get?_cons_zero, Option.some.injEq] at hk
        subst hk
        obtain ⟨d0, sA, _, g2, g3, g4, _⟩ := processTx_inputs hpr (by omega)
        intro heq
        have := ((inputLoop_success_refs env ch sched bl t _ 0 t.TxIn _ sA g2 g3 g4).1 txin
          hin).2.1 (by rw [heq]; exact hp)
        rw [heq] at this
        exact this (by simpa [InSt.start] using hs)
      | succ k =>
        simp only [List.get?_cons_succ] at hk
        refine ih (i + 1) s1 h ?_ k hk (by omega)
        cases hx : slot s1.blUnsp r with
        | none => rfl
        | some o => rw [processTx_slot_mono hpr r o hx] at hs; simp at hs

/-- If the loop over the transactions returns a nil error, an output that a transaction
creates and that an input of a later transaction spends, its reference being absent from
the ledger, is recorded in `AddedTxs`. -/
theorem txLoop_created_spent (env : Env) (ch : Chain) (sched : Nat → Nat) (bl : Block)
    (i : Nat) (txs : List Tx) (s : CommitSt) (c : BlockChanges)
    (h : txLoop env ch sched bl i txs s = .ok (c, none))
    (hK : spentSlotsEmpty ch s.changes.DeledTxs s.blUnsp)
    (k m : Nat) (tk tm : Tx) (hk : txs.get? k = some tk) (hm : txs.get? m = some tm)
    (hkm : k < m) (v : Nat) (hv : v < tk.TxOut.length) (hv32 : v < 2 ^ 32)
    (txin : TxIn) (hin : txin ∈ tm.TxIn) (href : txin.Input = ⟨tk.Hash, v⟩)
    (hp : ch.PickUnspent ⟨tk.Hash, v⟩ = none) :
    c.AddedTxs ⟨tk.Hash, v⟩ ≠ none := by
  induction txs generalizing i s k m with
  | nil => simp at hk
  | cons t rest ih =>
    simp only [txLoop] at h
    split at h
    · simp at h
    · simp at h
    · next p hpr =>
      simp only [Res.ok.injEq] at h
      subst h
      exact absurd rfl (processTx_ret hpr)
    · next s1 hpr =>
      cases m with
      | zero => omega
      | succ m =>
        simp only [List.get?_cons_succ] at hm
        cases k with
        | zero =>
          simp only [List.get?_cons_zero, Option.some.injEq] at hk
          subst hk
          obtain ⟨D, hA, hD, _, hKD⟩ := processTx_outputs hpr
          have hu : u32 (0 + v) = v := by
            unfold u32; rw [Nat.zero_add]; exact Nat.mod_eq_of_lt hv32
          rcases outputLoop_added t.Hash 0 t.TxOut
            { txoutsum := 0, AddedTxs := s.changes.AddedTxs, DeledTxs := D } v hv with h1 | h1
          · rw [hu] at h1
            exact txLoop_added_mono env ch sched bl (i + 1) rest s1 c h _ (by rw [hA]; exact h1)
          · rw [hu] at h1
            exfalso
            have hs := hKD hK _ hp h1
            exact txLoop_empty_slot_not_input env ch sched bl (i + 1) rest s1 c h _ hp hs m tm hm
              (by omega) txin hin href
        | succ k =>
          simp only [List.get?_cons_succ] at hk
          exact ih (i + 1) s1 h (processTx_spentSlotsEmpty hpr hK) k m hk hm (by omega)

/-- If the loop over the transactions returns a nil error, an input of a transaction
other than the first is recorded in `DeledTxs`, unless that transaction or a later one
has the hash of the reference. -/
theorem txLoop_input_recorded (env : Env) (ch : Chain) (sched : Nat → Nat) (bl : Block)
    (i : Nat) (txs : List Tx) (s : CommitSt) (c : BlockChanges)
    (h : txLoop env ch sched bl i txs s = .ok (c, none))
    (m : Nat) (tm : Tx) (hm : txs.get? m = some tm) (him : 0 < i + m)
    (txin : TxIn) (hin : txin ∈ tm.TxIn)
    (hlater : ∀ n t, m ≤ n → txs.get? n = some t → t.Hash ≠ txin.Input.Hash) :
    c.DeledTxs txin.Input ≠ none := by
  induction txs generalizing i s m with
  | nil => simp at hm
  | cons t rest ih =>
    simp only [txLoop] at h
    split at h
    · simp at h
    · simp at h
    · next p hpr =>
      simp only [Res.ok.injEq] at h
      subst h
      exact absurd rfl (processTx_ret hpr)
    · next s1 hpr =>
      cases m with
      | zero =>
        simp only [List.get?_cons_zero, Option.some.injEq] at hm
        subst hm
        have ht : t.Hash ≠ txin.Input.Hash := hlater 0 t (by omega) rfl
        refine txLoop_deled_kept env ch sched bl (i + 1) rest s1 c h _
          (processTx_inputs_recorded hpr (by omega) txin hin ht) ?_
        intro t2 ht2
        obtain ⟨n, hn⟩ := List.mem_iff_get?.1 ht2
        exact hlater (n + 1) t2 (by omega) (by simpa using hn)
      | succ m =>
        simp only [List.get?_cons_succ] at hm
        exact ih (i + 1) s1 h m hm (by omega)
          (fun n t1 hn hnt => hlater (n + 1) t1 (by omega) (by simpa using hnt))

/-- C7, as stated, fails: the second transaction of the block creates the output (2, 0),
which the ledger does not hold, and the third transaction spends it;
`ProcessBlockTransactions` returns a nil error and the reference (2, 0) is a key of
`AddedTxs` of the returned delta. -/
theorem ProcessBlockTransactions_created_then_spent_counterexample :
    (exBlock [exCoinbase 40, exSpend, exChild]).Txs.get? 1 = some exSpend ∧
    (exBlock [exCoinbase 40, exSpend, exChild]).Txs.get? 2 = some exChild ∧
    0 < exSpend.TxOut.length ∧
    (exChild.TxIn.map fun t => t.Input) = [⟨exSpend.Hash, 0⟩] ∧
    exChain.PickUnspent ⟨exSpend.Hash, 0⟩ = none ∧
    ∃ c, ProcessBlockTransactions exEnv exChain exSched
        (exBlock [exCoinbase 40, exSpend, exChild]) 1 = .ok (c, none) ∧
      c.AddedTxs ⟨exSpend.Hash, 0⟩ ≠ none :=
  ⟨rfl, rfl, by decide, rfl, by decide, _, rfl, by decide⟩

/-- C7, amended: if `ProcessBlockTransactions` returns a nil error, transaction `k`
creates output number `v`, and an input of a later transaction `i > k` spends the
reference (hash of transaction `k`, `v`), which is absent from the ledger, then that
reference is a key of `AddedTxs` of the returned delta; it is also a key of `DeledTxs`,
provided no transaction from `i` on has the hash of transaction `k`. -/
theorem ProcessBlockTransactions_created_then_spent (env : Env) (ch : Chain)
    (sched : Nat → Nat) (bl : Block) (height : Nat) (c : BlockChanges)
    (h : ProcessBlockTransactions env ch sched bl height = .ok (c, none))
    (k i : Nat) (tk ti : Tx) (hk : bl.Txs.get? k = some tk) (hi : bl.Txs.get? i = some ti)
    (hki : k < i) (v : Nat) (hv : v < tk.TxOut.length) (hv32 : v < 2 ^ 32)
    (txin : TxIn) (hin : txin ∈ ti.TxIn) (href : txin.Input = ⟨tk.Hash, v⟩)
    (hp : ch.PickUnspent ⟨tk.Hash, v⟩ = none) :
    c.AddedTxs ⟨tk.Hash, v⟩ ≠ none ∧
    ((∀ n t, i ≤ n → bl.Txs.get? n = some t → t.Hash ≠ tk.Hash) →
      c.DeledTxs ⟨tk.Hash, v⟩ ≠ none) := by
  have gk : (stampBlock bl height).Txs.get? k = some (stampTx height tk) := by
    rw [stampBlock_get, hk]; rfl
  have gi : (stampBlock bl height).Txs.get? i = some (stampTx height ti) := by
    rw [stampBlock_get, hi]; rfl
  constructor
  · refine txLoop_created_spent env ch sched _ 0 _ _ c h ?_ k i _ _ gk gi hki v
      (by simpa [stampTx] using hv) hv32 txin hin href hp
    intro r _ hr
    simp [initSt, TxMap.empty] at hr
  · intro hlater
    have := txLoop_input_recorded env ch sched _ 0 _ _ c h i _ gi (by omega) txin hin (by
      intro n t hn hnt
      rw [stampBlock_get] at hnt
      cases hx : bl.Txs.get? n with
      | none => rw [hx] at hnt; simp at hnt
      | some t0 =>
        rw [hx] at hnt
        simp only [Option.map_some', Option.some.injEq] at hnt
        rw [← hnt, href]
        exact hlater n t0 hn hx)
    rw [href] at this
    exact this

/-- C7 at a concrete block: the third transaction spends the output the second one
creates; the reference is a key of both maps of the returned delta. -/
theorem ProcessBlockTransactions_created_then_spent_witness :
    ∃ c, ProcessBlockTransactions exEnv exChain exSched
        (exBlock [exCoinbase 50, exSpend, exChild]) 1 = .ok (c, none) ∧
      c.AddedTxs ⟨exSpend.Hash, 0⟩ ≠ none ∧
      ((∀ n t, 2 ≤ n → (exBlock [exCoinbase 50, exSpend, exChild]).Txs.get? n = some t →
          t.Hash ≠ exSpend.Hash) →
        c.DeledTxs ⟨exSpend.Hash, 0⟩ ≠ none) :=
  ⟨_, rfl,
    ProcessBlockTransactions_created_then_spent exEnv exChain exSched
      (exBlock [exCoinbase 50, exSpend, exChild]) 1 _ rfl 1 2 exSpend exChild rfl rfl
      (by decide) 0 (by decide) (by decide) ⟨⟨2, 0⟩, [75]⟩ (by decide) rfl (by decide)⟩

/-! ## CheckTransactions (C8) -/

/-- C8, the code at the failing input: with one worker and a batch made of one
transaction that fails `CheckTransaction`, `CheckTransactions` returns true, whatever the
scheduler: the token of the transaction is never received. Likewise with two workers and
a batch of three transactions the last of which fails, when the goroutines deliver in
the order in which they were started. -/
theorem CheckTransactions_true_on_failing_tx :
    exEnv.CheckTransaction exBad = false ∧
    (∀ sched, CheckTransactions { exEnv with UseThreads := 1 } sched [exBad] 0 0 = .ok true) ∧
    CheckTransactions exEnv exSched [exSpend, exChild, exBad] 0 0 = .ok true :=
  ⟨rfl, fun _ => rfl, rfl⟩

/-! ## AcceptBlock on a failed commitment (C9, C10) -/

theorem updNode_cancel (l : List BlockTreeNode) (p : Nat) (n : BlockTreeNode)
    (f g : BlockTreeNode → BlockTreeNode) (hn : l.get? p = some n) (hfg : g (f n) = n) :
    updNode (updNode l p f) p g = l := by
  have hp : p < l.length := (List.get?_eq_some.1 hn).1
  have h1 : updNode l p f = l.set p (f n) := by simp only [updNode, hn]
  have h2 : (l.set p (f n)).get? p = some (f n) := by
    simp only [List.get?_eq_getElem?]
    exact List.getElem?_set_self hp
  rw [h1]
  simp only [updNode, h2, List.set_set, hfg]
  apply List.ext_getElem?
  intro k
  by_cases hk : p = k
  · subst hk
    rw [List.getElem?_set_self hp]
    simpa [List.get?_eq_getElem?] using hn.symm
  · rw [List.getElem?_set_ne hk]

theorem delChild_addChild (n : BlockTreeNode) (c : Nat) (h : c ∉ n.Childs) :
    (n.addChild c).delChild c = n := by
  cases n with
  | mk bh ht par chs txc hdr =>
    simp only [BlockTreeNode.addChild, BlockTreeNode.delChild, BlockTreeNode.mk.injEq, true_and,
      and_true]
    rw [List.erase_append_right _ h]
    simp

/-- What `AcceptBlock` does for a block whose parent is the tip and whose transaction
commitment returns an error. -/
theorem AcceptBlock_failure (env : Env) (sched : Nat → Nat) (ch : Chain) (bl : Block)
    (prevblk : Nat) (pnode : BlockTreeNode) (c : BlockChanges) (e : CommitError)
    (hidx : ch.BlockIndex (env.BIdx bl.ParentHash) = some prevblk)
    (hnode : ch.nodes.get? prevblk = some pnode)
    (hraw : 80 ≤ bl.Raw.length)
    (htip : ch.BlockTreeEnd = prevblk)
    (hfail : ProcessBlockTransactions env ch sched bl (u32 (pnode.Height + 1))
      = .ok (c, some e)) :
    AcceptBlock env sched ch bl = .ok
      ({ ch with
          nodes := updNode (updNode (ch.nodes ++
            [{ BlockHash := bl.Hash, Parent := some prevblk, Height := u32 (pnode.Height + 1),
               TxCount := u32 bl.TxCount, BlockHeader := bl.Raw.take 80, Childs := [] }])
            prevblk fun n => n.addChild ch.nodes.length) prevblk
            fun n => n.delChild ch.nodes.length,
          BlockIndex := fun k => if k = env.BIdx bl.Hash then none
            else if k = env.BIdx bl.Hash then some ch.nodes.length else ch.BlockIndex k },
       stampBlock bl (u32 (pnode.Height + 1)), some e) := by
  have hr : ¬ bl.Raw.length < 80 := by omega
  simp only [AcceptBlock, hidx, hnode, hr, htip, if_true, if_false, hfail]

/-- C9, as stated, fails: the index already holds a node under the key of the hash of the
block; the block, with a raw header of 80 bytes, extends the tip, its commitment fails,
and after `AcceptBlock` the key is absent from the index, while it was present before the
call. -/
theorem AcceptBlock_failure_index_counterexample :
    (exBlock [exCoinbaseLen 1]).Raw.length = 80 ∧
    exChainDup.BlockIndex (exEnv.BIdx (exBlock [exCoinbaseLen 1]).ParentHash)
      = some exChainDup.BlockTreeEnd ∧
    (ProcessBlockTransactions exEnv exChainDup exSched (exBlock [exCoinbaseLen 1]) 1).error
      = some (some (.coinbaseLength 1)) ∧
    exChainDup.BlockIndex (exEnv.BIdx (exBlock [exCoinbaseLen 1]).Hash) = some 1 ∧
    ∃ ch1 bl1 e, AcceptBlock exEnv exSched exChainDup (exBlock [exCoinbaseLen 1])
        = .ok (ch1, bl1, e) ∧
      ch1.BlockIndex (exEnv.BIdx (exBlock [exCoinbaseLen 1]).Hash) = none :=
  ⟨by decide, by decide, by decide, by decide, _, _, _, rfl, by decide⟩

/-- C9, amended: for every chain state in which the child lists hold pointers to
allocated nodes, and every block that holds at least 80 bytes of raw data, whose parent
is the current tip (the index entry of the parent pointing to an allocated node), whose
index key is not yet present in `BlockIndex`, and for which `ProcessBlockTransactions`
returns an error, `AcceptBlock` returns that error, `BlockIndex` is afterwards the mapping
it was before the call, and every node that existed before the call, the parent with its
child list included, is unchanged. -/
theorem AcceptBlock_failure_index_restored (env : Env) (sched : Nat → Nat) (ch : Chain)
    (bl : Block) (prevblk : Nat) (pnode : BlockTreeNode) (c : BlockChanges) (e : CommitError)
    (hidx : ch.BlockIndex (env.BIdx bl.ParentHash) = some prevblk)
    (hnode : ch.nodes.get? prevblk = some pnode)
    (hraw : 80 ≤ bl.Raw.length)
    (htip : ch.BlockTreeEnd = prevblk)
    (hfail : ProcessBlockTransactions env ch sched bl (u32 (pnode.Height + 1))
      = .ok (c, some e))
    (hwf : ch.childsAllocated)
    (hnew : ch.BlockIndex (env.BIdx bl.Hash) = none) :
    ∃ ch1 bl1, AcceptBlock env sched ch bl = .ok (ch1, bl1, some e) ∧
      ch1.BlockIndex = ch.BlockIndex ∧
      (∀ p n, ch.nodes.get? p = some n → ch1.nodes.get? p = some n) ∧
      ch1.nodes.get? prevblk = some pnode := by
  have hp : prevblk < ch.nodes.length := (List.get?_eq_some.1 hnode).1
  have hget : ∀ (x : BlockTreeNode) p n, ch.nodes.get? p = some n →
      (ch.nodes ++ [x]).get? p = some n := by
    intro x p n hpn
    have hlt : p < ch.nodes.length := (List.get?_eq_some.1 hpn).1
    simp only [List.get?_eq_getElem?] at hpn ⊢
    rw [List.getElem?_append_left hlt]
    exact hpn
  have hfresh : ch.nodes.length ∉ pnode.Childs := by
    intro hmem
    have := hwf prevblk pnode hnode _ hmem
    omega
  have hnodes : ∀ x : BlockTreeNode,
      updNode (updNode (ch.nodes ++ [x]) prevblk fun n => n.addChild ch.nodes.length) prevblk
        (fun n => n.delChild ch.nodes.length) = ch.nodes ++ [x] :=
    fun x => updNode_cancel _ prevblk pnode (fun n => n.addChild ch.nodes.length)
      (fun n => n.delChild ch.nodes.length) (hget x prevblk pnode hnode)
      (delChild_addChild pnode _ hfresh)
  refine ⟨_, _, AcceptBlock_failure env sched ch bl prevblk pnode c e hidx hnode hraw htip hfail,
    ?_, ?_, ?_⟩
  · funext k
    by_cases hk : k = env.BIdx bl.Hash
    · simp only [hk, if_true]; exact hnew.symm
    · simp only [hk, if_false]
  · intro p n hpn
    simp only [hnodes]
    exact hget _ p n hpn
  · simp only [hnodes]
    exact hget _ prevblk pnode hnode

/-- C9 at a concrete input: the chain made of the genesis node and a block on top of it
whose coinbase script has one byte. -/
theorem AcceptBlock_failure_index_restored_witness :
    exChain.childsAllocated ∧
    80 ≤ (exBlock [exCoinbaseLen 1]).Raw.length ∧
    exChain.BlockIndex (exEnv.BIdx (exBlock [exCoinbaseLen 1]).Hash) = none ∧
    ∃ ch1 bl1, AcceptBlock exEnv exSched exChain (exBlock [exCoinbaseLen 1])
        = .ok (ch1, bl1, some (.coinbaseLength 1)) ∧
      ch1.BlockIndex = exChain.BlockIndex ∧
      (∀ p n, exChain.nodes.get? p = some n → ch1.nodes.get? p = some n) ∧
      ch1.nodes.get? 0 = exChain.nodes.get? 0 :=
  have hwf : exChain.childsAllocated := by
    intro p n hp q hq
    cases p with
    | zero =>
      simp only [exChain, List.get?_cons_zero, Option.some.injEq] at hp
      subst hp
      simp at hq
    | succ p => simp [exChain] at hp
  ⟨hwf, by decide, by decide,
    AcceptBlock_failure_index_restored exEnv exSched exChain (exBlock [exCoinbaseLen 1]) 0 _
      (freshChanges 1) (.coinbaseLength 1) rfl rfl (by decide) rfl rfl hwf (by decide)⟩

/-- C10, as stated, fails: the block extends the tip and its second transaction spends
the output of the ledger, worth 100, into outputs of 60 and 50, so that its commitment
fails with the error `More spent (110) than at the input (100) in TX 7`; but the raw data
of the block holds 79 bytes, and `AcceptBlock` panics on the slice `bl.Raw[:80]` instead
of returning that error. -/
theorem AcceptBlock_failure_frame_counterexample :
    exChain.BlockIndex (exEnv.BIdx (exShort 0 [exCoinbase 50, exSplit]).ParentHash)
      = some exChain.BlockTreeEnd ∧
    (ProcessBlockTransactions exEnv exChain exSched (exShort 0 [exCoinbase 50, exSplit]) 1).error
      = some (some (.moreSpent 110 100 exSplit.Hash)) ∧
    (exShort 0 [exCoinbase 50, exSplit]).Raw.length = 79 ∧
    AcceptBlock exEnv exSched exChain (exShort 0 [exCoinbase 50, exSplit])
      = .panic "slice bounds out of range" :=
  ⟨by decide, by decide, by decide, rfl⟩

/-- C10, amended: for every chain state and every block that holds at least 80 bytes of
raw data, whose parent is the current tip (the index entry of the parent pointing to an
allocated node) and for which `ProcessBlockTransactions` returns an error, `AcceptBlock`
returns that error and leaves the tip, the unspent ledger and the deferred-sync flag as
they were; no collaborator (`BlockAdd`, `CommitBlockTxs`, `Sync`, `MoveToBlock`) is
invoked, and the block is not marked trusted. -/
theorem AcceptBlock_failure_frame (env : Env) (sched : Nat → Nat) (ch : Chain)
    (bl : Block) (prevblk : Nat) (pnode : BlockTreeNode) (c : BlockChanges) (e : CommitError)
    (hidx : ch.BlockIndex (env.BIdx bl.ParentHash) = some prevblk)
    (hnode : ch.nodes.get? prevblk = some pnode)
    (hraw : 80 ≤ bl.Raw.length)
    (htip : ch.BlockTreeEnd = prevblk)
    (hfail : ProcessBlockTransactions env ch sched bl (u32 (pnode.Height + 1))
      = .ok (c, some e)) :
    ∃ ch1 bl1, AcceptBlock env sched ch bl = .ok (ch1, bl1, some e) ∧
      ch1.BlockTreeEnd = ch.BlockTreeEnd ∧ ch1.Unspent = ch.Unspent ∧
      ch1.calls = ch.calls ∧ ch1.DoNotSync = ch.DoNotSync ∧ bl1.Trusted = bl.Trusted :=
  ⟨_, _, AcceptBlock_failure env sched ch bl prevblk pnode c e hidx hnode hraw htip hfail,
    rfl, rfl, rfl, rfl, rfl⟩

/-- C10 at a concrete block: its second transaction spends the output of the ledger,
worth 100, into outputs of 60 and 50; the commitment fails with the error
`More spent (110) than at the input (100) in TX 7`, which `AcceptBlock` returns. -/
theorem AcceptBlock_failure_frame_witness :
    80 ≤ (exBlock [exCoinbase 50, exSplit]).Raw.length ∧
    (ProcessBlockTransactions exEnv exChain exSched (exBlock [exCoinbase 50, exSplit]) 1).error
      = some (some (.moreSpent 110 100 exSplit.Hash)) ∧
    ∃ ch1 bl1, AcceptBlock exEnv exSched exChain (exBlock [exCoinbase 50, exSplit])
        = .ok (ch1, bl1, some (.moreSpent 110 100 exSplit.Hash)) ∧
      ch1.BlockTreeEnd = exChain.BlockTreeEnd ∧ ch1.Unspent = exChain.Unspent ∧
      ch1.calls = exChain.calls ∧ ch1.DoNotSync = exChain.DoNotSync ∧
      bl1.Trusted = (exBlock [exCoinbase 50, exSplit]).Trusted :=
  ⟨by decide, by decide,
    AcceptBlock_failure_frame exEnv exSched exChain (exBlock [exCoinbase 50, exSplit]) 0 _
      _ (.moreSpent 110 100 exSplit.Hash) rfl rfl (by decide) rfl rfl⟩

/-! ## AcceptBlock: the structural insert -/

theorem updNode_get_self (l : List BlockTreeNode) (p : Nat) (n : BlockTreeNode)
    (f : BlockTreeNode → BlockTreeNode) (hn : l.get? p = some n) :
    (updNode l p f).get? p = some (f n) := by
  have hp : p < l.length := (List.get?_eq_some.1 hn).1
  simp only [updNode, hn, List.get?_eq_getElem?]
  exact List.getElem?_set_self hp

theorem updNode_get_other (l : List BlockTreeNode) (p q : Nat)
    (f : BlockTreeNode → BlockTreeNode) (hpq : p ≠ q) :
    (updNode l p f).get? q = l.get? q := by
  unfold updNode
  split
  · rfl
  · simp only [List.get?_eq_getElem?]
    exact List.getElem?_set_ne hpq

theorem get?_append_old {α : Type} (l : List α) (x : α) (p : Nat) (n : α)
    (h : l.get? p = some n) : (l ++ [x]).get? p = some n := by
  have hlt : p < l.length := (List.get?_eq_some.1 h).1
  simp only [List.get?_eq_getElem?] at h ⊢
  rw [List.getElem?_append_left hlt]
  exact h

theorem get?_append_new {α : Type} (l : List α) (x : α) :
    (l ++ [x]).get? l.length = some x := by
  simp only [List.get?_eq_getElem?]
  rw [List.getElem?_append_right (Nat.le_refl _)]
  simp

/-- The nodes after the structural insert: the new node sits at the fresh pointer, the
parent has the new node as its last child, every other node is unchanged. -/
theorem insertedNodes_get (ch : Chain) (bl : Block) (prevblk : Nat) (pnode : BlockTreeNode)
    (hnode : ch.nodes.get? prevblk = some pnode) :
    (insertedNodes ch bl prevblk pnode).get? ch.nodes.length = some (newNode bl prevblk pnode) ∧
    (insertedNodes ch bl prevblk pnode).get? prevblk = some (pnode.addChild ch.nodes.length) ∧
    (∀ p n, p ≠ prevblk → ch.nodes.get? p = some n →
      (insertedNodes ch bl prevblk pnode).get? p = some n) := by
  have hp : prevblk < ch.nodes.length := (List.get?_eq_some.1 hnode).1
  refine ⟨?_, ?_, ?_⟩
  · unfold insertedNodes
    rw [updNode_get_other _ _ _ _ (by omega)]
    exact get?_append_new _ _
  · unfold insertedNodes
    exact updNode_get_self _ _ _ _ (get?_append_old _ _ _ _ hnode)
  · intro p n hne hpn
    unfold insertedNodes
    rw [updNode_get_other _ _ _ _ (Ne.symm hne)]
    exact get?_append_old _ _ _ _ hpn

/-- What `AcceptBlock` does for a block whose parent is the tip and whose transaction
commitment succeeds. -/
theorem AcceptBlock_success (env : Env) (sched : Nat → Nat) (ch : Chain) (bl : Block)
    (prevblk : Nat) (pnode : BlockTreeNode) (c : BlockChanges)
    (hidx : ch.BlockIndex (env.BIdx bl.ParentHash) = some prevblk)
    (hnode : ch.nodes.get? prevblk = some pnode)
    (hraw : 80 ≤ bl.Raw.length)
    (htip : ch.BlockTreeEnd = prevblk)
    (hsucc : ProcessBlockTransactions env ch sched bl (u32 (pnode.Height + 1))
      = .ok (c, none)) :
    AcceptBlock env sched ch bl = .ok
      ({ ch with
          nodes := insertedNodes ch bl prevblk pnode,
          BlockIndex := insertedIndex env ch bl,
          Unspent := env.CommitBlockTxs ch.Unspent
            { c with LastKnownHeight := bl.LastKnownHeight } bl.Hash,
          calls := ch.calls ++ [Call.BlockAdd (u32 (pnode.Height + 1))
              { stampBlock bl (u32 (pnode.Height + 1)) with Trusted := true },
            Call.CommitBlockTxs { c with LastKnownHeight := bl.LastKnownHeight } bl.Hash] ++
            (if ch.DoNotSync then [] else [Call.Sync]),
          BlockTreeEnd := ch.nodes.length },
       { stampBlock bl (u32 (pnode.Height + 1)) with Trusted := true }, none) := by
  have hr : ¬ bl.Raw.length < 80 := by omega
  simp only [AcceptBlock, hidx, hnode, hr, htip, if_true, if_false, hsucc]
  rfl

/-- What `AcceptBlock` does for a block whose parent is indexed and is not the tip. -/
theorem AcceptBlock_side (env : Env) (sched : Nat → Nat) (ch : Chain) (bl : Block)
    (prevblk : Nat) (pnode tip : BlockTreeNode)
    (hidx : ch.BlockIndex (env.BIdx bl.ParentHash) = some prevblk)
    (hnode : ch.nodes.get? prevblk = some pnode)
    (hraw : 80 ≤ bl.Raw.length)
    (htip : ch.BlockTreeEnd ≠ prevblk)
    (htipn : ch.nodes.get? ch.BlockTreeEnd = some tip) :
    AcceptBlock env sched ch bl = .ok
      (if tip.Height < u32 (pnode.Height + 1) then
        env.MoveToBlock
          { ch with
              nodes := insertedNodes ch bl prevblk pnode,
              BlockIndex := insertedIndex env ch bl,
              calls := ch.calls ++ [Call.BlockAdd (u32 (pnode.Height + 1)) bl] ++
                [Call.MoveToBlock ch.nodes.length] } ch.nodes.length
       else
        { ch with
            nodes := insertedNodes ch bl prevblk pnode,
            BlockIndex := insertedIndex env ch bl,
            calls := ch.calls ++ [Call.BlockAdd (u32 (pnode.Height + 1)) bl] },
       bl, none) := by
  have h1 := (insertedNodes_get ch bl prevblk pnode hnode).2.2 _ tip htip htipn
  unfold insertedNodes newNode at h1
  have hr : ¬ bl.Raw.length < 80 := by omega
  simp only [AcceptBlock, hidx, hnode, hr, htip, if_false, h1]
  split <;> rfl

/-! ## AcceptBlock on the success path (C11) and on a side branch (C12) -/

/-- C11, as stated, fails: the block extends the tip and its commitment succeeds, but
its raw data holds 79 bytes, and `AcceptBlock` panics on the slice `bl.Raw[:80]` instead
of returning nil. -/
theorem AcceptBlock_success_effects_counterexample :
    exChain.BlockIndex (exEnv.BIdx (exShort 0 [exCoinbase 50, exSpend]).ParentHash)
      = some exChain.BlockTreeEnd ∧
    (ProcessBlockTransactions exEnv exChain exSched (exShort 0 [exCoinbase 50, exSpend]) 1).error
      = some none ∧
    (exShort 0 [exCoinbase 50, exSpend]).Raw.length = 79 ∧
    AcceptBlock exEnv exSched exChain (exShort 0 [exCoinbase 50, exSpend])
      = .panic "slice bounds out of range" :=
  ⟨by decide, by decide, by decide, rfl⟩

/-- C11, amended: for every chain state and every block that holds at least 80 bytes of
raw data, whose parent is the current tip (the index entry of the parent pointing to an
allocated node) and for which `ProcessBlockTransactions` returns a nil error,
`AcceptBlock` returns nil, and afterwards the tip is the newly allocated node, which carries the hash of the block, has
the old tip as parent and the old tip's height plus one (in `uint32` arithmetic) as
height, and to which the index maps the key of the block's hash; the block is marked
trusted; the collaborators were invoked as follows, in this order and with no other
invocation: `BlockAdd` with that height and the trusted block, `CommitBlockTxs` with the
delta returned by `ProcessBlockTransactions`, `LastKnownHeight` copied from the block, and
the block hash, and `Sync` if and only if `DoNotSync` is false. -/
theorem AcceptBlock_success_effects (env : Env) (sched : Nat → Nat) (ch : Chain) (bl : Block)
    (prevblk : Nat) (pnode : BlockTreeNode) (c : BlockChanges)
    (hidx : ch.BlockIndex (env.BIdx bl.ParentHash) = some prevblk)
    (hnode : ch.nodes.get? prevblk = some pnode)
    (hraw : 80 ≤ bl.Raw.length)
    (htip : ch.BlockTreeEnd = prevblk)
    (hsucc : ProcessBlockTransactions env ch sched bl (u32 (pnode.Height + 1))
      = .ok (c, none)) :
    ∃ ch1 bl1, AcceptBlock env sched ch bl = .ok (ch1, bl1, none) ∧
      ch1.BlockTreeEnd = ch.nodes.length ∧
      (∃ node, ch1.nodes.get? ch1.BlockTreeEnd = some node ∧ node.BlockHash = bl.Hash ∧
        node.Parent = some ch.BlockTreeEnd ∧ node.Height = u32 (pnode.Height + 1) ∧
        (pnode.Height + 1 < 2 ^ 32 → node.Height = pnode.Height + 1)) ∧
      ch1.BlockIndex (env.BIdx bl.Hash) = some ch1.BlockTreeEnd ∧
      bl1.Trusted = true ∧ bl1.Hash = bl.Hash ∧
      ch1.calls = ch.calls ++ [Call.BlockAdd (u32 (pnode.Height + 1)) bl1,
          Call.CommitBlockTxs { c with LastKnownHeight := bl.LastKnownHeight } bl.Hash] ++
          (if ch.DoNotSync then [] else [Call.Sync]) ∧
      ch1.Unspent = env.CommitBlockTxs ch.Unspent
        { c with LastKnownHeight := bl.LastKnownHeight } bl.Hash := by
  refine ⟨_, _, AcceptBlock_success env sched ch bl prevblk pnode c hidx hnode hraw htip hsucc,
    rfl, ⟨newNode bl prevblk pnode, (insertedNodes_get ch bl prevblk pnode hnode).1, rfl, ?_, rfl,
      ?_⟩, ?_, rfl, rfl, rfl, rfl⟩
  · rw [htip]; rfl
  · intro hlt
    exact Nat.mod_eq_of_lt hlt
  · simp [insertedIndex]

/-- C11 at a concrete input: the chain made of the genesis node, and a block whose second
transaction spends the output of the ledger. -/
theorem AcceptBlock_success_effects_witness :
    80 ≤ (exBlock [exCoinbase 50, exSpend]).Raw.length ∧
    (ProcessBlockTransactions exEnv exChain exSched (exBlock [exCoinbase 50, exSpend]) 1).error
      = some none ∧
    ∃ ch1 bl1, AcceptBlock exEnv exSched exChain (exBlock [exCoinbase 50, exSpend])
        = .ok (ch1, bl1, none) ∧
      ch1.BlockTreeEnd = 1 ∧ ch1.BlockIndex 9 = some 1 ∧ bl1.Trusted = true ∧
      ch1.calls.length = 3 :=
  ⟨by decide, by decide,
    match Res.error_eq_some (r := ProcessBlockTransactions exEnv exChain exSched
      (exBlock [exCoinbase 50, exSpend]) 1) (e := none) (by decide) with
    | ⟨c, hc⟩ =>
      match AcceptBlock_success_effects exEnv exSched exChain (exBlock [exCoinbase 50, exSpend])
        0 { BlockHash := 0, Height := 0, Parent := none, Childs := [], TxCount := 1, BlockHeader := [] }
        c rfl rfl (by decide) rfl hc with
      | ⟨ch1, bl1, h1, h2, _, h4, h5, _, h7, _⟩ =>
        ⟨ch1, bl1, h1, h2, by rw [h2] at h4; exact h4, h5, by rw [h7]; rfl⟩⟩

/-- C12, as stated, fails: the parent of the block is indexed and is not the tip, but the
raw data of the block holds 79 bytes, and `AcceptBlock` panics on the slice
`bl.Raw[:80]`: the block is not stored. -/
theorem AcceptBlock_side_branch_counterexample :
    exChainSide.BlockIndex (exEnv.BIdx (exShort 0 [exCoinbase 50]).ParentHash) = some 0 ∧
    exChainSide.BlockTreeEnd ≠ 0 ∧
    (exShort 0 [exCoinbase 50]).Raw.length = 79 ∧
    AcceptBlock exEnv exSched exChainSide (exShort 0 [exCoinbase 50])
      = .panic "slice bounds out of range" :=
  ⟨by decide, by decide, by decide, rfl⟩

/-- C12, amended: for every chain state and every block that holds at least 80 bytes of
raw data and whose parent is indexed but is not the current tip (the index entry of the
parent and the tip pointing to allocated nodes), `AcceptBlock` returns nil whatever the
transactions of the block are; the
block is returned as it was given (not marked trusted, its outputs not touched by the
commitment); the new node is inserted, `BlockAdd` is invoked with the new height and the
block, the ledger and the tip are left alone and `CommitBlockTxs` is not invoked; if the
new height is strictly greater than the height of the tip, `MoveToBlock` is then invoked
once, with the new node, on that state, and if it is less or equal it is not invoked. -/
theorem AcceptBlock_side_branch (env : Env) (sched : Nat → Nat) (ch : Chain) (bl : Block)
    (prevblk : Nat) (pnode tip : BlockTreeNode)
    (hidx : ch.BlockIndex (env.BIdx bl.ParentHash) = some prevblk)
    (hnode : ch.nodes.get? prevblk = some pnode)
    (hraw : 80 ≤ bl.Raw.length)
    (htip : ch.BlockTreeEnd ≠ prevblk)
    (htipn : ch.nodes.get? ch.BlockTreeEnd = some tip) :
    ∃ ch0 : Chain,
      ch0.BlockTreeEnd = ch.BlockTreeEnd ∧ ch0.Unspent = ch.Unspent ∧
      ch0.calls = ch.calls ++ [Call.BlockAdd (u32 (pnode.Height + 1)) bl] ∧
      ch0.nodes.get? ch.nodes.length = some (newNode bl prevblk pnode) ∧
      ch0.BlockIndex (env.BIdx bl.Hash) = some ch.nodes.length ∧
      (tip.Height < u32 (pnode.Height + 1) →
        AcceptBlock env sched ch bl = .ok
          (env.MoveToBlock { ch0 with calls := ch0.calls ++ [Call.MoveToBlock ch.nodes.length] }
            ch.nodes.length, bl, none)) ∧
      (u32 (pnode.Height + 1) ≤ tip.Height →
        AcceptBlock env sched ch bl = .ok (ch0, bl, none)) := by
  have h := AcceptBlock_side env sched ch bl prevblk pnode tip hidx hnode hraw htip htipn
  refine ⟨{ ch with
      nodes := insertedNodes ch bl prevblk pnode,
      BlockIndex := insertedIndex env ch bl,
      calls := ch.calls ++ [Call.BlockAdd (u32 (pnode.Height + 1)) bl] }, rfl, rfl, rfl,
    (insertedNodes_get ch bl prevblk pnode hnode).1, by simp [insertedIndex], ?_, ?_⟩
  · intro hlt
    rw [h, if_pos hlt]
  · intro hle
    rw [h, if_neg (by omega)]

/-- C12 at concrete inputs, on a chain whose tip has height 1: a block on top of the
genesis block has height 1 and is stored without a chain switch; a block on top of the
node of height 2 has height 3 and the chain switch is invoked. -/
theorem AcceptBlock_side_branch_witness :
    80 ≤ (exBlockOn 0 [exCoinbase 50]).Raw.length ∧
    80 ≤ (exBlockOn 8 [exCoinbase 50]).Raw.length ∧
    (∃ ch1, AcceptBlock exEnv exSched exChainSide (exBlockOn 0 [exCoinbase 50])
        = .ok (ch1, exBlockOn 0 [exCoinbase 50], none) ∧
      ch1.BlockTreeEnd = 1 ∧ ch1.calls.length = 1) ∧
    (∃ ch1, AcceptBlock exEnv exSched exChainSide (exBlockOn 8 [exCoinbase 50])
        = .ok (ch1, exBlockOn 8 [exCoinbase 50], none) ∧
      ch1.BlockTreeEnd = 3 ∧ ch1.calls.length = 2) :=
  ⟨by decide, by decide,
   match AcceptBlock_side_branch exEnv exSched exChainSide (exBlockOn 0 [exCoinbase 50]) 0
      { BlockHash := 0, Height := 0, Parent := none, Childs := [1], TxCount := 1, BlockHeader := [] }
      { BlockHash := 7, Height := 1, Parent := some 0, Childs := [2], TxCount := 1, BlockHeader := [] }
      rfl rfl (by decide) (by decide) rfl with
    | ⟨ch0, h1, _, h3, _, _, _, h7⟩ =>
      ⟨ch0, h7 (by decide), h1, by rw [h3]; rfl⟩,
   match AcceptBlock_side_branch exEnv exSched exChainSide (exBlockOn 8 [exCoinbase 50]) 2
      { BlockHash := 8, Height := 2, Parent := some 1, Childs := [], TxCount := 1, BlockHeader := [] }
      { BlockHash := 7, Height := 1, Parent := some 0, Childs := [2], TxCount := 1, BlockHeader := [] }
      rfl rfl (by decide) (by decide) rfl with
    | ⟨ch0, _, _, h3, _, _, h6, _⟩ =>
      ⟨_, h6 (by decide), rfl, by simp [exEnv, h3, exChainSide]⟩⟩

/-! ## Unknown inputs (C13) -/

theorem mkBlUnsp_some (txs : List Tx) (m : BlUnsp) (h : Nat) (t : List (Option TxOut))
    (ht : mkBlUnsp txs m h = some t) :
    m h = some t ∨ ∃ tx ∈ txs, tx.Hash = h ∧ t = tx.TxOut.map some := by
  induction txs generalizing m with
  | nil => exact Or.inl ht
  | cons tx rest ih =>
    simp only [mkBlUnsp] at ht
    rcases ih _ ht with h1 | ⟨tx1, h1, h2, h3⟩
    · by_cases hh : h = tx.Hash
      · simp only [hh, if_true, Option.some.injEq] at h1
        exact Or.inr ⟨tx, List.mem_cons_self _ _, hh.symm, h1.symm⟩
      · simp only [hh, if_false] at h1
        exact Or.inl h1
    · exact Or.inr ⟨tx1, List.mem_cons_of_mem _ h1, h2, h3⟩

/-- A reference that the table built from the transactions `txs` resolves is an output
of one of them. -/
theorem slot_mkBlUnsp (txs : List Tx) (r : TxPrevOut) (o : TxOut)
    (h : slot (mkBlUnsp txs fun _ => none) r = some o) :
    ∃ tx ∈ txs, tx.Hash = r.Hash ∧ r.Vout < tx.TxOut.length ∧ tx.TxOut.get? r.Vout = some o := by
  unfold slot at h
  split at h
  · simp at h
  · next t ht =>
    rcases mkBlUnsp_some txs _ _ _ ht with h1 | ⟨tx, h1, h2, h3⟩
    · simp at h1
    · refine ⟨tx, h1, h2, ?_⟩
      subst h3
      simp only [List.getD_eq_getElem?_getD, List.getElem?_map] at h
      cases hx : tx.TxOut[r.Vout]? with
      | none => simp [hx] at h
      | some x =>
        simp only [hx, Option.map_some', Option.getD_some, Option.some.injEq] at h
        subst h
        have := (List.getElem?_eq_some_iff.1 hx).1
        exact ⟨this, by simpa [List.get?_eq_getElem?] using hx⟩

theorem stampBlock_mem (bl : Block) (height : Nat) (t : Tx)
    (h : t ∈ (stampBlock bl height).Txs) : ∃ t0 ∈ bl.Txs, t = stampTx height t0 := by
  simp only [stampBlock, List.mem_map] at h
  obtain ⟨t0, h1, h2⟩ := h
  exact ⟨t0, h1, h2.symm⟩

/-- C13, as stated, fails: the second transaction of the block spends a reference that
the ledger does not hold and that carries the hash of no transaction of the block. With a
worker budget of zero the channel is unbuffered and never primed, so that `commitTxs`,
having found the unknown input, waits on `<-done` for ever and returns nothing; and when
the first transaction has no input, `commitTxs` panics on `TxIn[0]` before it looks at
the second transaction. -/
theorem commitTxs_unknown_input_counterexample :
    (∀ txin ∈ exUnknown.TxIn, exChain.PickUnspent txin.Input = none ∧
      (∀ t ∈ [exCoinbase 50, exUnknown], t.Hash ≠ txin.Input.Hash) ∧
      ∀ t ∈ [exBad, exUnknown], t.Hash ≠ txin.Input.Hash) ∧
    (exBlock [exCoinbase 50, exUnknown]).Txs.get? 1 = some exUnknown ∧
    exEnvNoWorkers.UseThreads = 0 ∧
    commitTxs exEnvNoWorkers exChain exSched (exBlock [exCoinbase 50, exUnknown])
      (freshChanges 1) = .hang ∧
    (exBlock [exBad, exUnknown]).Txs.get? 1 = some exUnknown ∧
    exBad.TxIn = [] ∧
    commitTxs exEnv exChain exSched (exBlock [exBad, exUnknown]) (freshChanges 1)
      = .panic "index out of range" :=
  ⟨by decide, rfl, rfl, rfl, rfl, rfl, rfl⟩

/-- C13, amended: with a worker budget of at least one and a first transaction that has
an input, if an input of a transaction other than the first carries a reference that the ledger
does not hold and either no transaction of the block has the hash of the reference, or
every transaction of the block that has this hash has no more outputs than the output
number of the reference, then `commitTxs` returns a non-nil error. -/
theorem commitTxs_unknown_input (env : Env) (ch : Chain) (sched : Nat → Nat) (bl : Block)
    (changes : BlockChanges) (hW : 1 ≤ env.UseThreads)
    (hcb : ∀ tx, bl.Txs.head? = some tx → tx.TxIn ≠ [])
    (i : Nat) (tx : Tx) (txin : TxIn) (hi : 0 < i) (htx : bl.Txs.get? i = some tx)
    (hin : txin ∈ tx.TxIn) (hled : ch.PickUnspent txin.Input = none)
    (hcase : (∀ t ∈ bl.Txs, t.Hash ≠ txin.Input.Hash) ∨
      ((∃ t ∈ bl.Txs, t.Hash = txin.Input.Hash) ∧
        ∀ t ∈ bl.Txs, t.Hash = txin.Input.Hash → t.TxOut.length ≤ txin.Input.Vout)) :
    ∃ c e, commitTxs env ch sched bl changes = .ok (c, some e) := by
  obtain ⟨⟨c, e⟩, hr⟩ := commitTxs_returns env ch sched bl changes hW hcb
  cases e with
  | some e => exact ⟨c, e, hr⟩
  | none =>
    exfalso
    have g : (stampBlock bl changes.Height).Txs.get? i = some (stampTx changes.Height tx) := by
      rw [stampBlock_get, htx]; rfl
    obtain ⟨j, hj⟩ := List.mem_iff_get?.1 hin
    obtain ⟨tout, h1, _⟩ := txLoop_verified env ch sched _ 0 _ _ c hr (initSt_sub env bl changes)
      i _ g (by omega) j txin hj
    unfold lookupOut at h1
    rw [hled] at h1
    obtain ⟨t, ht, hh, hv, _⟩ := slot_mkBlUnsp _ _ _ h1
    obtain ⟨t0, ht0, hte⟩ := stampBlock_mem bl _ t ht
    subst hte
    rcases hcase with h2 | ⟨_, h2⟩
    · exact h2 t0 ht0 hh
    · have := h2 t0 ht0 hh
      simp only [stampTx, List.length_map] at hv
      omega

/-- C13 at concrete blocks: an input with a reference unknown to the ledger and to the
block, and an input with output number 5 of a transaction of the block that has one
output. -/
theorem commitTxs_unknown_input_witness :
    (commitTxs exEnv exChain exSched (exBlock [exCoinbase 50, exUnknown]) (freshChanges 1)).error
      = some (some (.unknownInput 77)) ∧
    (commitTxs exEnv exChain exSched (exBlock [exCoinbase 50, exSpend, exTooBig])
      (freshChanges 1)).error = some (some .voutTooBig) ∧
    (∃ c e, commitTxs exEnv exChain exSched (exBlock [exCoinbase 50, exUnknown])
      (freshChanges 1) = .ok (c, some e)) ∧
    (∃ c e, commitTxs exEnv exChain exSched (exBlock [exCoinbase 50, exSpend, exTooBig])
      (freshChanges 1) = .ok (c, some e)) :=
  ⟨by decide, by decide,
   commitTxs_unknown_input exEnv exChain exSched (exBlock [exCoinbase 50, exUnknown])
     (freshChanges 1) (by decide) (by decide) 1 exUnknown ⟨⟨77, 0⟩, [77]⟩ (by decide) rfl
     (by decide) (by decide) (Or.inl (by decide)),
   commitTxs_unknown_input exEnv exChain exSched (exBlock [exCoinbase 50, exSpend, exTooBig])
     (freshChanges 1) (by decide) (by decide) 2 exTooBig ⟨⟨2, 5⟩, [78]⟩ (by decide) rfl
     (by decide) (by decide) (Or.inr ⟨⟨exSpend, by decide, rfl⟩, by decide⟩)⟩

/-! ## Conservation of the tokens (C14) -/

theorem Chan.recv_sent {sched : Nat → Nat} {c c1 : Chan} {tok : Bool}
    (h : c.recv sched = some (tok, c1)) : c1.recvd = c.recvd + 1 ∧ c1.sent = c.sent := by
  have hl := (Chan.recv_len h).1
  have hr : c1.recvd = c.recvd + 1 := by
    unfold Chan.recv at h
    split at h
    · simp only [Option.some.injEq, Prod.mk.injEq] at h
      rw [← h.2]
    · split at h
      · simp at h
      · simp only [Option.some.injEq, Prod.mk.injEq] at h
        rw [← h.2]
  refine ⟨hr, ?_⟩
  unfold Chan.sent
  omega

theorem Chan.send_sent {c c1 : Chan} {v : Bool} (h : c.send v = some c1) :
    c1.recvd = c.recvd ∧ c1.sent = c.sent + 1 := by
  have hl := (Chan.send_len h).1
  have hr : c1.recvd = c.recvd := by
    unfold Chan.send at h
    split at h
    · simp only [Option.some.injEq] at h
      rw [← h]
    · simp at h
  refine ⟨hr, ?_⟩
  unfold Chan.sent
  omega

theorem Chan.go_sent (c : Chan) (v : Bool) :
    (c.go v).recvd = c.recvd ∧ (c.go v).sent = c.sent + 1 := by
  have hl := (Chan.go_len c v).1
  refine ⟨rfl, ?_⟩
  unfold Chan.sent
  have : (c.go v).recvd = c.recvd := rfl
  omega

theorem Chan.prime_sent {n : Nat} {c c1 : Chan} (h : Chan.prime n c = some c1) :
    c1.recvd = c.recvd ∧ c1.sent = c.sent + n := by
  induction n generalizing c with
  | zero =>
    simp only [Chan.prime, Option.some.injEq] at h
    subst h; exact ⟨rfl, rfl⟩
  | succ n ih =>
    simp only [Chan.prime] at h
    split at h
    · simp at h
    · next c2 hc2 =>
      obtain ⟨h1, h2⟩ := Chan.send_sent hc2
      obtain ⟨h3, h4⟩ := ih h
      exact ⟨by omega, by omega⟩

theorem Chan.drain_sent {sched : Nat → Nat} {n : Nat} {ok ok1 : Bool} {c c1 : Chan}
    (h : Chan.drain sched n ok c = some (ok1, c1)) :
    c1.recvd = c.recvd + n ∧ c1.sent = c.sent := by
  induction n generalizing ok c with
  | zero =>
    simp only [Chan.drain, Option.some.injEq, Prod.mk.injEq] at h
    rw [← h.2]; exact ⟨rfl, rfl⟩
  | succ n ih =>
    simp only [Chan.drain] at h
    split at h
    · simp at h
    · next tok c2 hr =>
      obtain ⟨h1, h2⟩ := Chan.recv_sent hr
      obtain ⟨h3, h4⟩ := ih h
      exact ⟨by omega, by omega⟩

/-- The tokens of the input loop: the loop submits some number `k` of inputs, which is
the number of all inputs when the loop ends without an error and without a failed token;
it sends `k` tokens and receives `k` tokens, and one more when it is left on a failed
token. -/
theorem inputLoop_tokens (env : Env) (ch : Chain) (sched : Nat → Nat) (bl : Block) (tx : Tx)
    (tr : Bool) (j : Nat) (ins : List TxIn) (s s1 : InSt)
    (h : inputLoop env ch sched bl tx tr j ins s = .ok s1) (hok : s.scripts_ok = true) :
    ∃ k, k ≤ ins.length ∧ s1.done.sent = s.done.sent + k ∧
      s1.done.recvd = s.done.recvd + k + (if s1.scripts_ok then 0 else 1) ∧
      (s.e = none → s1.e = none → s1.scripts_ok = true → k = ins.length) := by
  refine inputLoop_cases env ch sched bl tx tr
    (fun _ ins s s1 => s.scripts_ok = true →
      ∃ k, k ≤ ins.length ∧ s1.done.sent = s.done.sent + k ∧
        s1.done.recvd = s.done.recvd + k + (if s1.scripts_ok then 0 else 1) ∧
        (s.e = none → s1.e = none → s1.scripts_ok = true → k = ins.length))
    ?_ ?_ ?_ ?_ ?_ j ins s s1 h hok
  · intro j s hok
    exact ⟨0, Nat.le_refl _, rfl, by simp [hok], fun _ _ _ => rfl⟩
  · intro j txin rest s _ hok
    exact ⟨0, Nat.zero_le _, rfl, by simp [hok], fun _ h1 _ => by simp at h1⟩
  · intro j txin rest s err _ _ hok
    exact ⟨0, Nat.zero_le _, rfl, by simp [hok], fun _ h1 _ => by simp at h1⟩
  · intro j txin rest s tout m1 d1 _ _ hrecv hok
    obtain ⟨h1, h2⟩ := Chan.recv_sent hrecv
    exact ⟨0, Nat.zero_le _, h2, by simpa using h1, fun _ _ h3 => by simp at h3⟩
  · intro j txin rest s tout m1 d1 d2 s1 _ _ hrecv hsubm _ ih hok
    obtain ⟨k, hk1, hk2, hk3, hk4⟩ := ih hok
    obtain ⟨h1, h2⟩ := Chan.recv_sent hrecv
    have h3 : d2.recvd = d1.recvd ∧ d2.sent = d1.sent + 1 := by
      unfold submit at hsubm
      cases tr with
      | true =>
        simp only [if_true] at hsubm
        exact Chan.send_sent hsubm
      | false =>
        simp only [Bool.false_eq_true, if_false, Option.some.injEq] at hsubm
        subst hsubm
        exact Chan.go_sent _ _
    simp only [InSt.submitted] at hk2 hk3 hk4
    refine ⟨k + 1, by simpa using hk1, by omega, by omega, ?_⟩
    intro he he1 hok1
    have := hk4 he he1 hok1
    simp only [List.length_cons]; omega

/-- With a worker budget `W` of at least one and an empty channel, the input checks of a
transaction return with the channel empty again: `W + k` tokens were sent and `W + k`
tokens were received, `k` being the number of submitted inputs. -/
theorem checkInputs_tokens (env : Env) (ch : Chain) (sched : Nat → Nat) (bl : Block) (tx : Tx)
    (s : CommitSt) (hW : 1 ≤ env.UseThreads) (hcap : s.done.cap = env.UseThreads)
    (hlen : s.done.len = 0) :
    ∃ s1 k, checkInputs env ch sched bl tx s = .ok s1 ∧ s1.done.len = 0 ∧
      s1.done.cap = env.UseThreads ∧ k ≤ tx.TxIn.length ∧
      s1.done.sent = s.done.sent + (env.UseThreads + k) ∧
      s1.done.recvd = s.done.recvd + (env.UseThreads + k) ∧
      (s1.e = none → s1.scripts_ok = true → k = tx.TxIn.length) := by
  obtain ⟨s1, h1, h2, h3⟩ := checkInputs_returns env ch sched bl tx s hW hcap hlen
  obtain ⟨d0, sA, ok1, d1, g1, g2, g3, g4, g5, g6, _⟩ := checkInputs_run h1
  obtain ⟨p1, p2⟩ := Chan.prime_sent g1
  obtain ⟨k, k1, k2, k3, k4⟩ := inputLoop_tokens env ch sched bl tx _ 0 tx.TxIn _ sA g2 rfl
  obtain ⟨q1, q2⟩ := Chan.drain_sent g4
  simp only [InSt.start] at k2 k3 k4
  have hsent : s1.done.sent = s.done.sent + (env.UseThreads + k) := by
    cases hs : sA.scripts_ok with
    | true =>
      simp only [hs, if_true] at g3
      obtain ⟨r1, r2⟩ := Chan.recv_sent g3
      omega
    | false =>
      simp only [hs, Bool.false_eq_true, if_false, Option.some.injEq, Prod.mk.injEq] at g3
      rw [← g3.2] at q2
      omega
  refine ⟨s1, k, h1, h3, h2, k1, hsent, ?_, ?_⟩
  · unfold Chan.sent at hsent
    have hl := hlen
    omega
  · intro he hok
    rw [hok] at g4
    obtain ⟨r1, _⟩ := Chan.drain_true g4 (Chan.allTrue_of_len g5)
    have hA : sA.scripts_ok = true := by
      cases hs : sA.scripts_ok with
      | true => rfl
      | false =>
        simp only [hs, Bool.false_eq_true, if_false, Option.some.injEq, Prod.mk.injEq] at g3
        rw [r1] at g3
        simp at g3
    exact k4 trivial (by rw [← g6]; exact he) hA

/-- With a worker budget of at least one and an empty channel, the body of the loop over
the transactions returns, leaving the channel empty if the loop goes on, or else it is
the first transaction, which has no input, and the access to its first input panics. -/
theorem processTx_outcome (env : Env) (ch : Chain) (sched : Nat → Nat) (bl : Block) (i : Nat)
    (tx : Tx) (s : CommitSt) (hW : 1 ≤ env.UseThreads) (hcap : s.done.cap = env.UseThreads)
    (hlen : s.done.len = 0) :
    (∃ r, processTx env ch sched bl i tx s = .ok r ∧
      ∀ s1, r = .inr s1 → s1.done.cap = env.UseThreads ∧ s1.done.len = 0) ∨
    processTx env ch sched bl i tx s = .panic "index out of range" := by
  by_cases hc : i = 0 ∧ tx.TxIn = []
  · right
    obtain ⟨h1, h2⟩ := hc
    simp only [processTx, h1, Nat.lt_irrefl, if_false, h2]
  · left
    apply processTx_returns env ch sched bl i tx s hW hcap hlen
    intro hi hnil
    exact hc ⟨hi, hnil⟩

/-- With a worker budget of at least one and an empty channel, the loop over the
transactions never blocks, and the only panic it can end in is the access to the first
input of a first transaction without inputs. -/
theorem txLoop_outcome (env : Env) (ch : Chain) (sched : Nat → Nat) (bl : Block) (i : Nat)
    (txs : List Tx) (s : CommitSt) (hW : 1 ≤ env.UseThreads)
    (hcap : s.done.cap = env.UseThreads) (hlen : s.done.len = 0) :
    (∃ r, txLoop env ch sched bl i txs s = .ok r) ∨
    txLoop env ch sched bl i txs s = .panic "index out of range" := by
  induction txs generalizing i s with
  | nil =>
    left
    simp only [txLoop]
    split
    · exact ⟨_, rfl⟩
    · exact ⟨_, rfl⟩
  | cons tx rest ih =>
    rcases processTx_outcome env ch sched bl i tx s hW hcap hlen with ⟨r, hr, hnext⟩ | hp
    · simp only [txLoop, hr]
      cases r with
      | inl r => exact Or.inl ⟨r, rfl⟩
      | inr s1 =>
        obtain ⟨h1, h2⟩ := hnext s1 rfl
        exact ih (i + 1) s1 h1 h2
    · right
      simp only [txLoop, hp]

/-- C14: for every worker budget `W` of at least one, every block, every script verifier
and every scheduling of the goroutines: the input checks of a transaction that start with
an empty channel return with the channel empty, having sent `W + k` tokens (the primed
ones and one for each of the `k` submitted inputs) and received `W + k` tokens, whether
the input loop ends normally, on an input error or on a failed token; every transaction
of a run of `commitTxs` starts with an empty channel; and `commitTxs` never blocks on the
channel and never panics with `ASSERT: The channel should be empty gere`. -/
theorem commitTxs_tokens_balanced (env : Env) (ch : Chain) (sched : Nat → Nat) (bl : Block)
    (changes : BlockChanges) (hW : 1 ≤ env.UseThreads) :
    (∀ tx s, s.done.cap = env.UseThreads → s.done.len = 0 →
      ∃ s1 k, checkInputs env ch sched (stampBlock bl changes.Height) tx s = .ok s1 ∧
        s1.done.len = 0 ∧ k ≤ tx.TxIn.length ∧
        s1.done.sent = s.done.sent + (env.UseThreads + k) ∧
        s1.done.recvd = s.done.recvd + (env.UseThreads + k) ∧
        (s1.e = none → s1.scripts_ok = true → k = tx.TxIn.length)) ∧
    (∀ i s, runTxs env ch sched (stampBlock bl changes.Height) 0
        ((stampBlock bl changes.Height).Txs.take i) (initSt env bl changes) = some s →
      s.done.cap = env.UseThreads ∧ s.done.len = 0) ∧
    commitTxs env ch sched bl changes ≠ .hang ∧
    commitTxs env ch sched bl changes ≠ .panic "ASSERT: The channel should be empty gere" := by
  refine ⟨?_, ?_, ?_, ?_⟩
  · intro tx s hcap hlen
    obtain ⟨s1, k, h1, h2, _, h4, h5, h6, h7⟩ :=
      checkInputs_tokens env ch sched (stampBlock bl changes.Height) tx s hW hcap hlen
    exact ⟨s1, k, h1, h2, h4, h5, h6, h7⟩
  · intro i s hrun
    exact runTxs_chan env ch sched _ 0 _ _ s hrun hW (by simp [initSt, Chan.make])
      (by simp [initSt, Chan.make, Chan.len])
  · intro hh
    rcases txLoop_outcome env ch sched (stampBlock bl changes.Height) 0
      (stampBlock bl changes.Height).Txs (initSt env bl changes) hW (by simp [initSt, Chan.make])
      (by simp [initSt, Chan.make, Chan.len]) with ⟨r, hr⟩ | hp
    · unfold commitTxs at hh
      rw [hr] at hh
      simp at hh
    · unfold commitTxs at hh
      rw [hp] at hh
      simp at hh
  · intro hh
    rcases txLoop_outcome env ch sched (stampBlock bl changes.Height) 0
      (stampBlock bl changes.Height).Txs (initSt env bl changes) hW (by simp [initSt, Chan.make])
      (by simp [initSt, Chan.make, Chan.len]) with ⟨r, hr⟩ | hp
    · unfold commitTxs at hh
      rw [hr] at hh
      simp at hh
    · unfold commitTxs at hh
      rw [hp] at hh
      simp only [Res.panic.injEq] at hh
      exact absurd hh (by decide)

/-- C14 at a concrete block, the second transaction of which fails script verification:
`commitTxs` returns the error `VerifyScripts failed`, and the assertion does not fire. -/
theorem commitTxs_tokens_balanced_witness :
    1 ≤ exEnv.UseThreads ∧
    (commitTxs exEnv exChain exSched (exBlock [exCoinbase 50, exNoSig]) (freshChanges 1)).error
      = some (some .verifyScriptsFailed) ∧
    commitTxs exEnv exChain exSched (exBlock [exCoinbase 50, exNoSig]) (freshChanges 1)
      ≠ .panic "ASSERT: The channel should be empty gere" :=
  ⟨by decide, by decide,
   (commitTxs_tokens_balanced exEnv exChain exSched (exBlock [exCoinbase 50, exNoSig])
     (freshChanges 1) (by decide)).2.2.2⟩

/-! ## Inputs resolved through the table (C15) -/

/-- C15, as stated, fails: the second transaction of the block spends the output (2, 0),
which the ledger does not hold and which the third transaction creates, and `commitTxs`
returns a nil error; so does it on a block whose second transaction spends its own
output. -/
theorem commitTxs_table_order_counterexample :
    (exBlock [exCoinbase 50, exEarly, exSpend]).Txs.get? 1 = some exEarly ∧
    (exBlock [exCoinbase 50, exEarly, exSpend]).Txs.get? 2 = some exSpend ∧
    (exEarly.TxIn.map fun t => t.Input) = [⟨exSpend.Hash, 0⟩] ∧
    exChain.PickUnspent ⟨exSpend.Hash, 0⟩ = none ∧
    (exCoinbase 50).Hash ≠ exSpend.Hash ∧
    (commitTxs exEnv exChain exSched (exBlock [exCoinbase 50, exEarly, exSpend])
      (freshChanges 1)).error = some none ∧
    (exSelf.TxIn.map fun t => t.Input) = [⟨exSelf.Hash, 0⟩] ∧
    exChain.PickUnspent ⟨exSelf.Hash, 0⟩ = none ∧
    (commitTxs exEnv exChain exSched (exBlock [exCoinbase 50, exSelf])
      (freshChanges 1)).error = some none :=
  ⟨rfl, rfl, rfl, by decide, by decide, by decide, rfl, by decide, by decide⟩

/-- C15, amended: if `commitTxs` returns a nil error, every input of a transaction other
than the first whose reference is absent from the ledger, and which is therefore resolved
through the per-block table, refers to an output of a transaction of the block: a
transaction with the hash of the reference and more outputs than its output number. That
transaction may stand before the spending transaction, be it, or stand after it. -/
theorem commitTxs_table_inputs (env : Env) (ch : Chain) (sched : Nat → Nat) (bl : Block)
    (changes c : BlockChanges) (h : commitTxs env ch sched bl changes = .ok (c, none))
    (i : Nat) (tx : Tx) (txin : TxIn) (hi : 0 < i) (htx : bl.Txs.get? i = some tx)
    (hin : txin ∈ tx.TxIn) (hled : ch.PickUnspent txin.Input = none) :
    ∃ k tk, bl.Txs.get? k = some tk ∧ tk.Hash = txin.Input.Hash ∧
      txin.Input.Vout < tk.TxOut.length := by
  have g : (stampBlock bl changes.Height).Txs.get? i = some (stampTx changes.Height tx) := by
    rw [stampBlock_get, htx]; rfl
  obtain ⟨j, hj⟩ := List.mem_iff_get?.1 hin
  obtain ⟨tout, h1, _⟩ := txLoop_verified env ch sched _ 0 _ _ c h (initSt_sub env bl changes)
    i _ g (by omega) j txin hj
  unfold lookupOut at h1
  rw [hled] at h1
  obtain ⟨t, ht, hh, hv, _⟩ := slot_mkBlUnsp _ _ _ h1
  obtain ⟨t0, ht0, hte⟩ := stampBlock_mem bl _ t ht
  subst hte
  obtain ⟨k, hk⟩ := List.mem_iff_get?.1 ht0
  exact ⟨k, t0, hk, hh, by simpa [stampTx] using hv⟩

/-- C15 at a concrete block: the second transaction spends an output of the third. -/
theorem commitTxs_table_inputs_witness :
    (commitTxs exEnv exChain exSched (exBlock [exCoinbase 50, exEarly, exSpend])
      (freshChanges 1)).error = some none ∧
    ∃ k tk, (exBlock [exCoinbase 50, exEarly, exSpend]).Txs.get? k = some tk ∧
      tk.Hash = 2 ∧ 0 < tk.TxOut.length :=
  ⟨by decide,
    match Res.error_eq_some (r := commitTxs exEnv exChain exSched
      (exBlock [exCoinbase 50, exEarly, exSpend]) (freshChanges 1)) (e := none) (by decide) with
    | ⟨c, hc⟩ =>
      commitTxs_table_inputs exEnv exChain exSched (exBlock [exCoinbase 50, exEarly, exSpend])
        (freshChanges 1) c hc 1 exEarly ⟨⟨2, 0⟩, [79]⟩ (by decide) rfl (by decide) (by decide)⟩

/-! ## Trusted blocks and transactions -/

/-- The input loop of a trusted transaction does not call the script verifier. -/
theorem inputLoop_trusted (env : Env) (V : List Nat → List Nat → Nat → Tx → Bool → Bool)
    (ch : Chain) (sched : Nat → Nat) (bl : Block) (tx : Tx) (j : Nat) (ins : List TxIn)
    (s : InSt) :
    inputLoop { env with VerifyTxScript := V } ch sched bl tx true j ins s
      = inputLoop env ch sched bl tx true j ins s := by
  induction ins generalizing j s with
  | nil => rfl
  | cons txin rest ih =>
    simp only [inputLoop, if_true]
    split
    · rfl
    · split
      · rfl
      · split
        · rfl
        · split
          · rfl
          · split
            · rfl
            · exact ih _ _

/-- The body of the loop for a trusted transaction, and for the first transaction, does
not depend on the script verifier. -/
theorem processTx_trusted (env : Env) (V : List Nat → List Nat → Nat → Tx → Bool → Bool)
    (ch : Chain) (sched : Nat → Nat) (bl : Block) (i : Nat) (tx : Tx) (s : CommitSt)
    (htr : 0 < i → txTrusted env bl tx = true) :
    processTx { env with VerifyTxScript := V } ch sched bl i tx s
      = processTx env ch sched bl i tx s := by
  by_cases hi : 0 < i
  · have h := htr hi
    unfold txTrusted at h
    have hc : checkInputs { env with VerifyTxScript := V } ch sched bl tx s
        = checkInputs env ch sched bl tx s := by
      simp only [checkInputs, h, inputLoop_trusted]
    simp only [processTx, hi, if_true, hc]
  · simp only [processTx, hi, if_false]

theorem txLoop_trusted (env : Env) (V : List Nat → List Nat → Nat → Tx → Bool → Bool)
    (ch : Chain) (sched : Nat → Nat) (bl : Block) (i : Nat) (txs : List Tx) (s : CommitSt)
    (htr : ∀ k tx, txs.get? k = some tx → 0 < i + k → txTrusted env bl tx = true) :
    txLoop { env with VerifyTxScript := V } ch sched bl i txs s
      = txLoop env ch sched bl i txs s := by
  induction txs generalizing i s with
  | nil => rfl
  | cons tx rest ih =>
    simp only [txLoop]
    rw [processTx_trusted env V ch sched bl i tx s (fun hi => htr 0 tx rfl (by omega))]
    split
    · rfl
    · rfl
    · rfl
    · next s1 _ =>
      exact ih (i + 1) s1 (fun k t hk _ => htr (k + 1) t (by simpa using hk) (by omega))

/-! ## The block-tree invariant (C18) -/

/-- A node that existed before the structural insert keeps its hash, parent and height,
and its children. -/
theorem insertedNodes_old (ch : Chain) (bl : Block) (prevblk : Nat) (pnode : BlockTreeNode)
    (hnode : ch.nodes.get? prevblk = some pnode) (p : Nat) (n : BlockTreeNode)
    (hp : ch.nodes.get? p = some n) :
    ∃ n1, (insertedNodes ch bl prevblk pnode).get? p = some n1 ∧ n1.BlockHash = n.BlockHash ∧
      n1.Parent = n.Parent ∧ n1.Height = n.Height ∧ ∀ x ∈ n.Childs, x ∈ n1.Childs := by
  obtain ⟨_, h2, h3⟩ := insertedNodes_get ch bl prevblk pnode hnode
  by_cases hpp : p = prevblk
  · subst hpp
    rw [hnode] at hp
    simp only [Option.some.injEq] at hp
    subst hp
    refine ⟨_, h2, rfl, rfl, rfl, ?_⟩
    intro x hx
    simp only [BlockTreeNode.addChild, List.mem_append]
    exact Or.inl hx
  · exact ⟨n, h3 p n hpp hp, rfl, rfl, rfl, fun _ hx => hx⟩

/-- The structural insert of `AcceptBlock` preserves the block-tree invariant when the
index key of the block is not present yet. -/
theorem treeInv_insert (env : Env) (ch ch1 : Chain) (bl : Block) (prevblk : Nat)
    (pnode : BlockTreeNode) (hinv : treeInv env ch)
    (hidx : ch.BlockIndex (env.BIdx bl.ParentHash) = some prevblk)
    (hnode : ch.nodes.get? prevblk = some pnode)
    (hnew : ch.BlockIndex (env.BIdx bl.Hash) = none)
    (hn1 : ch1.nodes = insertedNodes ch bl prevblk pnode)
    (hi1 : ch1.BlockIndex = insertedIndex env ch bl) : treeInv env ch1 := by
  have hkey : ∀ k p, ch.BlockIndex k = some p → insertedIndex env ch bl k = some p := by
    intro k p hk
    have hne : k ≠ env.BIdx bl.Hash := by
      intro hh; rw [hh, hnew] at hk; simp at hk
    simp only [insertedIndex, hne, if_false]
    exact hk
  intro k p hk
  rw [hi1] at hk
  rw [hn1, hi1]
  by_cases hkk : k = env.BIdx bl.Hash
  · simp only [insertedIndex, hkk, if_true, Option.some.injEq] at hk
    subst hk
    obtain ⟨g1, g2, _⟩ := insertedNodes_get ch bl prevblk pnode hnode
    refine ⟨newNode bl prevblk pnode, g1, by simp [insertedIndex, newNode], ?_⟩
    intro q hq
    simp only [newNode, Option.some.injEq] at hq
    subst hq
    obtain ⟨n0, hn0, hown, _⟩ := hinv _ _ hidx
    rw [hnode] at hn0
    simp only [Option.some.injEq] at hn0
    subst hn0
    refine ⟨pnode.addChild ch.nodes.length, g2, hkey _ _ hown, rfl, ?_⟩
    simp [BlockTreeNode.addChild]
  · simp only [insertedIndex, hkk, if_false] at hk
    obtain ⟨n, hn, hown, hpar⟩ := hinv k p hk
    obtain ⟨n1, e1, e2, e3, e4, _⟩ := insertedNodes_old ch bl prevblk pnode hnode p n hn
    refine ⟨n1, e1, by rw [e2]; exact hkey _ _ hown, ?_⟩
    intro q hq
    rw [e3] at hq
    obtain ⟨pn, hpn, hpown, hh, hmem⟩ := hpar q hq
    obtain ⟨pn1, f1, f2, _, f4, f5⟩ := insertedNodes_old ch bl prevblk pnode hnode q pn hpn
    exact ⟨pn1, f1, by rw [f2]; exact hkey _ _ hpown, by rw [e4, f4]; exact hh, f5 p hmem⟩

/-- A state with the same index in which every node that existed is unchanged satisfies
the block-tree invariant if the state before did. -/
theorem treeInv_of_same (env : Env) (ch ch1 : Chain) (hinv : treeInv env ch)
    (hi1 : ch1.BlockIndex = ch.BlockIndex)
    (hn1 : ∀ p n, ch.nodes.get? p = some n → ch1.nodes.get? p = some n) : treeInv env ch1 := by
  intro k p hk
  rw [hi1] at hk ⊢
  obtain ⟨n, hn, hown, hpar⟩ := hinv k p hk
  refine ⟨n, hn1 p n hn, hown, ?_⟩
  intro q hq
  obtain ⟨pn, hpn, hpown, hh, hmem⟩ := hpar q hq
  exact ⟨pn, hn1 q pn hpn, hpown, hh, hmem⟩

/-- The heap and the index after the rollback of `AcceptBlock`, when the index key of the
block was not present and the child lists hold pointers to allocated nodes. -/
theorem rollback_restores (env : Env) (ch : Chain) (bl : Block) (prevblk : Nat)
    (pnode : BlockTreeNode) (hnode : ch.nodes.get? prevblk = some pnode)
    (hwf : ch.childsAllocated) (hnew : ch.BlockIndex (env.BIdx bl.Hash) = none) :
    (fun k => if k = env.BIdx bl.Hash then none
      else if k = env.BIdx bl.Hash then some ch.nodes.length else ch.BlockIndex k)
      = ch.BlockIndex ∧
    ∀ x : BlockTreeNode,
      updNode (updNode (ch.nodes ++ [x]) prevblk fun n => n.addChild ch.nodes.length) prevblk
        (fun n => n.delChild ch.nodes.length) = ch.nodes ++ [x] := by
  constructor
  · funext k
    by_cases hk : k = env.BIdx bl.Hash
    · simp only [hk, if_true]; exact hnew.symm
    · simp only [hk, if_false]
  · intro x
    have hfresh : ch.nodes.length ∉ pnode.Childs := by
      intro hmem
      have := hwf prevblk pnode hnode _ hmem
      omega
    exact updNode_cancel _ prevblk pnode (fun n => n.addChild ch.nodes.length)
      (fun n => n.delChild ch.nodes.length) (get?_append_old _ x _ _ hnode)
      (delChild_addChild pnode _ hfresh)

theorem treeInv_exChain : treeInv exEnv exChain := by
  intro k p hk
  simp only [exChain] at hk
  split at hk
  · simp only [Option.some.injEq] at hk
    subst hk
    exact ⟨_, rfl, rfl, fun q hq => by simp at hq⟩
  · simp at hk

theorem treeInv_exChainSide : treeInv exEnv exChainSide := by
  intro k p hk
  simp only [exChainSide] at hk
  split at hk
  · simp only [Option.some.injEq] at hk
    subst hk
    exact ⟨_, rfl, rfl, fun q hq => by simp at hq⟩
  · split at hk
    · simp only [Option.some.injEq] at hk
      subst hk
      refine ⟨_, rfl, rfl, ?_⟩
      intro q hq
      simp only [exChainSide, List.get?_cons_succ, List.get?_cons_zero, Option.some.injEq] at hq
      subst hq
      exact ⟨_, rfl, rfl, by decide, by decide⟩
    · split at hk
      · simp only [Option.some.injEq] at hk
        subst hk
        refine ⟨_, rfl, rfl, ?_⟩
        intro q hq
        simp only [exChainSide, List.get?_cons_succ, List.get?_cons_zero, Option.some.injEq] at hq
        subst hq
        exact ⟨_, rfl, rfl, by decide, by decide⟩
      · simp at hk

/-- C18, as stated, fails: the chain satisfies the invariant, its tip has height 1, and
the block, which has a raw header of 80 bytes and whose parent is the genesis node and
not the tip, has the hash of a node that is already indexed and has a child.
`AcceptBlock` stores it on the side-branch path
without a chain switch, and afterwards the child's parent is no longer the node stored
under its hash. -/
theorem AcceptBlock_treeInv_counterexample :
    treeInv exEnv exChainSide ∧
    exBlockDup.Raw.length = 80 ∧
    exChainSide.BlockIndex (exEnv.BIdx exBlockDup.ParentHash) = some 0 ∧
    exChainSide.BlockTreeEnd ≠ 0 ∧
    ∃ ch1, AcceptBlock exEnv exSched exChainSide exBlockDup = .ok (ch1, exBlockDup, none) ∧
      ch1.calls.length = 1 ∧ ¬ treeInv exEnv ch1 := by
  refine ⟨treeInv_exChainSide, by decide, by decide, by decide, _, rfl, rfl, ?_⟩
  intro h
  obtain ⟨n, hn, _, hpar⟩ := h 8 2 rfl
  have e2 : n = { BlockHash := 8, Height := 2, Parent := some 1, Childs := [], TxCount := 1, BlockHeader := [] } :=
    (Option.some.inj hn).symm
  subst e2
  obtain ⟨pn, hpn, hidx, _⟩ := hpar 1 rfl
  have e1 : pn = { BlockHash := 7, Height := 1, Parent := some 0, Childs := [2], TxCount := 1, BlockHeader := [] } :=
    (Option.some.inj hpn).symm
  subst e1
  revert hidx
  decide

/-- C18, amended: if before the call the block-tree invariant holds, the child lists hold
pointers to allocated nodes, the parent of the block is indexed and the index key of the
block is not present in `BlockIndex`, then the invariant holds after `AcceptBlock`
returns on the tip-extending success path, on the tip-extending failure path, and on the
side-branch path when the new height does not exceed the height of the tip (no chain
switch). -/
theorem AcceptBlock_preserves_treeInv (env : Env) (sched : Nat → Nat) (ch : Chain)
    (bl : Block) (prevblk : Nat) (pnode tip : BlockTreeNode) (ch1 : Chain) (bl1 : Block)
    (e : Option CommitError) (hinv : treeInv env ch) (hwf : ch.childsAllocated)
    (hidx : ch.BlockIndex (env.BIdx bl.ParentHash) = some prevblk)
    (hnode : ch.nodes.get? prevblk = some pnode)
    (htipn : ch.nodes.get? ch.BlockTreeEnd = some tip)
    (hnew : ch.BlockIndex (env.BIdx bl.Hash) = none)
    (hnoreorg : ch.BlockTreeEnd ≠ prevblk → u32 (pnode.Height + 1) ≤ tip.Height)
    (hres : AcceptBlock env sched ch bl = .ok (ch1, bl1, e)) : treeInv env ch1 := by
  have hraw : 80 ≤ bl.Raw.length := by
    by_contra hshort
    have hlt : bl.Raw.length < 80 := by omega
    simp only [AcceptBlock, hidx, hnode, hlt, if_true] at hres
    cases hres
  have hr : ¬ bl.Raw.length < 80 := by omega
  by_cases htip : ch.BlockTreeEnd = prevblk
  · cases hP : ProcessBlockTransactions env ch sched bl (u32 (pnode.Height + 1)) with
    | panic msg =>
      simp only [AcceptBlock, hidx, hnode, hr, htip, if_true, if_false, hP] at hres
      cases hres
    | hang =>
      simp only [AcceptBlock, hidx, hnode, hr, htip, if_true, if_false, hP] at hres
      cases hres
    | ok r =>
      obtain ⟨c, e1⟩ := r
      cases e1 with
      | some err =>
        rw [AcceptBlock_failure env sched ch bl prevblk pnode c err hidx hnode hraw htip hP] at hres
        simp only [Res.ok.injEq, Prod.mk.injEq] at hres
        obtain ⟨hc, _, _⟩ := hres
        subst hc
        obtain ⟨r1, r2⟩ := rollback_restores env ch bl prevblk pnode hnode hwf hnew
        refine treeInv_of_same env ch _ hinv r1 ?_
        intro p n hp
        simp only [r2]
        exact get?_append_old _ _ _ _ hp
      | none =>
        rw [AcceptBlock_success env sched ch bl prevblk pnode c hidx hnode hraw htip hP] at hres
        simp only [Res.ok.injEq, Prod.mk.injEq] at hres
        obtain ⟨hc, _, _⟩ := hres
        subst hc
        exact treeInv_insert env ch _ bl prevblk pnode hinv hidx hnode hnew rfl rfl
  · rw [AcceptBlock_side env sched ch bl prevblk pnode tip hidx hnode hraw htip htipn,
      if_neg (by have := hnoreorg htip; omega)] at hres
    simp only [Res.ok.injEq, Prod.mk.injEq] at hres
    obtain ⟨hc, _, _⟩ := hres
    subst hc
    exact treeInv_insert env ch _ bl prevblk pnode hinv hidx hnode hnew rfl rfl

/-- C18 at concrete inputs: on the chain made of the genesis node, a block whose
commitment succeeds and a block whose commitment fails; on the chain with tip of height
1, a side-branch block of height 1. -/
theorem AcceptBlock_preserves_treeInv_witness :
    (∃ ch1 bl1 e, AcceptBlock exEnv exSched exChain (exBlock [exCoinbase 50, exSpend])
        = .ok (ch1, bl1, e) ∧ e = none ∧ treeInv exEnv ch1) ∧
    (∃ ch1 bl1 e, AcceptBlock exEnv exSched exChain (exBlock [exCoinbaseLen 1])
        = .ok (ch1, bl1, e) ∧ e ≠ none ∧ treeInv exEnv ch1) ∧
    (∃ ch1 bl1 e, AcceptBlock exEnv exSched exChainSide (exBlockOn 0 [exCoinbase 50])
        = .ok (ch1, bl1, e) ∧ ch1.calls.length = 1 ∧ treeInv exEnv ch1) :=
  have hwf : exChain.childsAllocated := by
    intro p n hp q hq
    cases p with
    | zero =>
      simp only [exChain, List.get?_cons_zero, Option.some.injEq] at hp
      subst hp
      simp at hq
    | succ p => simp [exChain] at hp
  have hwf2 : exChainSide.childsAllocated := by
    intro p n hp q hq
    have hlt : p < 3 := (List.get?_eq_some.1 hp).1
    interval_cases p <;>
      simp only [exChainSide, List.get?_cons_succ, List.get?_cons_zero, Option.some.injEq] at hp <;>
      subst hp <;> simp at hq <;> simp [hq, exChainSide]
  ⟨⟨_, _, _, rfl, rfl,
      AcceptBlock_preserves_treeInv exEnv exSched exChain (exBlock [exCoinbase 50, exSpend]) 0
        _ _ _ _ _ treeInv_exChain hwf rfl rfl rfl (by decide) (fun h => absurd rfl h) rfl⟩,
   ⟨_, _, _, rfl, by decide,
      AcceptBlock_preserves_treeInv exEnv exSched exChain (exBlock [exCoinbaseLen 1]) 0
        _ _ _ _ _ treeInv_exChain hwf rfl rfl rfl (by decide) (fun h => absurd rfl h) rfl⟩,
   ⟨_, _, _, rfl, rfl,
      AcceptBlock_preserves_treeInv exEnv exSched exChainSide (exBlockOn 0 [exCoinbase 50]) 0
        _ _ _ _ _ treeInv_exChainSide hwf2 rfl rfl rfl (by decide) (fun _ => by decide) rfl⟩⟩

/-! ## The exact content of the delta (C17) -/

theorem TxMap.set_eq_some (m : TxMap) (k : TxPrevOut) (v : TxOut) (r : TxPrevOut) (o : TxOut) :
    m.set k v r = some o ↔ (r = k ∧ v = o) ∨ (r ≠ k ∧ m r = some o) := by
  unfold TxMap.set
  by_cases h : r = k <;> simp [h]

/-- After an input loop that ended without an error and with `scripts_ok` set, the
records of spent outputs are those that were there before and, for each input, the
output its reference denotes. -/
theorem inputLoop_success_deled (env : Env) (ch : Chain) (sched : Nat → Nat) (bl : Block)
    (tx : Tx) (tr : Bool) (j : Nat) (ins : List TxIn) (s s1 : InSt)
    (h : inputLoop env ch sched bl tx tr j ins s = .ok s1)
    (he : s1.e = none) (hok : s1.scripts_ok = true)
    (hsub : ∀ r o, slot s.blUnsp r = some o → slot (mkBlUnsp bl.Txs fun _ => none) r = some o) :
    ∀ r o, s1.DeledTxs r = some o ↔
      (s.DeledTxs r = some o ∨ ∃ txin ∈ ins, txin.Input = r ∧ lookupOut ch bl r = some o) := by
  refine inputLoop_cases env ch sched bl tx tr
    (fun _ ins s s1 => s1.e = none → s1.scripts_ok = true →
      (∀ r o, slot s.blUnsp r = some o → slot (mkBlUnsp bl.Txs fun _ => none) r = some o) →
      ∀ r o, s1.DeledTxs r = some o ↔
        (s.DeledTxs r = some o ∨ ∃ txin ∈ ins, txin.Input = r ∧ lookupOut ch bl r = some o))
    ?_ ?_ ?_ ?_ ?_ j ins s s1 h he hok hsub
  · intro j s _ _ _ r o
    simp
  · intro j txin rest s _ he
    simp at he
  · intro j txin rest s err _ _ he
    simp at he
  · intro j txin rest s tout m1 d1 _ _ _ _ hok
    simp at hok
  · intro j txin rest s tout m1 d1 d2 s1 hd hr _ _ _ ih he hok hsub r o
    have hlk : lookupOut ch bl txin.Input = some tout := by
      unfold lookupOut
      rcases resolve_ok hr with ⟨hp1, _⟩ | ⟨hp, hs, _⟩
      · rw [hp1]
      · rw [hp]; exact hsub _ _ hs
    have hnone : s.DeledTxs txin.Input = none := by
      cases hx : s.DeledTxs txin.Input with
      | none => rfl
      | some x => simp [hx] at hd
    rw [ih he hok (fun r o h1 => hsub r o (resolve_slot_mono hr r o h1)) r o]
    simp only [InSt.submitted, TxMap.set_eq_some]
    constructor
    · rintro ((⟨h1, h2⟩ | ⟨_, h2⟩) | ⟨t, ht, h3, h4⟩)
      · exact Or.inr ⟨txin, List.mem_cons_self _ _, h1.symm, by rw [h1, hlk, h2]⟩
      · exact Or.inl h2
      · exact Or.inr ⟨t, List.mem_cons_of_mem _ ht, h3, h4⟩
    · rintro (h1 | ⟨t, ht, h3, h4⟩)
      · refine Or.inl (Or.inr ⟨?_, h1⟩)
        intro hh; rw [hh, hnone] at h1; simp at h1
      · rcases List.mem_cons.1 ht with rfl | ht
        · refine Or.inl (Or.inl ⟨h3.symm, ?_⟩)
          rw [← h3, hlk] at h4
          exact Option.some.inj h4
        · exact Or.inr ⟨t, ht, h3, h4⟩

/-- The output loop, when none of the outputs it creates is recorded as spent or as
created yet and their numbers fit `uint32`: no record of a spent output is removed, and
the records of created outputs are those that were there before and the outputs of the
loop. -/
theorem outputLoop_exact (hash j : Nat) (outs : List TxOut) (s : OutSt)
    (hD : ∀ r, r.Hash = hash → s.DeledTxs r = none)
    (hA : ∀ r, r.Hash = hash → j ≤ r.Vout → s.AddedTxs r = none)
    (hlen : j + outs.length ≤ 2 ^ 32) :
    (outputLoop hash j outs s).DeledTxs = s.DeledTxs ∧
    ∀ r o, (outputLoop hash j outs s).AddedTxs r = some o ↔
      (s.AddedTxs r = some o ∨ (r.Hash = hash ∧ j ≤ r.Vout ∧ outs.get? (r.Vout - j) = some o)) := by
  induction outs generalizing j s with
  | nil =>
    refine ⟨rfl, ?_⟩
    intro r o
    simp [outputLoop]
  | cons o0 rest ih =>
    rw [outputLoop_cons]
    have hj : u32 j = j := by
      unfold u32
      apply Nat.mod_eq_of_lt
      simp only [List.length_cons] at hlen
      omega
    have hstep : outStep hash j o0 s = ⟨u64 (s.txoutsum + o0.Value), s.AddedTxs.set ⟨hash, j⟩ o0, s.DeledTxs⟩ := by
      unfold outStep
      rw [hj, hD ⟨hash, j⟩ rfl]
      rfl
    rw [hstep]
    obtain ⟨i1, i2⟩ := ih (j + 1) ⟨u64 (s.txoutsum + o0.Value), s.AddedTxs.set ⟨hash, j⟩ o0, s.DeledTxs⟩ hD (by
      intro r hr hv
      show s.AddedTxs.set ⟨hash, j⟩ o0 r = none
      have hne : r ≠ ⟨hash, j⟩ := by
        intro hh; rw [hh] at hv; simp at hv
      simp only [TxMap.set, hne, if_false]
      exact hA r hr (by omega)) (by simp only [List.length_cons] at hlen; omega)
    refine ⟨i1, ?_⟩
    intro r o
    rw [i2 r o]
    simp only [TxMap.set_eq_some]
    constructor
    · rintro ((⟨h1, h2⟩ | ⟨_, h2⟩) | ⟨h1, h2, h3⟩)
      · subst h1
        exact Or.inr ⟨rfl, Nat.le_refl _, by simp [h2]⟩
      · exact Or.inl h2
      · refine Or.inr ⟨h1, by omega, ?_⟩
        rw [show r.Vout - j = (r.Vout - (j + 1)) + 1 by omega]
        simpa using h3
    · rintro (h1 | ⟨h1, h2, h3⟩)
      · refine Or.inl (Or.inr ⟨?_, h1⟩)
        intro hh
        rw [hA r (by rw [hh]) (by rw [hh])] at h1
        simp at h1
      · by_cases hv : r.Vout = j
        · refine Or.inl (Or.inl ⟨?_, ?_⟩)
          · cases r; simp_all
          · rw [hv] at h3
            simpa using h3
        · refine Or.inr ⟨h1, by omega, ?_⟩
          rw [show r.Vout - j = (r.Vout - (j + 1)) + 1 by omega] at h3
          simpa using h3

/-- The body of the loop for a transaction whose inputs, if it is not the first, are held
by the ledger and do not carry its own hash, whose outputs fit the `uint32` numbering, and
of whose hash no reference is recorded yet: the height is kept, the inputs are recorded as
spent with the records of the ledger, and the outputs are recorded as created. -/
theorem processTx_exact {env : Env} {ch : Chain} {sched : Nat → Nat} {bl : Block} {i : Nat}
    {t : Tx} {s s1 : CommitSt} (h : processTx env ch sched bl i t s = .ok (.inr s1))
    (hsub : ∀ r o, slot s.blUnsp r = some o → slot (mkBlUnsp bl.Txs fun _ => none) r = some o)
    (hled : 0 < i → ∀ txin ∈ t.TxIn,
      ch.PickUnspent txin.Input ≠ none ∧ t.Hash ≠ txin.Input.Hash)
    (hlen : t.TxOut.length ≤ 2 ^ 32)
    (hD : ∀ r, r.Hash = t.Hash → s.changes.DeledTxs r = none)
    (hA : ∀ r, r.Hash = t.Hash → s.changes.AddedTxs r = none) :
    s1.changes.Height = s.changes.Height ∧
    (∀ r o, s1.changes.DeledTxs r = some o ↔
      (s.changes.DeledTxs r = some o ∨
        (0 < i ∧ ch.PickUnspent r = some o ∧ ∃ txin ∈ t.TxIn, txin.Input = r))) ∧
    (∀ r o, s1.changes.AddedTxs r = some o ↔
      (s.changes.AddedTxs r = some o ∨ (r.Hash = t.Hash ∧ t.TxOut.get? r.Vout = some o))) := by
  have hheight : s1.changes.Height = s.changes.Height := by
    obtain ⟨deled, txinsum, h1, _⟩ := processTx_next h
    rw [h1]
  refine ⟨hheight, ?_⟩
  by_cases hi : 0 < i
  · obtain ⟨d0, sA, _, g2, g3, g4, _, _, g7, g8, _⟩ := processTx_inputs h hi
    have hdel := inputLoop_success_deled env ch sched bl t _ 0 t.TxIn _ sA g2 g3 g4
      (by simpa [InSt.start] using hsub)
    have hdel2 : ∀ r o, sA.DeledTxs r = some o ↔
        (s.changes.DeledTxs r = some o ∨
          (0 < i ∧ ch.PickUnspent r = some o ∧ ∃ txin ∈ t.TxIn, txin.Input = r)) := by
      intro r o
      rw [hdel r o]
      simp only [InSt.start]
      constructor
      · rintro (h1 | ⟨txin, h2, h3, h4⟩)
        · exact Or.inl h1
        · refine Or.inr ⟨hi, ?_, txin, h2, h3⟩
          have hp := (hled hi txin h2).1
          rw [h3] at hp
          unfold lookupOut at h4
          cases hq : ch.PickUnspent r with
          | none => exact absurd hq hp
          | some x => rw [hq] at h4; exact h4
      · rintro (h1 | ⟨_, h2, txin, h3, h4⟩)
        · exact Or.inl h1
        · refine Or.inr ⟨txin, h3, h4, ?_⟩
          unfold lookupOut
          rw [h2]
    have hD1 : ∀ r, r.Hash = t.Hash → sA.DeledTxs r = none := by
      intro r hr
      cases hx : sA.DeledTxs r with
      | none => rfl
      | some x =>
        rcases (hdel2 r x).1 hx with h1 | ⟨_, _, txin, h3, h4⟩
        · rw [hD r hr] at h1; simp at h1
        · exact absurd (by rw [h4, hr]) (hled hi txin h3).2
    obtain ⟨o1, o2⟩ := outputLoop_exact t.Hash 0 t.TxOut ⟨0, s.changes.AddedTxs, sA.DeledTxs⟩
      hD1 (fun r hr _ => hA r hr) (by omega)
    constructor
    · intro r o
      rw [g8]
      unfold outputsOf
      rw [o1]
      exact hdel2 r o
    · intro r o
      rw [g7]
      unfold outputsOf
      rw [o2 r o]
      simp
  · have hi0 : i = 0 := by omega
    subst hi0
    obtain ⟨_, g7, g8⟩ := processTx_first h
    obtain ⟨o1, o2⟩ := outputLoop_exact t.Hash 0 t.TxOut
      ⟨0, s.changes.AddedTxs, s.changes.DeledTxs⟩ hD (fun r hr _ => hA r hr) (by omega)
    constructor
    · intro r o
      rw [g8]
      unfold outputsOf
      rw [o1]
      simp
    · intro r o
      rw [g7]
      unfold outputsOf
      rw [o2 r o]
      simp

/-- The loop over the transactions, when it returns a nil error, for transactions with
pairwise distinct hashes whose inputs (the first transaction apart) are held by the ledger
and carry the hash of none of them: the delta is the initial one extended by the inputs,
with the records of the ledger, and by the outputs. -/
theorem txLoop_exact (env : Env) (ch : Chain) (sched : Nat → Nat) (bl : Block) (i : Nat)
    (txs : List Tx) (s : CommitSt) (c : BlockChanges)
    (h : txLoop env ch sched bl i txs s = .ok (c, none))
    (hsub : ∀ r o, slot s.blUnsp r = some o → slot (mkBlUnsp bl.Txs fun _ => none) r = some o)
    (hdist : txs.Pairwise fun a b => a.Hash ≠ b.Hash)
    (hled : ∀ k tx, txs.get? k = some tx → 0 < i + k → ∀ txin ∈ tx.TxIn,
      ch.PickUnspent txin.Input ≠ none ∧ ∀ t ∈ txs, t.Hash ≠ txin.Input.Hash)
    (hlen : ∀ t ∈ txs, t.TxOut.length ≤ 2 ^ 32)
    (hD : ∀ r, s.changes.DeledTxs r ≠ none → ∀ t ∈ txs, t.Hash ≠ r.Hash)
    (hA : ∀ r, s.changes.AddedTxs r ≠ none → ∀ t ∈ txs, t.Hash ≠ r.Hash) :
    c.Height = s.changes.Height ∧
    (∀ r o, c.DeledTxs r = some o ↔
      (s.changes.DeledTxs r = some o ∨
        (ch.PickUnspent r = some o ∧ ∃ k tx txin, txs.get? k = some tx ∧ 0 < i + k ∧
          txin ∈ tx.TxIn ∧ txin.Input = r))) ∧
    (∀ r o, c.AddedTxs r = some o ↔
      (s.changes.AddedTxs r = some o ∨
        ∃ t ∈ txs, r.Hash = t.Hash ∧ t.TxOut.get? r.Vout = some o)) := by
  induction txs generalizing i s with
  | nil =>
    simp only [txLoop] at h
    split at h
    · simp at h
    · simp only [Res.ok.injEq, Prod.mk.injEq, and_true] at h
      subst h
      simp
  | cons t rest ih =>
    simp only [txLoop] at h
    split at h
    · simp at h
    · simp at h
    · next r hp =>
      simp only [Res.ok.injEq] at h
      subst h
      exact absurd rfl (processTx_ret hp)
    · next s1 hp =>
      have hnoneD : ∀ r, r.Hash = t.Hash → s.changes.DeledTxs r = none := by
        intro r hr
        cases hx : s.changes.DeledTxs r with
        | none => rfl
        | some x => exact absurd hr.symm (hD r (by simp [hx]) t (List.mem_cons_self _ _))
      have hnoneA : ∀ r, r.Hash = t.Hash → s.changes.AddedTxs r = none := by
        intro r hr
        cases hx : s.changes.AddedTxs r with
        | none => rfl
        | some x => exact absurd hr.symm (hA r (by simp [hx]) t (List.mem_cons_self _ _))
      obtain ⟨p1, p2, p3⟩ := processTx_exact hp hsub
        (fun hi txin hin =>
          ⟨(hled 0 t rfl (by omega) txin hin).1,
           (hled 0 t rfl (by omega) txin hin).2 t (List.mem_cons_self _ _)⟩)
        (hlen t (List.mem_cons_self _ _)) hnoneD hnoneA
      obtain ⟨q1, q2, q3⟩ := ih (i + 1) s1 h
        (fun r o h1 => hsub r o (processTx_slot_mono hp r o h1))
        (List.pairwise_cons.1 hdist).2
        (fun k tx hk _ txin hin =>
          ⟨(hled (k + 1) tx (by simpa using hk) (by omega) txin hin).1,
           fun t1 ht1 => (hled (k + 1) tx (by simpa using hk) (by omega) txin hin).2 t1
             (List.mem_cons_of_mem _ ht1)⟩)
        (fun t1 ht1 => hlen t1 (List.mem_cons_of_mem _ ht1))
        (by
          intro r hr t1 ht1
          cases hx : s1.changes.DeledTxs r with
          | none => exact absurd hx hr
          | some x =>
            rcases (p2 r x).1 hx with h1 | ⟨hi, _, txin, h3, h4⟩
            · exact hD r (by simp [h1]) t1 (List.mem_cons_of_mem _ ht1)
            · have := (hled 0 t rfl (by omega) txin h3).2 t1 (List.mem_cons_of_mem _ ht1)
              rw [h4] at this
              exact this)
        (by
          intro r hr t1 ht1
          cases hx : s1.changes.AddedTxs r with
          | none => exact absurd hx hr
          | some x =>
            rcases (p3 r x).1 hx with h1 | ⟨h2, _⟩
            · exact hA r (by simp [h1]) t1 (List.mem_cons_of_mem _ ht1)
            · rw [h2]
              exact fun hh => (List.pairwise_cons.1 hdist).1 t1 ht1 hh.symm)
      refine ⟨by rw [q1, p1], ?_, ?_⟩
      · intro r o
        rw [q2 r o, p2 r o]
        constructor
        · rintro ((h1 | ⟨hi, h2, txin, h3, h4⟩) | ⟨h2, k, tx, txin, h3, h4, h5, h6⟩)
          · exact Or.inl h1
          · exact Or.inr ⟨h2, 0, t, txin, rfl, by omega, h3, h4⟩
          · exact Or.inr ⟨h2, k + 1, tx, txin, by simpa using h3, by omega, h5, h6⟩
        · rintro (h1 | ⟨h2, k, tx, txin, h3, h4, h5, h6⟩)
          · exact Or.inl (Or.inl h1)
          · cases k with
            | zero =>
              simp only [List.get?_cons_zero, Option.some.injEq] at h3
              subst h3
              exact Or.inl (Or.inr ⟨by omega, h2, txin, h5, h6⟩)
            | succ k =>
              exact Or.inr ⟨h2, k, tx, txin, by simpa using h3, by omega, h5, h6⟩
      · intro r o
        rw [q3 r o, p3 r o]
        constructor
        · rintro ((h1 | ⟨h2, h3⟩) | ⟨t1, h2, h3, h4⟩)
          · exact Or.inl h1
          · exact Or.inr ⟨t, List.mem_cons_self _ _, h2, h3⟩
          · exact Or.inr ⟨t1, List.mem_cons_of_mem _ h2, h3, h4⟩
        · rintro (h1 | ⟨t1, h2, h3, h4⟩)
          · exact Or.inl (Or.inl h1)
          · rcases List.mem_cons.1 h2 with rfl | h2
            · exact Or.inl (Or.inr ⟨h3, h4⟩)
            · exact Or.inr ⟨t1, h2, h3, h4⟩

theorem stampTx_out_get (height : Nat) (tx : Tx) (v : Nat) (o : TxOut) :
    (stampTx height tx).TxOut.get? v = some o ↔
      ∃ o0, tx.TxOut.get? v = some o0 ∧ o = { o0 with BlockHeight := height } := by
  simp only [stampTx, List.get?_eq_getElem?, List.getElem?_map, Option.map_eq_some']
  constructor
  · rintro ⟨o0, h1, h2⟩
    exact ⟨o0, h1, h2.symm⟩
  · rintro ⟨o0, h1, h2⟩
    exact ⟨o0, h1, h2.symm⟩

/-- C17: for every block with pairwise distinct transaction hashes on which
`ProcessBlockTransactions` returns a nil error, in which every input of a transaction
other than the first is held by the ledger and carries the hash of no transaction of the
block (the number of outputs of a transaction fitting the `uint32` output number of a
reference): the returned delta has the given height; its `DeledTxs` maps exactly the
references of the inputs of the transactions other than the first, each to the record of
the ledger; its `AddedTxs` maps exactly the pairs (hash of a transaction, j), with j below
the number of its outputs, the first transaction included, each to that output with
`BlockHeight` set to the given height. -/
theorem ProcessBlockTransactions_delta_exact (env : Env) (ch : Chain) (sched : Nat → Nat)
    (bl : Block) (height : Nat) (c : BlockChanges)
    (h : ProcessBlockTransactions env ch sched bl height = .ok (c, none))
    (hdist : bl.Txs.Pairwise fun a b => a.Hash ≠ b.Hash)
    (hled : ∀ i tx, 0 < i → bl.Txs.get? i = some tx → ∀ txin ∈ tx.TxIn,
      ch.PickUnspent txin.Input ≠ none ∧ ∀ t ∈ bl.Txs, t.Hash ≠ txin.Input.Hash)
    (hlen : ∀ t ∈ bl.Txs, t.TxOut.length ≤ 2 ^ 32) :
    c.Height = height ∧
    (∀ r o, c.DeledTxs r = some o ↔
      (ch.PickUnspent r = some o ∧ ∃ i tx txin, 0 < i ∧ bl.Txs.get? i = some tx ∧
        txin ∈ tx.TxIn ∧ txin.Input = r)) ∧
    (∀ r o, c.AddedTxs r = some o ↔
      ∃ i tx o0, bl.Txs.get? i = some tx ∧ r.Hash = tx.Hash ∧
        tx.TxOut.get? r.Vout = some o0 ∧ o = { o0 with BlockHeight := height }) := by
  unfold ProcessBlockTransactions commitTxs at h
  have hget : ∀ k tx, (stampBlock bl height).Txs.get? k = some tx →
      ∃ tx0, bl.Txs.get? k = some tx0 ∧ tx = stampTx height tx0 := by
    intro k tx hk
    rw [stampBlock_get] at hk
    cases hq : bl.Txs.get? k with
    | none => rw [hq] at hk; simp at hk
    | some tx0 =>
      rw [hq] at hk
      exact ⟨tx0, rfl, (Option.some.inj hk).symm⟩
  obtain ⟨q1, q2, q3⟩ := txLoop_exact env ch sched (stampBlock bl height) 0
    (stampBlock bl height).Txs _ c h (initSt_sub env bl _)
    (by
      simp only [stampBlock]
      exact List.Pairwise.map _ (fun a b hab => hab) hdist)
    (by
      intro k tx hk hpos txin hin
      obtain ⟨tx0, hk0, rfl⟩ := hget k tx hk
      obtain ⟨g1, g2⟩ := hled k tx0 (by omega) hk0 txin hin
      refine ⟨g1, ?_⟩
      intro t1 ht1
      obtain ⟨t0, ht0, rfl⟩ := stampBlock_mem bl height t1 ht1
      exact g2 t0 ht0)
    (by
      intro t1 ht1
      obtain ⟨t0, ht0, rfl⟩ := stampBlock_mem bl height t1 ht1
      simpa [stampTx] using hlen t0 ht0)
    (by intro r hr; exact absurd rfl hr)
    (by intro r hr; exact absurd rfl hr)
  refine ⟨q1, ?_, ?_⟩
  · intro r o
    rw [q2 r o]
    constructor
    · rintro (h1 | ⟨h2, k, tx, txin, h3, h4, h5, h6⟩)
      · exact absurd h1 (by simp [initSt, TxMap.empty])
      · obtain ⟨tx0, hk0, rfl⟩ := hget k tx h3
        exact ⟨h2, k, tx0, txin, by omega, hk0, h5, h6⟩
    · rintro ⟨h2, k, tx0, txin, h3, h4, h5, h6⟩
      refine Or.inr ⟨h2, k, stampTx height tx0, txin, ?_, by omega, h5, h6⟩
      rw [stampBlock_get, h4]
      rfl
  · intro r o
    rw [q3 r o]
    constructor
    · rintro (h1 | ⟨t1, h2, h3, h4⟩)
      · exact absurd h1 (by simp [initSt, TxMap.empty])
      · obtain ⟨k, hk⟩ := List.get?_of_mem h2
        obtain ⟨tx0, hk0, rfl⟩ := hget k t1 hk
        obtain ⟨o0, h5, h6⟩ := (stampTx_out_get height tx0 r.Vout o).1 h4
        exact ⟨k, tx0, o0, hk0, h3, h5, h6⟩
    · rintro ⟨k, tx0, o0, h2, h3, h4, h5⟩
      refine Or.inr ⟨stampTx height tx0, ?_, h3, (stampTx_out_get height tx0 r.Vout o).2 ⟨o0, h4, h5⟩⟩
      apply List.get?_mem (n := k)
      rw [stampBlock_get, h2]
      rfl

theorem ProcessBlockTransactions_delta_exact_witness :
    ∃ c, ProcessBlockTransactions exEnv exChain exSched (exBlock [exCoinbase 50, exSpend]) 1
        = .ok (c, none) ∧
      c.Height = 1 ∧
      (∀ r o, c.DeledTxs r = some o ↔
        (exChain.PickUnspent r = some o ∧ ∃ i tx txin, 0 < i ∧
          (exBlock [exCoinbase 50, exSpend]).Txs.get? i = some tx ∧
          txin ∈ tx.TxIn ∧ txin.Input = r)) ∧
      (∀ r o, c.AddedTxs r = some o ↔
        ∃ i tx o0, (exBlock [exCoinbase 50, exSpend]).Txs.get? i = some tx ∧
          r.Hash = tx.Hash ∧ tx.TxOut.get? r.Vout = some o0 ∧
          o = { o0 with BlockHeight := 1 }) :=
  match Res.error_eq_some (r := ProcessBlockTransactions exEnv exChain exSched
      (exBlock [exCoinbase 50, exSpend]) 1) (e := none) (by decide) with
  | ⟨c, hc⟩ =>
    ⟨c, hc, ProcessBlockTransactions_delta_exact exEnv exChain exSched
      (exBlock [exCoinbase 50, exSpend]) 1 c hc (by decide)
      (by
        intro i tx hi hg txin hin
        match i, hi, hg with
        | 1, _, hg =>
          simp only [exBlock, List.get?_cons_succ, List.get?_cons_zero, Option.some.injEq] at hg
          subst hg
          simp only [exSpend, List.mem_singleton] at hin
          subst hin
          decide
        | (n + 2), _, hg => simp [exBlock] at hg)
      (by decide)⟩

/-! ## Value held by the delta (C19) -/

theorem TxMap.value_set_self (m : TxMap) (k : TxPrevOut) (v : TxOut) :
    (m.set k v).value k = v.Value := by
  simp [TxMap.value, TxMap.set]

theorem TxMap.value_set_other (m : TxMap) (k : TxPrevOut) (v : TxOut) (r : TxPrevOut)
    (h : r ≠ k) : (m.set k v).value r = m.value r := by
  simp [TxMap.value, TxMap.set, h]

theorem TxMap.value_del_self (m : TxMap) (k : TxPrevOut) : (m.del k).value k = 0 := by
  simp [TxMap.value, TxMap.del]

theorem TxMap.value_del_other (m : TxMap) (k : TxPrevOut) (r : TxPrevOut)
    (h : r ≠ k) : (m.del k).value r = m.value r := by
  simp [TxMap.value, TxMap.del, h]

/-- Insertion of a record replaces the value held for the key. -/
theorem TxMap.total_set (m : TxMap) (k : TxPrevOut) (v : TxOut) (U : Finset TxPrevOut)
    (hk : k ∈ U) : (m.set k v).total U + m.value k = m.total U + v.Value := by
  unfold TxMap.total
  rw [← Finset.add_sum_erase U (m.set k v).value hk, ← Finset.add_sum_erase U m.value hk]
  rw [TxMap.value_set_self]
  have : (U.erase k).sum (fun x => (m.set k v).value x) = (U.erase k).sum fun x => m.value x := by
    apply Finset.sum_congr rfl
    intro x hx
    exact TxMap.value_set_other m k v x (Finset.ne_of_mem_erase hx)
  rw [this]
  omega

/-- Deletion of a record removes the value held for the key. -/
theorem TxMap.total_del (m : TxMap) (k : TxPrevOut) (U : Finset TxPrevOut)
    (hk : k ∈ U) : (m.del k).total U + m.value k = m.total U := by
  unfold TxMap.total
  rw [← Finset.add_sum_erase U (m.del k).value hk, ← Finset.add_sum_erase U m.value hk]
  rw [TxMap.value_del_self]
  have : (U.erase k).sum (fun x => (m.del k).value x) = (U.erase k).sum fun x => m.value x := by
    apply Finset.sum_congr rfl
    intro x hx
    exact TxMap.value_del_other m k x (Finset.ne_of_mem_erase hx)
  rw [this]
  omega

/-- The total does not depend on the set of references, as long as the set holds every
key of the map. -/
theorem TxMap.total_eq (m : TxMap) (U V : Finset TxPrevOut)
    (hU : ∀ r, m r ≠ none → r ∈ U) (hV : ∀ r, m r ≠ none → r ∈ V) :
    m.total U = m.total V := by
  have sub : ∀ W : Finset TxPrevOut, (∀ r, m r ≠ none → r ∈ W) → W ⊆ U ∪ V →
      m.total W = m.total (U ∪ V) := by
    intro W hW hsub
    unfold TxMap.total
    apply Finset.sum_subset hsub
    intro x _ hx
    unfold TxMap.value
    cases hm : m x with
    | none => rfl
    | some o => exact absurd (hW x (by simp [hm])) hx
  rw [sub U hU Finset.subset_union_left, sub V hV Finset.subset_union_right]

/-- In every run of the input loop whose references are in the set, the value recorded as
spent grows by at least what the input total grows by. -/
theorem inputLoop_total (env : Env) (ch : Chain) (sched : Nat → Nat) (bl : Block) (tx : Tx)
    (tr : Bool) (U : Finset TxPrevOut) (j : Nat) (ins : List TxIn) (s s1 : InSt)
    (h : inputLoop env ch sched bl tx tr j ins s = .ok s1)
    (hU : ∀ txin ∈ ins, txin.Input ∈ U) :
    s.DeledTxs.total U + s1.txinsum ≤ s1.DeledTxs.total U + s.txinsum := by
  refine inputLoop_cases env ch sched bl tx tr
    (fun _ ins s s1 => (∀ txin ∈ ins, txin.Input ∈ U) →
      s.DeledTxs.total U + s1.txinsum ≤ s1.DeledTxs.total U + s.txinsum)
    ?_ ?_ ?_ ?_ ?_ j ins s s1 h hU
  · intro j s _
    exact Nat.le_refl _
  · intro j txin rest s _ _
    exact Nat.le_refl _
  · intro j txin rest s err _ _ _
    exact Nat.le_refl _
  · intro j txin rest s tout m1 d1 _ _ _ _
    exact Nat.le_refl _
  · intro j txin rest s tout m1 d1 d2 s1 hd _ _ _ _ ih hU
    have hnone : s.DeledTxs txin.Input = none := by
      cases hx : s.DeledTxs txin.Input with
      | none => rfl
      | some x => simp [hx] at hd
    have h1 := ih (fun t ht => hU t (List.mem_cons_of_mem _ ht))
    have h2 := TxMap.total_set s.DeledTxs txin.Input tout U (hU txin (List.mem_cons_self _ _))
    have h3 : s.DeledTxs.value txin.Input = 0 := by simp [TxMap.value, hnone]
    have h4 := u64_le (s.txinsum + tout.Value)
    simp only [InSt.submitted] at h1
    omega

/-- The output loop over a set that holds the references to the outputs: when every
record of a spent output that the loop meets is worth no more than the output, the value
recorded as created grows by no more than the value of the outputs and the value removed
from the records of spent outputs. -/
theorem outputLoop_total (U : Finset TxPrevOut) (hash j : Nat) (outs : List TxOut) (s : OutSt)
    (hU : ∀ k, k < outs.length → (⟨hash, u32 (j + k)⟩ : TxPrevOut) ∈ U)
    (hV : ∀ k o x, outs.get? k = some o → s.DeledTxs ⟨hash, u32 (j + k)⟩ = some x →
      (∀ k1, k1 < k → u32 (j + k1) ≠ u32 (j + k)) → x.Value ≤ o.Value) :
    (outputLoop hash j outs s).AddedTxs.total U + s.DeledTxs.total U ≤
      s.AddedTxs.total U + (outputLoop hash j outs s).DeledTxs.total U +
        (outs.map fun o => o.Value).sum := by
  induction outs generalizing j s with
  | nil => simp [outputLoop]
  | cons o0 rest ih =>
    rw [outputLoop_cons]
    obtain ⟨_, f2, _, _, _, f6, _⟩ := outStep_facts hash j o0 s
    have hk : (⟨hash, u32 j⟩ : TxPrevOut) ∈ U := by
      simpa using hU 0 (by simp)
    have h1 := ih (j + 1) (outStep hash j o0 s)
      (by
        intro k hk1
        have := hU (k + 1) (by simpa using hk1)
        rwa [show j + (k + 1) = j + 1 + k by omega] at this)
      (by
        intro k o x hg hx hfresh
        have hx1 := f2 _ _ hx
        rw [show j + 1 + k = j + (k + 1) by omega] at hx1
        refine hV (k + 1) o x (by simpa using hg) hx1 ?_
        intro k1 hk1
        cases k1 with
        | zero =>
          intro heq
          rw [show j + 1 + k = j + (k + 1) by omega, ← heq] at hx
          simp only [Nat.add_zero] at hx
          rw [f6] at hx
          simp at hx
        | succ k1 =>
          have := hfresh k1 (by omega)
          rwa [show j + 1 + k1 = j + (k1 + 1) by omega,
            show j + 1 + k = j + (k + 1) by omega] at this)
    simp only [List.map_cons, List.sum_cons]
    cases hd : s.DeledTxs ⟨hash, u32 j⟩ with
    | some x =>
      have hstep : outStep hash j o0 s = ⟨u64 (s.txoutsum + o0.Value), s.AddedTxs, s.DeledTxs.del ⟨hash, u32 j⟩⟩ := by
        unfold outStep
        rw [hd]
        rfl
      rw [hstep] at h1 ⊢
      have h2 := TxMap.total_del s.DeledTxs ⟨hash, u32 j⟩ U hk
      have h3 : s.DeledTxs.value ⟨hash, u32 j⟩ = x.Value := by simp [TxMap.value, hd]
      have h4 : x.Value ≤ o0.Value :=
        hV 0 o0 x rfl (by simpa using hd) (by intro k1 hk1; omega)
      simp only at h1
      omega
    | none =>
      have hstep : outStep hash j o0 s = ⟨u64 (s.txoutsum + o0.Value), s.AddedTxs.set ⟨hash, u32 j⟩ o0, s.DeledTxs⟩ := by
        unfold outStep
        rw [hd]
        rfl
      rw [hstep] at h1 ⊢
      have h2 := TxMap.total_set s.AddedTxs ⟨hash, u32 j⟩ o0 U hk
      simp only at h1
      omega

/-- The body of the loop and the values: when every record of a spent output is the
output its reference denotes and a reference with the hash of the transaction denotes an
output of the transaction, the block totals and the values held by the delta stay in
balance, the block output total being exact as long as it stays below `2^64`. -/
theorem processTx_total {env : Env} {ch : Chain} {sched : Nat → Nat} {bl : Block} {i : Nat}
    {t : Tx} {s s1 : CommitSt} (U : Finset TxPrevOut) (R : Nat)
    (h : processTx env ch sched bl i t s = .ok (.inr s1))
    (hsub : ∀ r o, slot s.blUnsp r = some o → slot (mkBlUnsp bl.Txs fun _ => none) r = some o)
    (hUin : ∀ txin ∈ t.TxIn, txin.Input ∈ U)
    (hUout : ∀ k, k < t.TxOut.length → (⟨t.Hash, u32 k⟩ : TxPrevOut) ∈ U)
    (hV : ∀ r x, s.changes.DeledTxs r = some x → lookupOut ch bl r = some x)
    (hown : ∀ k x, lookupOut ch bl ⟨t.Hash, k⟩ = some x → t.TxOut.get? k = some x)
    (hsum : s.sumblockout + (t.TxOut.map fun o => o.Value).sum < 2 ^ 64)
    (hJ : s.changes.AddedTxs.total U + s.sumblockin ≤
      s.changes.DeledTxs.total U + s.sumblockout + R) :
    (∀ r x, s1.changes.DeledTxs r = some x → lookupOut ch bl r = some x) ∧
    s1.sumblockout = s.sumblockout + (t.TxOut.map fun o => o.Value).sum ∧
    s1.changes.AddedTxs.total U + s1.sumblockin ≤
      s1.changes.DeledTxs.total U + s1.sumblockout + R := by
  obtain ⟨deled, txinsum, h1, h2, h3, h4⟩ := processTx_next h
  have hdeled : (∀ r x, deled r = some x → lookupOut ch bl r = some x) ∧
      s.changes.DeledTxs.total U + txinsum ≤ deled.total U := by
    rcases h4 with ⟨_, hd, ht, _⟩ | ⟨_, sI, hI, hok, he, hd, hs, _⟩
    · subst hd ht
      exact ⟨hV, Nat.le_refl _⟩
    · obtain ⟨d0, sA, _, g2, g3, _, _, g6, _, g8, g9⟩ := checkInputs_ok hI hok
      rw [← hd, g8, ← hs, g9]
      constructor
      · intro r x hx
        rcases (inputLoop_success_deled env ch sched bl t _ 0 t.TxIn _ sA g2
          (by rw [← g6]; exact he) g3 (by simpa [InSt.start] using hsub) r x).1 hx with
          h5 | ⟨_, _, _, h6⟩
        · exact hV r x (by simpa [InSt.start] using h5)
        · exact h6
      · have := inputLoop_total env ch sched bl t _ U 0 t.TxIn _ sA g2 hUin
        simpa [InSt.start] using this
  obtain ⟨hVd, hin⟩ := hdeled
  have hout := outputLoop_total U t.Hash 0 t.TxOut ⟨0, s.changes.AddedTxs, deled⟩
    (by intro k hk; simpa using hUout k hk)
    (by
      intro k o x hg hx hfresh
      simp only [Nat.zero_add] at hx hfresh
      have hk : k < 2 ^ 32 := by
        by_contra hge
        have hlt : k % 2 ^ 32 < k := by
          have := Nat.mod_lt k (show 0 < 2 ^ 32 by norm_num)
          omega
        exact hfresh (k % 2 ^ 32) hlt (by unfold u32; simp)
      have hu : u32 k = k := Nat.mod_eq_of_lt hk
      rw [hu] at hx
      have := hown k x (hVd _ _ hx)
      rw [hg] at this
      rw [Option.some.inj this])
  have hts : (outputLoop t.Hash 0 t.TxOut ⟨0, s.changes.AddedTxs, deled⟩).txoutsum =
      (t.TxOut.map fun o => o.Value).sum := by
    rw [outputLoop_sum _ _ _ _ (by norm_num)]
    simp only [Nat.zero_add]
    exact u64_of_lt (by omega)
  rw [hts] at h3
  rw [u64_of_lt hsum] at h3
  have hdm := (outputLoop_mono t.Hash 0 t.TxOut ⟨0, s.changes.AddedTxs, deled⟩).1
  have hle := u64_le (s.sumblockin + txinsum)
  refine ⟨?_, h3, ?_⟩
  · intro r x hx
    rw [h1] at hx
    exact hVd r x (hdm r x hx)
  · rw [h1, h2, h3]
    simp only at hout ⊢
    omega

/-- The loop over the transactions and the values: if it returns a nil error, the value
recorded as created exceeds the value recorded as spent by no more than what the block
input total exceeded the block output total by at the start. -/
theorem txLoop_total (env : Env) (ch : Chain) (sched : Nat → Nat) (bl : Block)
    (U : Finset TxPrevOut) (R : Nat) (i : Nat) (txs : List Tx) (s : CommitSt)
    (c : BlockChanges) (h : txLoop env ch sched bl i txs s = .ok (c, none))
    (hsub : ∀ r o, slot s.blUnsp r = some o → slot (mkBlUnsp bl.Txs fun _ => none) r = some o)
    (hUin : ∀ t ∈ txs, ∀ txin ∈ t.TxIn, txin.Input ∈ U)
    (hUout : ∀ t ∈ txs, ∀ k, k < t.TxOut.length → (⟨t.Hash, u32 k⟩ : TxPrevOut) ∈ U)
    (hV : ∀ r x, s.changes.DeledTxs r = some x → lookupOut ch bl r = some x)
    (hown : ∀ t ∈ txs, ∀ k x, lookupOut ch bl ⟨t.Hash, k⟩ = some x → t.TxOut.get? k = some x)
    (hsum : s.sumblockout + (txs.map fun t => (t.TxOut.map fun o => o.Value).sum).sum < 2 ^ 64)
    (hJ : s.changes.AddedTxs.total U + s.sumblockin ≤
      s.changes.DeledTxs.total U + s.sumblockout + R) :
    c.AddedTxs.total U ≤ c.DeledTxs.total U + R := by
  induction txs generalizing i s with
  | nil =>
    simp only [txLoop] at h
    split at h
    · simp at h
    · next hlt =>
      simp only [Res.ok.injEq, Prod.mk.injEq, and_true] at h
      subst h
      omega
  | cons t rest ih =>
    simp only [txLoop] at h
    split at h
    · simp at h
    · simp at h
    · next r hp =>
      simp only [Res.ok.injEq] at h
      subst h
      exact absurd rfl (processTx_ret hp)
    · next s1 hp =>
      simp only [List.map_cons, List.sum_cons] at hsum
      obtain ⟨p1, p2, p3⟩ := processTx_total U R hp hsub
        (hUin t (List.mem_cons_self _ _)) (hUout t (List.mem_cons_self _ _)) hV
        (hown t (List.mem_cons_self _ _)) (by omega) hJ
      exact ih (i + 1) s1 h (fun r o h1 => hsub r o (processTx_slot_mono hp r o h1))
        (fun t1 ht1 => hUin t1 (List.mem_cons_of_mem _ ht1))
        (fun t1 ht1 => hUout t1 (List.mem_cons_of_mem _ ht1)) p1
        (fun t1 ht1 => hown t1 (List.mem_cons_of_mem _ ht1))
        (by rw [p2]; omega) p3

/-- The body of the loop records as created only outputs of the transaction, and as spent
only references of its inputs. -/
theorem processTx_support {env : Env} {ch : Chain} {sched : Nat → Nat} {bl : Block} {i : Nat}
    {t : Tx} {s s1 : CommitSt} (h : processTx env ch sched bl i t s = .ok (.inr s1)) :
    (∀ r, s1.changes.AddedTxs r ≠ none → s.changes.AddedTxs r ≠ none ∨
      ∃ v, v < t.TxOut.length ∧ r = ⟨t.Hash, u32 v⟩) ∧
    (∀ r, s1.changes.DeledTxs r ≠ none → s.changes.DeledTxs r ≠ none ∨
      ∃ txin ∈ t.TxIn, txin.Input = r) := by
  have key : ∀ D : TxMap,
      s1.changes.AddedTxs = (outputsOf t s D).AddedTxs →
      s1.changes.DeledTxs = (outputsOf t s D).DeledTxs →
      (∀ r, D r ≠ none → s.changes.DeledTxs r ≠ none ∨ ∃ txin ∈ t.TxIn, txin.Input = r) →
      (∀ r, s1.changes.AddedTxs r ≠ none → s.changes.AddedTxs r ≠ none ∨
        ∃ v, v < t.TxOut.length ∧ r = ⟨t.Hash, u32 v⟩) ∧
      (∀ r, s1.changes.DeledTxs r ≠ none → s.changes.DeledTxs r ≠ none ∨
        ∃ txin ∈ t.TxIn, txin.Input = r) := by
    intro D hA hD hsup
    obtain ⟨m1, _, _, _, m5⟩ := outputLoop_mono t.Hash 0 t.TxOut ⟨0, s.changes.AddedTxs, D⟩
    constructor
    · intro r hr
      rw [hA] at hr
      rcases m5 r hr with h1 | ⟨v, hv, h2⟩
      · exact Or.inl h1
      · exact Or.inr ⟨v, hv, by simpa using h2⟩
    · intro r hr
      rw [hD] at hr
      cases hx : (outputsOf t s D).DeledTxs r with
      | none => exact absurd hx hr
      | some x =>
        apply hsup r
        have hx1 : D r = some x := m1 r x hx
        rw [hx1]
        simp
  by_cases hi : 0 < i
  · obtain ⟨d0, sA, _, g2, _, _, _, _, g7, g8, _⟩ := processTx_inputs h hi
    obtain ⟨_, _, m3, _⟩ := inputLoop_mono env ch sched bl t _ 0 t.TxIn _ sA g2
    exact key sA.DeledTxs g7 g8 (by simpa [InSt.start] using m3)
  · have hi0 : i = 0 := by omega
    subst hi0
    obtain ⟨_, g7, g8⟩ := processTx_first h
    exact key s.changes.DeledTxs g7 g8 (fun r hr => Or.inl hr)

/-- The delta returned with a nil error holds, besides what it held at the start, only
records of outputs and of input references of the transactions gone through. -/
theorem txLoop_support (env : Env) (ch : Chain) (sched : Nat → Nat) (bl : Block) (i : Nat)
    (txs : List Tx) (s : CommitSt) (c : BlockChanges)
    (h : txLoop env ch sched bl i txs s = .ok (c, none)) :
    (∀ r, c.AddedTxs r ≠ none → s.changes.AddedTxs r ≠ none ∨
      ∃ t ∈ txs, ∃ v, v < t.TxOut.length ∧ r = ⟨t.Hash, u32 v⟩) ∧
    (∀ r, c.DeledTxs r ≠ none → s.changes.DeledTxs r ≠ none ∨
      ∃ t ∈ txs, ∃ txin ∈ t.TxIn, txin.Input = r) := by
  induction txs generalizing i s with
  | nil =>
    simp only [txLoop] at h
    split at h
    · simp at h
    · simp only [Res.ok.injEq, Prod.mk.injEq, and_true] at h
      subst h
      exact ⟨fun r hr => Or.inl hr, fun r hr => Or.inl hr⟩
  | cons t rest ih =>
    simp only [txLoop] at h
    split at h
    · simp at h
    · simp at h
    · next r hp =>
      simp only [Res.ok.injEq] at h
      subst h
      exact absurd rfl (processTx_ret hp)
    · next s1 hp =>
      obtain ⟨p1, p2⟩ := processTx_support hp
      obtain ⟨q1, q2⟩ := ih (i + 1) s1 h
      constructor
      · intro r hr
        rcases q1 r hr with h1 | ⟨t1, h2, h3⟩
        · rcases p1 r h1 with h4 | h5
          · exact Or.inl h4
          · exact Or.inr ⟨t, List.mem_cons_self _ _, h5⟩
        · exact Or.inr ⟨t1, List.mem_cons_of_mem _ h2, h3⟩
      · intro r hr
        rcases q2 r hr with h1 | ⟨t1, h2, h3⟩
        · rcases p2 r h1 with h4 | h5
          · exact Or.inl h4
          · exact Or.inr ⟨t, List.mem_cons_self _ _, h5⟩
        · exact Or.inr ⟨t1, List.mem_cons_of_mem _ h2, h3⟩

theorem mem_blockRefs (bl : Block) (r : TxPrevOut) :
    r ∈ blockRefs bl ↔ ∃ t ∈ bl.Txs, (∃ txin ∈ t.TxIn, txin.Input = r) ∨
      ∃ v, v < t.TxOut.length ∧ r = ⟨t.Hash, u32 v⟩ := by
  simp only [blockRefs, List.mem_toFinset, List.mem_flatMap, List.mem_append, List.mem_map,
    List.mem_range]
  constructor
  · rintro ⟨t, ht, h1 | ⟨v, hv, h2⟩⟩
    · exact ⟨t, ht, Or.inl h1⟩
    · exact ⟨t, ht, Or.inr ⟨v, hv, h2.symm⟩⟩
  · rintro ⟨t, ht, h1 | ⟨v, hv, h2⟩⟩
    · exact ⟨t, ht, Or.inl h1⟩
    · exact ⟨t, ht, Or.inr ⟨v, hv, h2.symm⟩⟩

theorem TxMap.total_empty (U : Finset TxPrevOut) : TxMap.empty.total U = 0 := by
  simp [TxMap.total, TxMap.value, TxMap.empty]

/-- C19: for every block with pairwise distinct transaction hashes, none of which is the
hash of a reference held by the ledger, and whose output values add up to less than
`2^64`: if `commitTxs`, started on the fresh delta of `ProcessBlockTransactions`, returns a
nil error, then the keys of `AddedTxs` and `DeledTxs` are references of the block (input
references and references to outputs), and over every finite set of references that holds
these keys the values of the records in `AddedTxs` add up to at most the values of the
records in `DeledTxs` plus `GetBlockReward(height)`. -/
theorem commitTxs_value_bound (env : Env) (ch : Chain) (sched : Nat → Nat) (bl : Block)
    (height : Nat) (c : BlockChanges)
    (h : commitTxs env ch sched bl (freshChanges height) = .ok (c, none))
    (hdist : bl.Txs.Pairwise fun a b => a.Hash ≠ b.Hash)
    (hled : ∀ r, ch.PickUnspent r ≠ none → ∀ t ∈ bl.Txs, t.Hash ≠ r.Hash)
    (hsum : (bl.Txs.map fun t => (t.TxOut.map fun o => o.Value).sum).sum < 2 ^ 64) :
    (∀ r, c.AddedTxs r ≠ none ∨ c.DeledTxs r ≠ none → r ∈ blockRefs bl) ∧
    ∀ U : Finset TxPrevOut, (∀ r, c.AddedTxs r ≠ none ∨ c.DeledTxs r ≠ none → r ∈ U) →
      c.AddedTxs.total U ≤ c.DeledTxs.total U + env.GetBlockReward height := by
  unfold commitTxs at h
  have hheight : (freshChanges height).Height = height := rfl
  rw [hheight] at h
  have hsupp : ∀ r, c.AddedTxs r ≠ none ∨ c.DeledTxs r ≠ none → r ∈ blockRefs bl := by
    obtain ⟨q1, q2⟩ := txLoop_support env ch sched _ 0 _ _ c h
    intro r hr
    rw [mem_blockRefs]
    rcases hr with hr | hr
    · rcases q1 r hr with h1 | ⟨t, ht, v, hv, h2⟩
      · exact absurd rfl h1
      · obtain ⟨t0, ht0, rfl⟩ := stampBlock_mem bl height t ht
        exact ⟨t0, ht0, Or.inr ⟨v, by simpa [stampTx] using hv, h2⟩⟩
    · rcases q2 r hr with h1 | ⟨t, ht, txin, h2, h3⟩
      · exact absurd rfl h1
      · obtain ⟨t0, ht0, rfl⟩ := stampBlock_mem bl height t ht
        exact ⟨t0, ht0, Or.inl ⟨txin, h2, h3⟩⟩
  refine ⟨hsupp, ?_⟩
  intro U hU
  have hdist1 : (stampBlock bl height).Txs.Pairwise fun a b => a.Hash ≠ b.Hash := by
    simp only [stampBlock]
    exact List.Pairwise.map _ (fun a b hab => hab) hdist
  have hbound := txLoop_total env ch sched (stampBlock bl height) (U ∪ blockRefs bl)
    (env.GetBlockReward height) 0 (stampBlock bl height).Txs _ c h
    (initSt_sub env bl _)
    (by
      intro t ht txin hin
      obtain ⟨t0, ht0, rfl⟩ := stampBlock_mem bl height t ht
      exact Finset.mem_union_right _ ((mem_blockRefs bl _).2 ⟨t0, ht0, Or.inl ⟨txin, hin, rfl⟩⟩))
    (by
      intro t ht k hk
      obtain ⟨t0, ht0, rfl⟩ := stampBlock_mem bl height t ht
      exact Finset.mem_union_right _
        ((mem_blockRefs bl _).2 ⟨t0, ht0, Or.inr ⟨k, by simpa [stampTx] using hk, rfl⟩⟩))
    (by
      intro r x hx
      exact absurd hx (by simp [initSt, freshChanges, TxMap.empty]))
    (by
      intro t ht k x hx
      obtain ⟨t0, ht0, ht1⟩ := stampBlock_mem bl height t ht
      have hp : ch.PickUnspent ⟨t.Hash, k⟩ = none := by
        cases hq : ch.PickUnspent ⟨t.Hash, k⟩ with
        | none => rfl
        | some y =>
          exact absurd (by rw [ht1]; rfl) (hled ⟨t.Hash, k⟩ (by simp [hq]) t0 ht0)
      unfold lookupOut at hx
      rw [hp] at hx
      obtain ⟨tx, h1, h2, _, h4⟩ := slot_mkBlUnsp _ _ _ hx
      have heq : tx = t := by
        by_contra hne
        exact List.Pairwise.forall (fun a b hab => Ne.symm hab) hdist1 h1 ht hne h2
      rw [← heq]
      exact h4)
    (by
      have : ((stampBlock bl height).Txs.map fun t => (t.TxOut.map fun o => o.Value).sum) =
          bl.Txs.map fun t => (t.TxOut.map fun o => o.Value).sum := by
        simp only [stampBlock, List.map_map]
        apply List.map_congr_left
        intro t _
        simp only [Function.comp]
        rw [stampTx_values]
      rw [this]
      simpa [initSt] using hsum)
    (by
      have := u64_le (env.GetBlockReward height)
      simp only [initSt, freshChanges, TxMap.total_empty]
      omega)
  rw [TxMap.total_eq c.AddedTxs U (U ∪ blockRefs bl) (fun r hr => hU r (Or.inl hr))
      (fun r hr => Finset.mem_union_left _ (hU r (Or.inl hr))),
    TxMap.total_eq c.DeledTxs U (U ∪ blockRefs bl) (fun r hr => hU r (Or.inr hr))
      (fun r hr => Finset.mem_union_left _ (hU r (Or.inr hr)))]
  exact hbound

theorem commitTxs_value_bound_witness :
    ∃ c, commitTxs exEnv exChain exSched (exBlock [exCoinbase 50, exSpend, exChild])
        (freshChanges 1) = .ok (c, none) ∧
      (∀ r, c.AddedTxs r ≠ none ∨ c.DeledTxs r ≠ none →
        r ∈ blockRefs (exBlock [exCoinbase 50, exSpend, exChild])) ∧
      ∀ U : Finset TxPrevOut, (∀ r, c.AddedTxs r ≠ none ∨ c.DeledTxs r ≠ none → r ∈ U) →
        c.AddedTxs.total U ≤ c.DeledTxs.total U + exEnv.GetBlockReward 1 :=
  match Res.error_eq_some (r := commitTxs exEnv exChain exSched
      (exBlock [exCoinbase 50, exSpend, exChild]) (freshChanges 1)) (e := none) (by decide) with
  | ⟨c, hc⟩ =>
    ⟨c, hc, commitTxs_value_bound exEnv exChain exSched
      (exBlock [exCoinbase 50, exSpend, exChild]) 1 c hc (by decide)
      (by
        intro r hr t ht
        have h100 : r = ⟨100, 0⟩ := by
          by_contra hne
          exact hr (by simp [Chain.PickUnspent, exChain, hne])
        subst h100
        simp only [exBlock, List.mem_cons, List.mem_singleton, List.not_mem_nil, or_false] at ht
        rcases ht with rfl | rfl | rfl <;> decide)
      (by decide)⟩

/-- If the loop over the transactions, started at the first transaction, returns a nil
error, the first transaction has an input and the script of its first input has 2 to 100
bytes. -/
theorem txLoop_first_shape (env : Env) (ch : Chain) (sched : Nat → Nat) (bl : Block)
    (t : Tx) (rest : List Tx) (s : CommitSt) (c : BlockChanges)
    (h : txLoop env ch sched bl 0 (t :: rest) s = .ok (c, none)) :
    ∃ txin ins, t.TxIn = txin :: ins ∧ 2 ≤ txin.ScriptSig.length ∧
      txin.ScriptSig.length ≤ 100 := by
  simp only [txLoop] at h
  split at h
  · simp at h
  · simp at h
  · next r hp =>
    simp only [Res.ok.injEq] at h
    subst h
    exact absurd rfl (processTx_ret hp)
  · next s1 hp =>
    obtain ⟨_, _, _, _, _, h4⟩ := processTx_next hp
    rcases h4 with ⟨_, _, _, _, _, txin, ins, h5⟩ | ⟨h0, _⟩
    · exact ⟨txin, ins, h5⟩
    · omega

/-- The block totals after the body of the loop went on: the block output total grows by
the output values of the transaction, exactly as long as it stays below `2^64`, and the
block input total grows by no more than the values of the outputs that the inputs of the
transaction denote (nothing for the first transaction). -/
theorem processTx_sums {env : Env} {ch : Chain} {sched : Nat → Nat} {bl : Block} {i : Nat}
    {t : Tx} {s s1 : CommitSt} (h : processTx env ch sched bl i t s = .ok (.inr s1))
    (hsub : ∀ r o, slot s.blUnsp r = some o → slot (mkBlUnsp bl.Txs fun _ => none) r = some o)
    (hsum : s.sumblockout + (t.TxOut.map fun o => o.Value).sum < 2 ^ 64) :
    s1.sumblockout = s.sumblockout + (t.TxOut.map fun o => o.Value).sum ∧
    s1.sumblockin ≤ s.sumblockin +
      (if 0 < i then (t.TxIn.map (inValue ch bl)).sum else 0) := by
  obtain ⟨deled, txinsum, _, h2, h3, h4⟩ := processTx_next h
  have hts : (outputLoop t.Hash 0 t.TxOut ⟨0, s.changes.AddedTxs, deled⟩).txoutsum =
      (t.TxOut.map fun o => o.Value).sum := by
    rw [outputLoop_sum _ _ _ _ (by norm_num)]
    simp only [Nat.zero_add]
    exact u64_of_lt (by omega)
  rw [hts, u64_of_lt hsum] at h3
  refine ⟨h3, ?_⟩
  rw [h2]
  have hle := u64_le (s.sumblockin + txinsum)
  rcases h4 with ⟨h0, _, ht, _⟩ | ⟨hi, sI, hI, hok, he, _, hs, _⟩
  · subst h0 ht
    simpa using hle
  · obtain ⟨d0, sA, _, g2, g3, _, _, g6, _, _, g9⟩ := checkInputs_ok hI hok
    obtain ⟨_, g10, _⟩ := inputLoop_success env ch sched bl t _ 0 t.TxIn _ sA g2
      (by rw [← g6]; exact he) g3 (by simpa [InSt.start] using hsub) (by simp [InSt.start])
    have hin : txinsum ≤ (t.TxIn.map (inValue ch bl)).sum := by
      rw [← hs, g9, g10]
      simpa [InSt.start] using u64_le ((t.TxIn.map (inValue ch bl)).sum)
    simp only [hi, if_true]
    omega

/-- If the loop over the transactions returns a nil error and the block output total,
with the output values of the transactions to come, stays below `2^64`, then the output
total with these values is at most the input total with the values that the inputs of
the transactions to come denote. -/
theorem txLoop_sums (env : Env) (ch : Chain) (sched : Nat → Nat) (bl : Block) (i : Nat)
    (txs : List Tx) (s : CommitSt) (c : BlockChanges)
    (h : txLoop env ch sched bl i txs s = .ok (c, none)) (hi : 0 < i)
    (hsub : ∀ r o, slot s.blUnsp r = some o → slot (mkBlUnsp bl.Txs fun _ => none) r = some o)
    (hsum : s.sumblockout + (txs.map fun t => (t.TxOut.map fun o => o.Value).sum).sum < 2 ^ 64) :
    s.sumblockout + (txs.map fun t => (t.TxOut.map fun o => o.Value).sum).sum ≤
      s.sumblockin + (txs.map fun t => (t.TxIn.map (inValue ch bl)).sum).sum := by
  induction txs generalizing i s with
  | nil =>
    simp only [txLoop] at h
    split at h
    · simp at h
    · next hlt =>
      simp only [List.map_nil, List.sum_nil, Nat.add_zero]
      omega
  | cons t rest ih =>
    simp only [txLoop] at h
    split at h
    · simp at h
    · simp at h
    · next r hp =>
      simp only [Res.ok.injEq] at h
      subst h
      exact absurd rfl (processTx_ret hp)
    · next s1 hp =>
      simp only [List.map_cons, List.sum_cons] at hsum ⊢
      obtain ⟨p1, p2⟩ := processTx_sums hp hsub (by omega)
      simp only [hi, if_true] at p2
      have := ih (i + 1) s1 h (by omega)
        (fun r o h1 => hsub r o (processTx_slot_mono hp r o h1)) (by rw [p1]; omega)
      rw [p1] at this
      omega

/-- The block totals of `commitTxs`: if it returns a nil error and the output values of
the block add up to less than `2^64`, they add up to at most the subsidy plus the values
of the outputs that the inputs of the transactions other than the first denote. -/
theorem commitTxs_block_balanced (env : Env) (ch : Chain) (sched : Nat → Nat) (bl : Block)
    (changes c : BlockChanges) (h : commitTxs env ch sched bl changes = .ok (c, none))
    (hsum : (bl.Txs.map fun t => (t.TxOut.map fun o => o.Value).sum).sum < 2 ^ 64) :
    (bl.Txs.map fun t => (t.TxOut.map fun o => o.Value).sum).sum ≤
      env.GetBlockReward changes.Height +
        (bl.Txs.tail.map fun t =>
          (t.TxIn.map (inValue ch (stampBlock bl changes.Height))).sum).sum := by
  unfold commitTxs at h
  have hout : ∀ l : List Tx,
      ((l.map (stampTx changes.Height)).map fun t => (t.TxOut.map fun o => o.Value).sum) =
        l.map fun t => (t.TxOut.map fun o => o.Value).sum := by
    intro l
    simp only [List.map_map]
    apply List.map_congr_left
    intro t _
    simp only [Function.comp]
    rw [stampTx_values]
  have hinp : ∀ l : List Tx,
      ((l.map (stampTx changes.Height)).map fun t =>
        (t.TxIn.map (inValue ch (stampBlock bl changes.Height))).sum) =
        l.map fun t => (t.TxIn.map (inValue ch (stampBlock bl changes.Height))).sum := by
    intro l
    simp only [List.map_map]
    apply List.map_congr_left
    intro t _
    rfl
  cases hT : bl.Txs with
  | nil => simp
  | cons t rest =>
    rw [hT] at hsum
    have hB : (stampBlock bl changes.Height).Txs =
        stampTx changes.Height t :: rest.map (stampTx changes.Height) := by
      simp [stampBlock, hT]
    rw [hB] at h
    simp only [txLoop] at h
    split at h
    · simp at h
    · simp at h
    · next r hp =>
      simp only [Res.ok.injEq] at h
      subst h
      exact absurd rfl (processTx_ret hp)
    · next s1 hp =>
      simp only [List.map_cons, List.sum_cons, List.tail_cons] at hsum ⊢
      have hs0 : (initSt env bl changes).sumblockout = 0 := rfl
      have hi0 : (initSt env bl changes).sumblockin = u64 (env.GetBlockReward changes.Height) := rfl
      obtain ⟨p1, p2⟩ := processTx_sums hp (initSt_sub env bl changes)
        (by rw [hs0, stampTx_values]; omega)
      rw [hs0, stampTx_values] at p1
      rw [hi0] at p2
      simp only [Nat.lt_irrefl, if_false, Nat.add_zero, Nat.zero_add] at p1 p2
      have hle := u64_le (env.GetBlockReward changes.Height)
      have := txLoop_sums env ch sched _ 1 _ s1 c h (by omega)
        (fun r o h1 => initSt_sub env bl changes r o (processTx_slot_mono hp r o h1))
        (by rw [p1, hout]; omega)
      rw [p1, hout, hinp] at this
      omega

/-- The checks the body of the loop applies to a transaction other than the first, when
the loop goes on after it: no input was recorded as spent, every input is held by the
ledger or still has its slot in the table, no two inputs carry the same reference, and
the output values, if they add up to less than `2^64`, do not exceed the values of the
outputs the inputs denote. -/
theorem processTx_checks {env : Env} {ch : Chain} {sched : Nat → Nat} {bl : Block} {i : Nat}
    {tx : Tx} {s s1 : CommitSt} (h : processTx env ch sched bl i tx s = .ok (.inr s1))
    (hi : 0 < i) :
    (∀ txin ∈ tx.TxIn, s.changes.DeledTxs txin.Input = none ∧
      (ch.PickUnspent txin.Input = none → slot s.blUnsp txin.Input ≠ none)) ∧
    (tx.TxIn.map fun t => t.Input).Nodup ∧
    ((tx.TxOut.map fun o => o.Value).sum < 2 ^ 64 →
      (∀ r o, slot s.blUnsp r = some o → slot (mkBlUnsp bl.Txs fun _ => none) r = some o) →
      (tx.TxOut.map fun o => o.Value).sum ≤ (tx.TxIn.map (inValue ch bl)).sum) := by
  obtain ⟨d0, sA, _, g2, g3, g4, _, _, _, _, g9⟩ := processTx_inputs h hi
  obtain ⟨r1, r2⟩ := inputLoop_success_refs env ch sched bl tx _ 0 tx.TxIn _ sA g2 g3 g4
  refine ⟨?_, r2, ?_⟩
  · intro txin hin
    obtain ⟨a1, a2, _⟩ := r1 txin hin
    exact ⟨by simpa [InSt.start] using a1, by simpa [InSt.start] using a2⟩
  · intro hsum hsub
    obtain ⟨_, g10, _⟩ := inputLoop_success env ch sched bl tx _ 0 tx.TxIn _ sA g2 g3 g4
      (by simpa [InSt.start] using hsub) (by simp [InSt.start])
    have hts : (outputsOf tx s sA.DeledTxs).txoutsum = (tx.TxOut.map fun o => o.Value).sum := by
      unfold outputsOf
      rw [outputLoop_sum _ _ _ _ (by norm_num)]
      simp only [Nat.zero_add]
      exact u64_of_lt hsum
    rw [hts, g10] at g9
    have := u64_le ((InSt.start s d0).txinsum + (tx.TxIn.map (inValue ch bl)).sum)
    simp only [InSt.start, Nat.zero_add] at this g9
    omega

/-! ## Trusted blocks and transactions: the result and the checks that remain (C16) -/

/-- C16: `commitTxs` on a block marked trusted returns the same error and the same delta
whatever the script verifier is, for every ledger state; the same holds when the
trusted-transaction oracle answers true on the hash of every transaction other than the
first; and the body of the loop for one transaction that is trusted through the block or
through the oracle is the same whatever the script verifier is. The other checks are
still applied: when `commitTxs` returns a nil error on a trusted block, the script of the
first input of the first transaction has 2 to 100 bytes (coinbase shape); every input of
a transaction other than the first denotes an output of the ledger or of the block
(unknown input); no two inputs of one such transaction carry the same reference, and no
input carries the reference of an input of an earlier such transaction unless a
transaction from the earlier one up to the later one, excluded, has the hash of the
reference (double spend); the output values of each such transaction, if they add up to
less than `2^64`, do not exceed the values of the outputs its inputs denote, and the
output values of the block, if they add up to less than `2^64`, do not exceed the subsidy
plus the values of the outputs that the inputs denote (balance). Per transaction: when the
body of the loop goes on after a trusted transaction other than the first, none of its
inputs was recorded as spent, each is held by the ledger or has its slot in the table, no
two carry the same reference, and its outputs do not exceed its inputs. -/
theorem commitTxs_trusted_verifier_independent (env : Env)
    (V : List Nat → List Nat → Nat → Tx → Bool → Bool) (ch : Chain) (sched : Nat → Nat)
    (bl : Block) (changes : BlockChanges) :
    (bl.Trusted = true →
      commitTxs { env with VerifyTxScript := V } ch sched bl changes
        = commitTxs env ch sched bl changes) ∧
    ((∀ k tx, 0 < k → bl.Txs.get? k = some tx → txTrusted env bl tx = true) →
      commitTxs { env with VerifyTxScript := V } ch sched bl changes
        = commitTxs env ch sched bl changes) ∧
    (∀ i tx s, txTrusted env bl tx = true →
      processTx { env with VerifyTxScript := V } ch sched bl i tx s
        = processTx env ch sched bl i tx s) ∧
    (bl.Trusted = true → ∀ c, commitTxs env ch sched bl changes = .ok (c, none) →
      (∀ tx, bl.Txs.head? = some tx → ∃ txin ins, tx.TxIn = txin :: ins ∧
        2 ≤ txin.ScriptSig.length ∧ txin.ScriptSig.length ≤ 100) ∧
      (∀ i tx txin, 0 < i → bl.Txs.get? i = some tx → txin ∈ tx.TxIn →
        lookupOut ch (stampBlock bl changes.Height) txin.Input ≠ none) ∧
      (∀ i tx, 0 < i → bl.Txs.get? i = some tx → (tx.TxIn.map fun t => t.Input).Nodup) ∧
      (∀ i1 i2 tx1 tx2 a b, 0 < i1 → i1 < i2 → bl.Txs.get? i1 = some tx1 →
        bl.Txs.get? i2 = some tx2 → a ∈ tx1.TxIn → b ∈ tx2.TxIn →
        (∀ m t, i1 ≤ m → m < i2 → bl.Txs.get? m = some t → t.Hash ≠ a.Input.Hash) →
        a.Input ≠ b.Input) ∧
      (∀ i tx, 0 < i → bl.Txs.get? i = some tx →
        (tx.TxOut.map fun o => o.Value).sum < 2 ^ 64 →
        (tx.TxOut.map fun o => o.Value).sum
          ≤ (tx.TxIn.map (inValue ch (stampBlock bl changes.Height))).sum) ∧
      ((bl.Txs.map fun t => (t.TxOut.map fun o => o.Value).sum).sum < 2 ^ 64 →
        (bl.Txs.map fun t => (t.TxOut.map fun o => o.Value).sum).sum ≤
          env.GetBlockReward changes.Height +
            (bl.Txs.tail.map fun t =>
              (t.TxIn.map (inValue ch (stampBlock bl changes.Height))).sum).sum)) ∧
    (∀ i tx s s1, 0 < i → txTrusted env bl tx = true →
      processTx env ch sched bl i tx s = .ok (.inr s1) →
      (∀ txin ∈ tx.TxIn, s.changes.DeledTxs txin.Input = none ∧
        (ch.PickUnspent txin.Input = none → slot s.blUnsp txin.Input ≠ none)) ∧
      (tx.TxIn.map fun t => t.Input).Nodup ∧
      ((tx.TxOut.map fun o => o.Value).sum < 2 ^ 64 →
        (∀ r o, slot s.blUnsp r = some o → slot (mkBlUnsp bl.Txs fun _ => none) r = some o) →
        (tx.TxOut.map fun o => o.Value).sum ≤ (tx.TxIn.map (inValue ch bl)).sum)) := by
  have key : (∀ k tx, 0 < k → bl.Txs.get? k = some tx → txTrusted env bl tx = true) →
      commitTxs { env with VerifyTxScript := V } ch sched bl changes
        = commitTxs env ch sched bl changes := by
    intro hall
    unfold commitTxs
    have hinit : initSt { env with VerifyTxScript := V } bl changes = initSt env bl changes := rfl
    rw [hinit]
    apply txLoop_trusted
    intro k tx hk hpos
    rw [stampBlock_get] at hk
    cases hx : bl.Txs.get? k with
    | none => rw [hx] at hk; simp at hk
    | some t0 =>
      rw [hx] at hk
      simp only [Option.map_some', Option.some.injEq] at hk
      subst hk
      exact hall k t0 (by omega) hx
  have hget : ∀ k tx, bl.Txs.get? k = some tx →
      (stampBlock bl changes.Height).Txs.get? k = some (stampTx changes.Height tx) := by
    intro k tx hk
    rw [stampBlock_get, hk]; rfl
  refine ⟨?_, key, ?_, ?_, ?_⟩
  · intro hT
    apply key
    intro k tx _ _
    simp [txTrusted, hT]
  · intro i tx s htr
    exact processTx_trusted env V ch sched bl i tx s (fun _ => htr)
  · intro _ c hc
    have hc1 := hc
    unfold commitTxs at hc1
    refine ⟨?_, ?_, ?_, ?_, ?_, ?_⟩
    · intro tx htx
      cases hT : bl.Txs with
      | nil => rw [hT] at htx; simp at htx
      | cons t rest =>
        rw [hT] at htx
        simp only [List.head?_cons, Option.some.injEq] at htx
        subst htx
        have hB : (stampBlock bl changes.Height).Txs =
            stampTx changes.Height t :: rest.map (stampTx changes.Height) := by
          simp [stampBlock, hT]
        rw [hB] at hc1
        exact txLoop_first_shape env ch sched _ (stampTx changes.Height t) _ _ c hc1
    · intro i tx txin hi htx hin
      obtain ⟨j, hj⟩ := List.mem_iff_get?.1 hin
      obtain ⟨tout, h1, _⟩ := txLoop_verified env ch sched _ 0 _ _ c hc1
        (initSt_sub env bl changes) i _ (hget i tx htx) (by omega) j txin hj
      rw [h1]
      simp
    · intro i tx hi htx
      exact txLoop_inputs_nodup env ch sched _ 0 _ _ c hc1 i (stampTx changes.Height tx)
        (hget i tx htx) (by omega)
    · intro i1 i2 tx1 tx2 a b hi1 hlt h1 h2 ha hb hmid hab
      refine txLoop_no_double env ch sched _ 0 _ _ c hc1 i1 i2 (stampTx changes.Height tx1)
        (stampTx changes.Height tx2) (hget i1 tx1 h1) (hget i2 tx2 h2) (by omega) hlt a b ha hb
        hab ?_
      intro m t hm1 hm2 hmt
      rw [stampBlock_get] at hmt
      cases hx : bl.Txs.get? m with
      | none => rw [hx] at hmt; simp at hmt
      | some t0 =>
        rw [hx] at hmt
        simp only [Option.map_some', Option.some.injEq] at hmt
        subst hmt
        exact hmid m t0 hm1 hm2 hx
    · intro i tx hi htx hsum
      have := txLoop_balanced env ch sched _ 0 _ _ c hc1 (initSt_sub env bl changes) i _
        (hget i tx htx) (by omega) (by rw [stampTx_values]; exact hsum)
      rw [stampTx_values] at this
      exact this
    · intro hsum
      exact commitTxs_block_balanced env ch sched bl changes c hc hsum
  · intro i tx s s1 hi _ hp
    exact processTx_checks hp hi


/-- C16 at concrete inputs. A block marked trusted with a transaction whose script the
verifier of `exEnv` rejects is accepted, with this verifier and with one that rejects
everything, while the same block not marked trusted is rejected; the same with the oracle
answering true on that transaction. Blocks marked trusted are still rejected for a double
spend, an unknown input, a coinbase script of one byte, a transaction that spends more
than its inputs, and a block that pays out more than the subsidy; and the accepted block
has passed the balance check. -/
theorem commitTxs_trusted_verifier_independent_witness :
    (exTrustedBlock [exCoinbase 50, exNoSig]).Trusted = true ∧
    (commitTxs exEnv exChain exSched (exTrustedBlock [exCoinbase 50, exNoSig])
      (freshChanges 1)).error = some none ∧
    (commitTxs exEnv exChain exSched (exBlock [exCoinbase 50, exNoSig])
      (freshChanges 1)).error = some (some .verifyScriptsFailed) ∧
    commitTxs { exEnv with VerifyTxScript := fun _ _ _ _ _ => false } exChain exSched
        (exTrustedBlock [exCoinbase 50, exNoSig]) (freshChanges 1)
      = commitTxs exEnv exChain exSched (exTrustedBlock [exCoinbase 50, exNoSig])
        (freshChanges 1) ∧
    (commitTxs exEnvOracle exChain exSched (exBlock [exCoinbase 50, exNoSig])
      (freshChanges 1)).error = some none ∧
    commitTxs { exEnvOracle with VerifyTxScript := fun _ _ _ _ _ => false } exChain exSched
        (exBlock [exCoinbase 50, exNoSig]) (freshChanges 1)
      = commitTxs exEnvOracle exChain exSched (exBlock [exCoinbase 50, exNoSig])
        (freshChanges 1) ∧
    (commitTxs exEnv exChain exSched (exTrustedBlock [exCoinbase 50, exSpend, exSpendAgain])
      (freshChanges 1)).error = some (some .doubleSpend) ∧
    (commitTxs exEnv exChain exSched (exTrustedBlock [exCoinbase 50, exUnknown])
      (freshChanges 1)).error = some (some (.unknownInput 77)) ∧
    (commitTxs exEnv exChain exSched (exTrustedBlock [exCoinbaseLen 1])
      (freshChanges 1)).error = some (some (.coinbaseLength 1)) ∧
    (commitTxs exEnv exChain exSched (exTrustedBlock [exCoinbase 50, exSplit])
      (freshChanges 1)).error = some (some (.moreSpent 110 100 exSplit.Hash)) ∧
    (commitTxs exEnv exChain exSched (exTrustedBlock [exCoinbase 51])
      (freshChanges 1)).error = some (some (.outGtIn 51 50)) ∧
    (exNoSig.TxOut.map fun o => o.Value).sum
      ≤ (exNoSig.TxIn.map (inValue exChain
          (stampBlock (exTrustedBlock [exCoinbase 50, exNoSig]) 1))).sum :=
  ⟨rfl, by decide, by decide,
   (commitTxs_trusted_verifier_independent exEnv (fun _ _ _ _ _ => false) exChain exSched
     (exTrustedBlock [exCoinbase 50, exNoSig]) (freshChanges 1)).1 rfl,
   by decide,
   (commitTxs_trusted_verifier_independent exEnvOracle (fun _ _ _ _ _ => false) exChain exSched
     (exBlock [exCoinbase 50, exNoSig]) (freshChanges 1)).2.1 (by
       intro k tx hk hg
       match k, hk, hg with
       | 1, _, hg =>
         simp only [exBlock, List.get?_cons_succ, List.get?_cons_zero, Option.some.injEq] at hg
         subst hg
         decide
       | (n + 2), _, hg => simp [exBlock] at hg),
   by decide, by decide, by decide, by decide, by decide,
   match Res.error_eq_some (r := commitTxs exEnv exChain exSched
      (exTrustedBlock [exCoinbase 50, exNoSig]) (freshChanges 1)) (e := none) (by decide) with
   | ⟨c, hc⟩ =>
     ((commitTxs_trusted_verifier_independent exEnv (fun _ _ _ _ _ => false) exChain exSched
       (exTrustedBlock [exCoinbase 50, exNoSig]) (freshChanges 1)).2.2.2.1 rfl c hc).2.2.2.2.1
       1 exNoSig (by decide) rfl (by decide)⟩

end Gocoin
